import Mathlib

/-!
# Input parsing and command line of the GR(1) synthesis tool

A shallow embedding of `src/main.cpp` and `src/gr1context.hpp`:

* the Boolean-function package (absent from the sources) is modelled by truth tables;
* `std::string` is a list of characters, an `std::istringstream` is the list of
  characters that are still unread;
* `throw` becomes the `error` case of `Except`; what is printed on `std::cerr`
  just before the `throw` (line number, offending token) is kept as the payload of
  the error value;
* vector indices and sizes are natural numbers (the `uint` loop counters are assumed
  not to wrap: the variable table has fewer than `2 ^ 32` entries); the line counter
  `lineNumberCurrentlyRead` is an `unsigned int` and is reduced modulo `2 ^ 32`.
-/

namespace Slugs

/-! ## Strings and streams -/

/-- A `std::string`: the sequence of its characters. -/
abbrev Str := List Char

/-- The apostrophe that marks the next-state copy of a variable. -/
def primeChar : Char := Char.ofNat 39

/-- Character classification `std::isspace` in the classic locale: the space and the
control characters tab, line feed, vertical tab, form feed and carriage return. -/
def isspace (c : Char) : Bool :=
  c.toNat == 32 || (9 ≤ c.toNat && c.toNat ≤ 13)

/-- The function `boost::trim`: removes leading and trailing whitespace. -/
def trim (s : Str) : Str :=
  ((s.dropWhile isspace).reverse.dropWhile isspace).reverse

/-- Formatted extraction `is >> word` from a `std::istringstream` whose unread part is
`is`: leading whitespace is skipped and characters are taken up to the next whitespace
or the end.  The first component is the extracted word; it is empty exactly when the
stream was exhausted, in which case the target string keeps the value `""` it was
initialised with.  The second component is what is left unread. -/
def extractWord (is : Str) : Str × Str :=
  ((is.dropWhile isspace).takeWhile (fun c => !isspace c),
   (is.dropWhile isspace).dropWhile (fun c => !isspace c))

/-- Successive calls of `std::getline(inFile, currentLine)` on a file with the given
content: the content is cut at every line feed, the line feeds are dropped, and a
last line without line feed is still delivered. -/
def getlines : Str → List Str
  | [] => []
  | c :: cs =>
    if c = Char.ofNat 10 then [] :: getlines cs
    else
      match getlines cs with
      | [] => [[c]]
      | l :: ls => (c :: l) :: ls

/-! ## Boolean functions -/

/-- The role of a BDD variable:
`typedef enum { PreInput, PreOutput, PostInput, PostOutput } VariableType`. -/
inductive VariableType
  | PreInput
  | PreOutput
  | PostInput
  | PostOutput
  deriving DecidableEq, Repr

/-- A valuation of the BDD variables of a manager, by variable index. -/
abbrev Assignment := Nat → Bool

/-- Modelled from the spec: the Boolean-function package (`BF.h`) is not among the
sources.  The spec treats it as an abstract Boolean-function package with variable
creation, connectives, constants and a semantic equality test; a `BF` is therefore
represented by the function from valuations to truth values that it denotes, so that
equality of `BF`s is semantic equality. -/
structure BF where
  /-- The truth value of the function under a valuation. -/
  eval : Assignment → Bool

/-- Modelled from the spec: the manager of the Boolean-function package; its only
state that matters here is the number of variables allocated so far. -/
structure BFManager where
  /-- Number of variables allocated so far. -/
  numVars : Nat
  deriving DecidableEq, Repr

namespace BF

/-- Conjunction `f & g`. -/
def and (f g : BF) : BF := ⟨fun a => f.eval a && g.eval a⟩

/-- Disjunction `f | g`. -/
def or (f g : BF) : BF := ⟨fun a => f.eval a || g.eval a⟩

/-- Negation `!f`. -/
def not (f : BF) : BF := ⟨fun a => !f.eval a⟩

/-- The BDD variable with the given index. -/
def var (i : Nat) : BF := ⟨fun a => a i⟩

end BF

namespace BFManager

/-- The constant `mgr.constantTrue()`. -/
def constantTrue (_mgr : BFManager) : BF := ⟨fun _ => true⟩

/-- The constant `mgr.constantFalse()`. -/
def constantFalse (_mgr : BFManager) : BF := ⟨fun _ => false⟩

/-- The call `mgr.newVariable()`: allocates a fresh variable and returns it together
with the updated manager. -/
def newVariable (mgr : BFManager) : BF × BFManager :=
  (BF.var mgr.numVars, ⟨mgr.numVars + 1⟩)

/-- Modelled from the spec: `mgr.computeCube(vars)`, a cube is the set of the given
variables. -/
def computeCube (_mgr : BFManager) (vars : List BF) : List BF := vars

/-- Modelled from the spec: `mgr.computeVarVector(vars)`, the variables in the given
order. -/
def computeVarVector (_mgr : BFManager) (vars : List BF) : List BF := vars

end BFManager

/-! ## Errors -/

/-- The ways in which reading the input can fail.  Every constructor but the last two
stands for one `throw` of `main.cpp`, with the data written to `std::cerr` before it.
-/
inductive SlugsError
  /-- `throw "Error: Cannot open input file"`. -/
  | cannotOpenInputFile
  /-- Prints `Sorry. Didn't recognize category <line>`, then `throw "Aborted."`. -/
  | unknownCategory (currentLine : Str)
  /-- Prints `Error with line <n>!`, then throws
  `"Found a line in the specification file that has no proper categorial context."`. -/
  | noCategorialContext (lineNumber : Nat)
  /-- Prints `Error reading line <n> ... Premature end of line.`, then
  `throw "Fatal Error"`. -/
  | prematureEndOfLine (lineNumber : Nat)
  /-- Prints `Error reading line <n> ... The variable <v> is not allowed for this
  type of expression.`, then `throw "Fatal Error"`. -/
  | variableNotAllowed (lineNumber : Nat) (operation : Str)
  /-- Prints `Error reading line <n> ... The variable <v> has not been found.`, then
  `throw "Fatal Error"`. -/
  | variableNotFound (lineNumber : Nat) (operation : Str)
  /-- Prints `Error reading line <n> ... There are stray characters: '<w>'`, then
  `throw "Fatal Error"`. -/
  | strayCharacters (lineNumber : Nat) (nextPart : Str)
  /-- Not in the program: the recursion bound of the embedding was too small. -/
  | outOfFuel
  /-- Not in the program: a vector was indexed outside its bounds (undefined behaviour
  in C++; cannot happen while the three vectors of the variable table have the same
  length). -/
  | indexOutOfRange
  deriving DecidableEq, Repr

/-! ## The game context -/

/-- The data members of `class GR1Context` that the constructor fills in. -/
structure GR1Context where
  mgr : BFManager
  «variables» : List BF
  variableNames : List Str
  variableTypes : List VariableType
  livenessAssumptions : List BF
  livenessGuarantees : List BF
  initEnv : BF
  initSys : BF
  safetyEnv : BF
  safetySys : BF
  varVectorPre : List BF
  varVectorPost : List BF
  varCubePostInput : List BF
  varCubePostOutput : List BF
  varCubePreInput : List BF
  varCubePreOutput : List BF
  varCubePre : List BF
  preVars : List BF
  postVars : List BF
  /-- Private member, only used while parsing, for error messages. -/
  lineNumberCurrentlyRead : Nat

/-- The allowed-role sets `std::set<VariableType>` are lists of roles. -/
abbrev RoleSet := List VariableType

namespace GR1Context

/-- The loop `for (uint i=0;i<variableNames.size();i++)` at the end of
`parseBooleanFormulaRecurse`, entered at index `i` with `names` the part of
`variableNames` from `i` on: the first entry whose name is `operation` decides. -/
def findVariable (ctx : GR1Context) (allowedTypes : RoleSet) (operation : Str) :
    Nat → List Str → Except SlugsError BF
  | _, [] => .error (.variableNotFound ctx.lineNumberCurrentlyRead operation)
  | i, name :: names =>
    if name = operation then
      match ctx.variableTypes[i]? with
      | none => .error .indexOutOfRange
      | some t =>
        if t ∉ allowedTypes then
          .error (.variableNotAllowed ctx.lineNumberCurrentlyRead operation)
        else
          match ctx.variables[i]? with
          | none => .error .indexOutOfRange
          | some v => .ok v
    else findVariable ctx allowedTypes operation (i + 1) names

/-- The function `GR1Context::parseBooleanFormulaRecurse`.  The stream is passed in
and handed back; the first argument bounds the recursion depth.  The two operands of
`|` and `&` are read left to right.  (C++ does not fix the order of the two recursive
calls; the call that runs first reads the first operand from the stream and throws the
first error, and the two connectives are commutative, see `BF.or_comm` and
`BF.and_comm`, so the outcome is the same for the other order.) -/
def parseBooleanFormulaRecurse (ctx : GR1Context) (allowedTypes : RoleSet) :
    Nat → Str → Except SlugsError (BF × Str)
  | 0, _ => .error .outOfFuel
  | fuel + 1, is =>
    if (extractWord is).1 = [] then
      .error (.prematureEndOfLine ctx.lineNumberCurrentlyRead)
    else if (extractWord is).1 = "|".toList then
      match parseBooleanFormulaRecurse ctx allowedTypes fuel (extractWord is).2 with
      | .error e => .error e
      | .ok (l, is1) =>
        match parseBooleanFormulaRecurse ctx allowedTypes fuel is1 with
        | .error e => .error e
        | .ok (r, is2) => .ok (l.or r, is2)
    else if (extractWord is).1 = "&".toList then
      match parseBooleanFormulaRecurse ctx allowedTypes fuel (extractWord is).2 with
      | .error e => .error e
      | .ok (l, is1) =>
        match parseBooleanFormulaRecurse ctx allowedTypes fuel is1 with
        | .error e => .error e
        | .ok (r, is2) => .ok (l.and r, is2)
    else if (extractWord is).1 = "!".toList then
      match parseBooleanFormulaRecurse ctx allowedTypes fuel (extractWord is).2 with
      | .error e => .error e
      | .ok (f, is1) => .ok (f.not, is1)
    else if (extractWord is).1 = "1".toList then
      .ok (ctx.mgr.constantTrue, (extractWord is).2)
    else if (extractWord is).1 = "0".toList then
      .ok (ctx.mgr.constantFalse, (extractWord is).2)
    else
      match findVariable ctx allowedTypes (extractWord is).1 0 ctx.variableNames with
      | .error e => .error e
      | .ok v => .ok (v, (extractWord is).2)

/-- The function `GR1Context::parseBooleanFormula`.  Every call of the recursive
function consumes at least one character, so a recursion bound of one more than the
length of the line is never reached. -/
def parseBooleanFormula (ctx : GR1Context) (currentLine : Str) (allowedTypes : RoleSet) :
    Except SlugsError BF :=
  match parseBooleanFormulaRecurse ctx allowedTypes (currentLine.length + 1) currentLine with
  | .error e => .error e
  | .ok (result, is) =>
    if (extractWord is).1 = [] then .ok result
    else .error (.strayCharacters ctx.lineNumberCurrentlyRead (extractWord is).1)

/-- The context before the first line is read: no variables, the four constraints
set to `mgr.constantTrue()`, empty liveness lists, line counter `0`. -/
def initial : GR1Context where
  mgr := ⟨0⟩
  «variables» := []
  variableNames := []
  variableTypes := []
  livenessAssumptions := []
  livenessGuarantees := []
  initEnv := BFManager.constantTrue ⟨0⟩
  initSys := BFManager.constantTrue ⟨0⟩
  safetyEnv := BFManager.constantTrue ⟨0⟩
  safetySys := BFManager.constantTrue ⟨0⟩
  varVectorPre := []
  varVectorPost := []
  varCubePostInput := []
  varCubePostOutput := []
  varCubePreInput := []
  varCubePreOutput := []
  varCubePre := []
  preVars := []
  postVars := []
  lineNumberCurrentlyRead := 0

/-- The two `push_back` triples of a declaration line: a fresh variable named
`currentLine` of role `pre`, then a fresh variable named `currentLine+"'"` of role
`post`. -/
def declareVariable (ctx : GR1Context) (currentLine : Str) (pre post : VariableType) :
    GR1Context :=
  { ctx with
    mgr := (ctx.mgr.newVariable.2).newVariable.2
    «variables» := ctx.variables ++ [ctx.mgr.newVariable.1, (ctx.mgr.newVariable.2).newVariable.1]
    variableNames := ctx.variableNames ++ [currentLine, currentLine ++ [primeChar]]
    variableTypes := ctx.variableTypes ++ [pre, post] }

/-- The allowed roles of `[ENV_INIT]`. -/
def allowedEnvInit : RoleSet := [.PreInput]

/-- The allowed roles of `[SYS_INIT]`. -/
def allowedSysInit : RoleSet := [.PreOutput]

/-- The allowed roles of `[ENV_TRANS]` and `[ENV_LIVENESS]`. -/
def allowedEnv : RoleSet := [.PreInput, .PreOutput, .PostInput]

/-- The allowed roles of `[SYS_TRANS]` and `[SYS_LIVENESS]`. -/
def allowedSys : RoleSet := [.PreInput, .PreOutput, .PostInput, .PostOutput]

/-- The branch `if (currentLine[0]=='[')` of the reading loop: the line is a section
header and selects the new `readMode`, or is not recognised. -/
def readHeader (ctx : GR1Context) (currentLine : Str) : Except SlugsError (GR1Context × Int) :=
  if currentLine = "[INPUT]".toList then .ok (ctx, 0)
  else if currentLine = "[OUTPUT]".toList then .ok (ctx, 1)
  else if currentLine = "[ENV_INIT]".toList then .ok (ctx, 2)
  else if currentLine = "[SYS_INIT]".toList then .ok (ctx, 3)
  else if currentLine = "[ENV_TRANS]".toList then .ok (ctx, 4)
  else if currentLine = "[SYS_TRANS]".toList then .ok (ctx, 5)
  else if currentLine = "[ENV_LIVENESS]".toList then .ok (ctx, 6)
  else if currentLine = "[SYS_LIVENESS]".toList then .ok (ctx, 7)
  else .error (.unknownCategory currentLine)

/-- The `else` branch of `if (currentLine[0]=='[')` in the reading loop: the line is a
declaration or a formula, according to `readMode`. -/
def readContent (ctx : GR1Context) (readMode : Int) (currentLine : Str) :
    Except SlugsError (GR1Context × Int) :=
  if readMode = 0 then
    .ok (ctx.declareVariable currentLine .PreInput .PostInput, readMode)
  else if readMode = 1 then
    .ok (ctx.declareVariable currentLine .PreOutput .PostOutput, readMode)
  else if readMode = 2 then
    match ctx.parseBooleanFormula currentLine allowedEnvInit with
    | .error e => .error e
    | .ok f => .ok ({ ctx with initEnv := ctx.initEnv.and f }, readMode)
  else if readMode = 3 then
    match ctx.parseBooleanFormula currentLine allowedSysInit with
    | .error e => .error e
    | .ok f => .ok ({ ctx with initSys := ctx.initSys.and f }, readMode)
  else if readMode = 4 then
    match ctx.parseBooleanFormula currentLine allowedEnv with
    | .error e => .error e
    | .ok f => .ok ({ ctx with safetyEnv := ctx.safetyEnv.and f }, readMode)
  else if readMode = 5 then
    match ctx.parseBooleanFormula currentLine allowedSys with
    | .error e => .error e
    | .ok f => .ok ({ ctx with safetySys := ctx.safetySys.and f }, readMode)
  else if readMode = 6 then
    match ctx.parseBooleanFormula currentLine allowedEnv with
    | .error e => .error e
    | .ok f =>
      .ok ({ ctx with livenessAssumptions := ctx.livenessAssumptions ++ [f] }, readMode)
  else if readMode = 7 then
    match ctx.parseBooleanFormula currentLine allowedSys with
    | .error e => .error e
    | .ok f =>
      .ok ({ ctx with livenessGuarantees := ctx.livenessGuarantees ++ [f] }, readMode)
  else .error (.noCategorialContext ctx.lineNumberCurrentlyRead)

/-- The statement `lineNumberCurrentlyRead++` on an `unsigned int`. -/
def nextLine (ctx : GR1Context) : GR1Context :=
  { ctx with lineNumberCurrentlyRead := (ctx.lineNumberCurrentlyRead + 1) % 2 ^ 32 }

/-- The body of the loop `while (std::getline(inFile,currentLine))` of the
constructor, for one line as delivered by `std::getline`.  The state is the object
under construction together with the local variable `readMode`. -/
def readLine (st : GR1Context × Int) (rawLine : Str) : Except SlugsError (GR1Context × Int) :=
  if (trim rawLine).length > 0 ∧ (trim rawLine).head? ≠ some '#' then
    if (trim rawLine).head? = some '[' then readHeader st.1.nextLine (trim rawLine)
    else readContent st.1.nextLine st.2 (trim rawLine)
  else .ok (st.1.nextLine, st.2)

/-- The loop `while (std::getline(inFile,currentLine))` over the lines of the file. -/
def readLines (st : GR1Context × Int) : List Str → Except SlugsError (GR1Context × Int)
  | [] => .ok st
  | rawLine :: rest =>
    match readLine st rawLine with
    | .error e => .error e
    | .ok st1 => readLines st1 rest

/-- The six vectors filled by the loop `for (uint i=0;i<variables.size();i++)`. -/
structure VarLists where
  preVars : List BF
  postVars : List BF
  postOutputVars : List BF
  postInputVars : List BF
  preOutputVars : List BF
  preInputVars : List BF

/-- The loop `for (uint i=0;i<variables.size();i++) switch (variableTypes[i])`, entered
at index `i` with `vars` the part of `variables` from `i` on.  The `default` branch of
the `switch` is absent: the enumeration has no fifth value. -/
def classifyVariables (ctx : GR1Context) : Nat → List BF → VarLists → Except SlugsError VarLists
  | _, [], acc => .ok acc
  | i, v :: vars, acc =>
    match ctx.variableTypes[i]? with
    | none => .error .indexOutOfRange
    | some .PreInput =>
      classifyVariables ctx (i + 1) vars
        { acc with preVars := acc.preVars ++ [v], preInputVars := acc.preInputVars ++ [v] }
    | some .PreOutput =>
      classifyVariables ctx (i + 1) vars
        { acc with preVars := acc.preVars ++ [v], preOutputVars := acc.preOutputVars ++ [v] }
    | some .PostInput =>
      classifyVariables ctx (i + 1) vars
        { acc with postVars := acc.postVars ++ [v], postInputVars := acc.postInputVars ++ [v] }
    | some .PostOutput =>
      classifyVariables ctx (i + 1) vars
        { acc with postVars := acc.postVars ++ [v], postOutputVars := acc.postOutputVars ++ [v] }

/-- The end of the constructor, after the reading loop: the variable vectors and
cubes, and the liveness placeholders. -/
def finish (ctx : GR1Context) : Except SlugsError GR1Context :=
  match classifyVariables ctx 0 ctx.variables
      ⟨ctx.preVars, ctx.postVars, [], [], [], []⟩ with
  | .error e => .error e
  | .ok ls =>
    .ok { ctx with
      preVars := ls.preVars
      postVars := ls.postVars
      varVectorPre := ctx.mgr.computeVarVector ls.preVars
      varVectorPost := ctx.mgr.computeVarVector ls.postVars
      varCubePostInput := ctx.mgr.computeCube ls.postInputVars
      varCubePostOutput := ctx.mgr.computeCube ls.postOutputVars
      varCubePreInput := ctx.mgr.computeCube ls.preInputVars
      varCubePreOutput := ctx.mgr.computeCube ls.preOutputVars
      varCubePre := ctx.mgr.computeCube ls.preVars
      livenessAssumptions :=
        if ctx.livenessAssumptions.length = 0 then
          ctx.livenessAssumptions ++ [ctx.mgr.constantTrue]
        else ctx.livenessAssumptions
      livenessGuarantees :=
        if ctx.livenessGuarantees.length = 0 then
          ctx.livenessGuarantees ++ [ctx.mgr.constantTrue]
        else ctx.livenessGuarantees }

/-- The constructor `GR1Context::GR1Context`, from the lines of an input file that
could be opened. -/
def ofLines (lines : List Str) : Except SlugsError GR1Context :=
  match readLines (initial, -1) lines with
  | .error e => .error e
  | .ok st => finish st.1

/-- The constructor `GR1Context::GR1Context(const char *inFileName)`; the argument is
the content of the file, or `none` when `inFile.fail()` holds after opening. -/
def construct (inFile : Option Str) : Except SlugsError GR1Context :=
  match inFile with
  | none => .error .cannotOpenInputFile
  | some content => ofLines (getlines content)

end GR1Context

/-! ## The command line -/

/-- What a call into the synthesis part can do besides returning: throw a string
literal, which `main` catches, or throw anything else, which nothing catches. -/
inductive Thrown
  | cString
  | other
  deriving DecidableEq, Repr

/-- The member functions that `main` calls and whose bodies are not among the sources;
they are parameters of `main`. -/
structure Synthesis where
  checkRealizability : GR1Context → Except Thrown Bool
  computeAndPrintExplicitStateStrategy : GR1Context → Except Thrown Unit

/-- How the process ends: `main` returns a code, or an exception that is not caught
ends it through `std::terminate`. -/
inductive Outcome
  | returned (code : Int)
  | terminated
  deriving DecidableEq, Repr

/-- The loop `for (int i=1;i<argc;i++)` of `main` over the arguments that are still to
be looked at; the state is `(filename, onlyCheckRealizability)`, and `none` stands for
the two `return 1`. -/
def scanArguments : List Str → Str × Bool → Option (Str × Bool)
  | [], st => some st
  | arg :: rest, (filename, onlyCheckRealizability) =>
    if arg.head? = some '-' then
      if arg = "--onlyRealizability".toList then scanArguments rest (filename, true)
      else none
    else
      if filename = [] then scanArguments rest (arg, onlyCheckRealizability)
      else none

/-- Opening `std::ifstream inFile(inFileName)` on a file system that maps a path to the
content of the file, if it can be opened; the empty path never opens. -/
def openInputFile (fileSystem : Str → Option Str) (inFileName : Str) : Option Str :=
  if inFileName = [] then none else fileSystem inFileName

/-- The function `main`; `args` includes the program name `args[0]`. -/
def main (syn : Synthesis) (fileSystem : Str → Option Str) (args : List Str) : Outcome :=
  match scanArguments args.tail ([], false) with
  | none => .returned 1
  | some (filename, onlyCheckRealizability) =>
    match GR1Context.construct (openInputFile fileSystem filename) with
    | .error _ => .returned 1
    | .ok context =>
      match syn.checkRealizability context with
      | .error .cString => .returned 1
      | .error .other => .terminated
      | .ok realizable =>
        if realizable then
          if !onlyCheckRealizability then
            match syn.computeAndPrintExplicitStateStrategy context with
            | .error .cString => .returned 1
            | .error .other => .terminated
            | .ok _ => .returned 0
          else .returned 0
        else .returned 0


/-! ## The fixed-point helper -/

/-- The class `BFFixedPoint`.  Its member `update` compares two Boolean functions with
`==`, the semantic equality test of the package; the truth-table representation `BF`
has no computable equality test, so the class is embedded over any type `B` of Boolean
functions that has a decidable equality. -/
structure BFFixedPoint (B : Type) where
  currentValue : B
  reachedFixedPoint : Bool

namespace BFFixedPoint

/-- The constructor `BFFixedPoint(BF init)`. -/
def construct {B : Type} (init : B) : BFFixedPoint B :=
  { currentValue := init, reachedFixedPoint := false }

/-- The member function `update`. -/
def update {B : Type} [DecidableEq B] (fp : BFFixedPoint B) (newOne : B) : BFFixedPoint B :=
  if fp.currentValue = newOne then { fp with reachedFixedPoint := true }
  else { fp with currentValue := newOne }

/-- The member function `isFixedPointReached`. -/
def isFixedPointReached {B : Type} (fp : BFFixedPoint B) : Bool := fp.reachedFixedPoint

/-- The member function `getValue`. -/
def getValue {B : Type} (fp : BFFixedPoint B) : B := fp.currentValue

end BFFixedPoint

/-! ## The realizability check -/

/-- Modelled from the spec: existential quantification of one BDD variable, the
disjunction of the two cofactors. -/
def BF.existsVar (i : Nat) (f : BF) : BF :=
  ⟨fun a => f.eval (Function.update a i true) || f.eval (Function.update a i false)⟩

/-- Modelled from the spec: existential quantification over a cube, given by the
indices of its BDD variables (`∃ pre-output. f`). -/
def BF.existAbstract : List Nat → BF → BF
  | [], f => f
  | i :: rest, f => BF.existsVar i (BF.existAbstract rest f)

/-- Modelled from the spec: the test that a Boolean function over the variables of the
manager has no satisfying assignment. -/
def BFManager.isFalse (mgr : BFManager) (f : BF) : Bool :=
  !(BF.existAbstract (List.range mgr.numVars) f).eval (fun _ => false)

namespace GR1Context

/-- Modelled from the spec: the positions, counted from `i`, of the entries of a list
of roles that have the given role. -/
def indicesOf (role : VariableType) : Nat → List VariableType → List Nat
  | _, [] => []
  | i, t :: ts =>
    if t = role then i :: indicesOf role (i + 1) ts else indicesOf role (i + 1) ts

/-- Modelled from the spec: the indices of the BDD variables in the cube of the
`PreOutput` variables, which are the positions of the `PreOutput` entries of the
variable table. -/
def preOutputIndices (ctx : GR1Context) : List Nat :=
  indicesOf .PreOutput 0 ctx.variableTypes

/-- Modelled from the spec: the member function `checkRealizability`, which is declared
in `gr1context.hpp` and called by `main`, in its implementation form: with `Z` the fixed
point computed by `computeWinningPositions`, the specification is realizable when
`init_env ∧ ¬(∃ pre-output. init_sys ∧ Z)` has no satisfying assignment.  The member
function `computeWinningPositions` is a parameter. -/
def checkRealizability (computeWinningPositions : GR1Context → BF) (ctx : GR1Context) : Bool :=
  ctx.mgr.isFalse
    (ctx.initEnv.and
      (BF.not (BF.existAbstract ctx.preOutputIndices
        (ctx.initSys.and (computeWinningPositions ctx)))))

end GR1Context
/-! ## Notions used to state the properties -/

/-- The whitespace-separated tokens of a line: the maximal runs of characters that are
not whitespace. -/
def tokens (s : Str) : List Str :=
  (s.splitOnP isspace).filter (fun w => w ≠ [])


/-- The formula trees of the input language. -/
inductive Formula
  | or (a b : Formula)
  | and (a b : Formula)
  | not (a : Formula)
  | tt
  | ff
  | var (name : Str)
  deriving DecidableEq, Repr

/-- The five tokens that are not variable names. -/
def operatorTokens : List Str :=
  ["|".toList, "&".toList, "!".toList, "1".toList, "0".toList]

namespace Formula

/-- The prefix (Polish) listing of a tree as a sequence of tokens. -/
def polish : Formula → List Str
  | or a b => "|".toList :: (a.polish ++ b.polish)
  | and a b => "&".toList :: (a.polish ++ b.polish)
  | not a => "!".toList :: a.polish
  | tt => ["1".toList]
  | ff => ["0".toList]
  | var name => [name]

/-- The variable names at the leaves of a tree. -/
def names : Formula → List Str
  | or a b => a.names ++ b.names
  | and a b => a.names ++ b.names
  | not a => a.names
  | tt => []
  | ff => []
  | var name => [name]

end Formula

/-- The index of the first element of `names` that equals `name`. -/
def firstEntry (name : Str) : List Str → Option Nat
  | [] => none
  | n :: ns => if n = name then some 0 else (firstEntry name ns).map (· + 1)

namespace GR1Context

/-- The three vectors of the variable table have the same length. -/
def TableAligned (ctx : GR1Context) : Prop :=
  ctx.variables.length = ctx.variableNames.length ∧
    ctx.variableTypes.length = ctx.variableNames.length

/-- The role of the first table entry carrying the name. -/
def roleOf (ctx : GR1Context) (name : Str) : Option VariableType :=
  (firstEntry name ctx.variableNames).bind (fun i => ctx.variableTypes[i]?)

/-- The BDD variable of the first table entry carrying the name. -/
def variableOf (ctx : GR1Context) (name : Str) : Option BF :=
  (firstEntry name ctx.variableNames).bind (fun i => ctx.variables[i]?)

/-- A name that may be used in a formula: it is none of the five operator and constant
tokens, and the first table entry carrying it has an allowed role. -/
def Resolves (ctx : GR1Context) (allowedTypes : RoleSet) (name : Str) : Prop :=
  name ∉ operatorTokens ∧ ∃ t ∈ allowedTypes, ctx.roleOf name = some t

end GR1Context

namespace Formula

/-- The Boolean function a tree denotes over the variable table of a context: `|` is
disjunction, `&` conjunction, `!` negation, `1` true, `0` false, and a name is the BDD
variable of the first table entry carrying it (no value if there is none). -/
def denote (ctx : GR1Context) : Formula → Option BF
  | or a b =>
    match a.denote ctx, b.denote ctx with
    | some x, some y => some (x.or y)
    | _, _ => none
  | and a b =>
    match a.denote ctx, b.denote ctx with
    | some x, some y => some (x.and y)
    | _, _ => none
  | not a =>
    match a.denote ctx with
    | some x => some x.not
    | none => none
  | tt => some ⟨fun _ => true⟩
  | ff => some ⟨fun _ => false⟩
  | var name => ctx.variableOf name

/-- No leaf of the tree is one of the five operator and constant tokens. -/
def WellNamed (φ : Formula) : Prop := ∀ n ∈ φ.names, n ∉ operatorTokens

end Formula

/-- The tokens run out before a formula is complete: the sequence is a proper prefix of
the listing of some tree. -/
def EndsPrematurely (ts : List Str) : Prop :=
  ∃ (φ : Formula) (extra : List Str), φ.WellNamed ∧ extra ≠ [] ∧ ts ++ extra = φ.polish

/-- At least one token remains after the first complete formula. -/
def HasStrayToken (ts : List Str) : Prop :=
  ∃ (φ : Formula) (rest : List Str), φ.WellNamed ∧ rest ≠ [] ∧ ts = φ.polish ++ rest

/-- Some non-operator token names no entry of the variable table. -/
def HasUnknownVariable (ctx : GR1Context) (ts : List Str) : Prop :=
  ∃ n ∈ ts, n ∉ operatorTokens ∧ firstEntry n ctx.variableNames = none

/-- Some non-operator token resolves to an entry whose role is not allowed. -/
def HasDisallowedVariable (ctx : GR1Context) (allowedTypes : RoleSet) (ts : List Str) : Prop :=
  ∃ n ∈ ts, n ∉ operatorTokens ∧ ∃ t, ctx.roleOf n = some t ∧ t ∉ allowedTypes

namespace GR1Context

/-- What the three `throw`s of `parseBooleanFormulaRecurse` say about the tokens that
were still unread when it was called. -/
def RecurseErrorSpec (ctx : GR1Context) (allowedTypes : RoleSet) (ts : List Str)
    (e : SlugsError) : Prop :=
  (e = .prematureEndOfLine ctx.lineNumberCurrentlyRead ∧ EndsPrematurely ts) ∨
  (∃ n, e = .variableNotFound ctx.lineNumberCurrentlyRead n ∧ n ∈ ts ∧
    n ∉ operatorTokens ∧ firstEntry n ctx.variableNames = none) ∨
  (∃ n, e = .variableNotAllowed ctx.lineNumberCurrentlyRead n ∧ n ∈ ts ∧
    n ∉ operatorTokens ∧ ∃ t, ctx.roleOf n = some t ∧ t ∉ allowedTypes)

end GR1Context

instance (ctx : GR1Context) (allowedTypes : RoleSet) (name : Str) :
    Decidable (ctx.Resolves allowedTypes name) := by
  unfold GR1Context.Resolves; infer_instance

/-- A variable table with the input `r` and the output `g`. -/
def exampleContext : GR1Context :=
  (GR1Context.initial.declareVariable "r".toList .PreInput .PostInput).declareVariable
    "g".toList .PreOutput .PostOutput

/-- The tree of `| ! r' g`. -/
def exampleFormula : Formula :=
  .or (.not (.var ("r".toList ++ [primeChar]))) (.var "g".toList)

/-- The line of `exampleFormula`, with some extra whitespace. -/
def exampleLine : Str := "  | ! r".toList ++ [primeChar] ++ "   g ".toList

/-! ### Lines and sections -/

/-- The eight section headers, in the order of their `readMode` numbers. -/
def sectionHeaders : List Str :=
  ["[INPUT]".toList, "[OUTPUT]".toList, "[ENV_INIT]".toList, "[SYS_INIT]".toList,
   "[ENV_TRANS]".toList, "[SYS_TRANS]".toList, "[ENV_LIVENESS]".toList,
   "[SYS_LIVENESS]".toList]

/-- A line that is empty after trimming or starts with `#` after trimming. -/
def Ignorable (rawLine : Str) : Prop :=
  trim rawLine = [] ∨ (trim rawLine).head? = some '#'

instance (rawLine : Str) : Decidable (Ignorable rawLine) := by
  unfold Ignorable; infer_instance

/-- A line that, after trimming, starts with `[`. -/
def StartsWithBracket (rawLine : Str) : Prop := (trim rawLine).head? = some '['

instance (rawLine : Str) : Decidable (StartsWithBracket rawLine) := by
  unfold StartsWithBracket; infer_instance

/-- The trimmed lines that are neither ignorable nor start with `[` and that occur
while the section given by `header` is the current one, in file order; `current` is the
most recent line starting with `[` before the lines, if any. -/
def linesUnderFrom (header : Str) : Option Str → List Str → List Str
  | _, [] => []
  | current, rawLine :: rest =>
    if Ignorable rawLine then linesUnderFrom header current rest
    else if StartsWithBracket rawLine then linesUnderFrom header (some (trim rawLine)) rest
    else if current = some header then trim rawLine :: linesUnderFrom header current rest
    else linesUnderFrom header current rest

/-- The declaration or formula lines of a file under a section header. -/
def linesUnder (header : Str) (lines : List Str) : List Str :=
  linesUnderFrom header none lines

/-- The lines that are not ignorable, trimmed. -/
def significantLines (lines : List Str) : List Str :=
  (lines.filter (fun rawLine => ¬ Ignorable rawLine)).map trim

/-- The value of `readMode` while a section is the current one: `-1` before the first
header, the position of the header among the eight otherwise. -/
def ModeOf : Option Str → Int → Prop
  | none, mode => mode = -1
  | some header, mode => ∃ k : Nat, sectionHeaders[k]? = some header ∧ mode = k

namespace GR1Context

/-- What a declaration or formula line does to the context, by `readMode`. -/
inductive ContentEffect (ctx : GR1Context) (l : Str) : Int → GR1Context → Prop
  | input : ContentEffect ctx l 0 (ctx.declareVariable l .PreInput .PostInput)
  | output : ContentEffect ctx l 1 (ctx.declareVariable l .PreOutput .PostOutput)
  | envInit (f : BF) (h : ctx.parseBooleanFormula l allowedEnvInit = .ok f) :
    ContentEffect ctx l 2 { ctx with initEnv := ctx.initEnv.and f }
  | sysInit (f : BF) (h : ctx.parseBooleanFormula l allowedSysInit = .ok f) :
    ContentEffect ctx l 3 { ctx with initSys := ctx.initSys.and f }
  | envTrans (f : BF) (h : ctx.parseBooleanFormula l allowedEnv = .ok f) :
    ContentEffect ctx l 4 { ctx with safetyEnv := ctx.safetyEnv.and f }
  | sysTrans (f : BF) (h : ctx.parseBooleanFormula l allowedSys = .ok f) :
    ContentEffect ctx l 5 { ctx with safetySys := ctx.safetySys.and f }
  | envLiveness (f : BF) (h : ctx.parseBooleanFormula l allowedEnv = .ok f) :
    ContentEffect ctx l 6 { ctx with livenessAssumptions := ctx.livenessAssumptions ++ [f] }
  | sysLiveness (f : BF) (h : ctx.parseBooleanFormula l allowedSys = .ok f) :
    ContentEffect ctx l 7 { ctx with livenessGuarantees := ctx.livenessGuarantees ++ [f] }

/-- The second context has the variable table of the first, possibly with more
entries at the end. -/
def Extends (c c' : GR1Context) : Prop :=
  (∃ more, c'.variableNames = c.variableNames ++ more) ∧
  (∃ more, c'.variableTypes = c.variableTypes ++ more) ∧
  (∃ more, c'.variables = c.variables ++ more)

/-- Two valuations agree on the variables of the given roles: every table entry with
such a role has the same value under both. -/
def AgreeOn (ctx : GR1Context) (roles : RoleSet) (a b : Assignment) : Prop :=
  ∀ (i : Nat) (t : VariableType) (v : BF), ctx.variableTypes[i]? = some t → t ∈ roles →
    ctx.variables[i]? = some v → v.eval a = v.eval b

/-- The Boolean function depends only on the variables of the given roles: it takes
equal values on any two valuations that agree on these variables. -/
def DependsOnlyOn (ctx : GR1Context) (roles : RoleSet) (f : BF) : Prop :=
  ∀ a b : Assignment, ctx.AgreeOn roles a b → f.eval a = f.eval b

/-- The context with the private line counter reset: the data of the game. -/
def withoutLineCounter (ctx : GR1Context) : GR1Context :=
  { ctx with lineNumberCurrentlyRead := 0 }

end GR1Context

namespace GR1Context

/-- Every constraint depends only on the variables of the roles of its section. -/
def SupportInv (c : GR1Context) : Prop :=
  c.DependsOnlyOn allowedEnvInit c.initEnv ∧ c.DependsOnlyOn allowedSysInit c.initSys ∧
  c.DependsOnlyOn allowedEnv c.safetyEnv ∧ c.DependsOnlyOn allowedSys c.safetySys ∧
  (∀ f ∈ c.livenessAssumptions, c.DependsOnlyOn allowedEnv f) ∧
  (∀ f ∈ c.livenessGuarantees, c.DependsOnlyOn allowedSys f)

/-- The table entry at position `i` is the BDD variable with index `i`, and the manager
has allocated exactly the variables of the table. -/
def FreshVariables (c : GR1Context) : Prop :=
  c.mgr.numVars = c.variables.length ∧
    c.variables = (List.range c.variables.length).map BF.var

end GR1Context

/-- An input file with the input `r`, the output `g`, and one constraint in each of
the six formula sections. -/
def exampleFile : Str :=
  "[INPUT]\nr\n[OUTPUT]\ng\n# a comment\n\n[ENV_INIT]\n! r\n[SYS_INIT]\ng\n".toList ++
  "[ENV_TRANS]\n| r ! r".toList ++ [primeChar] ++ "\n[SYS_TRANS]\n| ! r".toList ++
  [primeChar] ++ " g".toList ++ [primeChar] ++
  "\n[ENV_LIVENESS]\nr\n[SYS_LIVENESS]\n| ! r g\n".toList

namespace GR1Context

/-- The number of entries of the variable table with the given name and role. -/
def entryCount (ctx : GR1Context) (name : Str) (role : VariableType) : Nat :=
  (ctx.variableNames.zip ctx.variableTypes).count (name, role)

end GR1Context

/-- An input file that declares the input `x` twice. -/
def duplicateFile : Str := "[INPUT]\nx\nx\n".toList

/-- The names of the table entries made by a sequence of declarations. -/
def pairedNames (decls : List (Str × Bool)) : List Str :=
  decls.flatMap (fun d => [d.1, d.1 ++ [primeChar]])

/-- The roles of the table entries made by a sequence of declarations; the flag is
true for a declaration under `[INPUT]`. -/
def pairedTypes (decls : List (Str × Bool)) : List VariableType :=
  decls.flatMap (fun d =>
    if d.2 then [VariableType.PreInput, VariableType.PostInput]
    else [VariableType.PreOutput, VariableType.PostOutput])

/-- The roles of current-state variables. -/
def isPre (t : VariableType) : Bool := t = .PreInput || t = .PreOutput

/-- The variables of a list whose role, in a parallel list of roles, satisfies `p`. -/
def pick (p : VariableType → Bool) (vars : List BF) (types : List VariableType) : List BF :=
  ((vars.zip types).filter (fun x => p x.2)).map Prod.fst

namespace GR1Context

/-- The variable table is a sequence of pairs, one per declaration. -/
def PairedTable (c : GR1Context) : Prop :=
  ∃ decls : List (Str × Bool),
    c.variableNames = pairedNames decls ∧ c.variableTypes = pairedTypes decls

end GR1Context

/-- The two lines that spell out one trivial system goal. -/
def explicitSysLiveness : List Str := ["[SYS_LIVENESS]".toList, "1".toList]

/-- The two lines that spell out one trivial environment goal. -/
def explicitEnvLiveness : List Str := ["[ENV_LIVENESS]".toList, "1".toList]

/-- The lines of an input file without liveness sections. -/
def safetyOnlyLines : List Str :=
  ["[INPUT]".toList, "r".toList, "[OUTPUT]".toList, "g".toList, "[SYS_INIT]".toList,
   "! g".toList]

/-- The context with the line counter set to `n`. -/
def GR1Context.setLineCounter (ctx : GR1Context) (n : Nat) : GR1Context :=
  { ctx with lineNumberCurrentlyRead := n }

/-- Two runs of the reading loop end alike: both fail, or both succeed with the same
`readMode` and with contexts that differ at most in the line counter. -/
def SameState (r₁ r₂ : Except SlugsError (GR1Context × Int)) : Prop :=
  match r₁, r₂ with
  | .ok s₁, .ok s₂ => s₁.1.withoutLineCounter = s₂.1.withoutLineCounter ∧ s₁.2 = s₂.2
  | .error _, .error _ => True
  | _, _ => False

/-- Two constructions end alike: both fail, or both succeed with contexts that differ
at most in the line counter. -/
def SameGame (r₁ r₂ : Except SlugsError GR1Context) : Prop :=
  match r₁, r₂ with
  | .ok c₁, .ok c₂ => c₁.withoutLineCounter = c₂.withoutLineCounter
  | .error _, .error _ => True
  | _, _ => False

/-- The lines of `exampleFile`, without the comment and the blank line, and with
whitespace around one of the lines. -/
def exampleLinesVariant : List Str :=
  ["[INPUT]".toList, "r".toList, "[OUTPUT]".toList, "g".toList, "[ENV_INIT]".toList,
   "! r".toList, "[SYS_INIT]".toList, "g".toList, "[ENV_TRANS]".toList,
   "\t | r ! r".toList ++ [primeChar] ++ "  \r".toList, "[SYS_TRANS]".toList,
   "| ! r".toList ++ [primeChar] ++ " g".toList ++ [primeChar], "[ENV_LIVENESS]".toList,
   "r".toList, "[SYS_LIVENESS]".toList, "| ! r g".toList]

/-- Some line of `lines` starts with `[` after trimming and is, after trimming, none of
the eight section headers. -/
def HasUnknownHeader (lines : List Str) : Prop :=
  ∃ raw ∈ lines, StartsWithBracket raw ∧ trim raw ∉ sectionHeaders

instance (lines : List Str) : Decidable (HasUnknownHeader lines) := by
  unfold HasUnknownHeader; infer_instance

/-- An input file with a header in lower case. -/
def bogusFile : Str := "[INPUT]\nr\n  [input]\nq\n".toList

/-- A synthesis part that reports every game as realizable and raises no error. -/
def acceptingSynthesis : Synthesis where
  checkRealizability := fun _ => .ok true
  computeAndPrintExplicitStateStrategy := fun _ => .ok ()

/-- A file system with the single file `spec.slugs`, whose content is `exampleFile`. -/
def exampleFileSystem : Str → Option Str :=
  fun name => if name = "spec.slugs".toList then some exampleFile else none

/-- A file system with the single file `bogus.slugs`, whose content is `bogusFile`. -/
def bogusFileSystem : Str → Option Str :=
  fun name => if name = "bogus.slugs".toList then some bogusFile else none

/-- The arguments that are not options: those that do not start with `-`. -/
def positionalArguments (args : List Str) : List Str :=
  args.tail.filter (fun arg => arg.head? ≠ some '-')

/-- The errors that stand for a `throw` of the program, as opposed to the two error
values that only the embedding has. -/
def SlugsError.IsThrow : SlugsError → Prop
  | .outOfFuel => False
  | .indexOutOfRange => False
  | _ => True

/-- The section that is the current one after some lines, when `current` was the
current one before them: the last line that starts with `[`, trimmed. -/
def sectionAfter : Option Str → List Str → Option Str
  | current, [] => current
  | current, rawLine :: rest =>
    if Ignorable rawLine then sectionAfter current rest
    else if StartsWithBracket rawLine then sectionAfter (some (trim rawLine)) rest
    else sectionAfter current rest

/-- The object after the constructor call with `init` and the calls of `update` with
the elements of `updates`, in order. -/
def BFFixedPoint.afterUpdates {B : Type} [DecidableEq B] (init : B) (updates : List B) :
    BFFixedPoint B :=
  updates.foldl BFFixedPoint.update (BFFixedPoint.construct init)

/-- The line number that the message of an error cites, if it cites one. -/
def SlugsError.lineNumber : SlugsError → Option Nat
  | .noCategorialContext n => some n
  | .prematureEndOfLine n => some n
  | .variableNotAllowed n _ => some n
  | .variableNotFound n _ => some n
  | .strayCharacters n _ => some n
  | _ => none

/-- An input file whose first declaration comes before any section header, after a
comment and a blank line. -/
def headlessFile : Str := "# inputs\n\n x \n[INPUT]\ny\n".toList

/-- An input file that declares the inputs `|` and `1` and the output `a b`. -/
def operatorNamesFile : Str := "[INPUT]\n|\n1\n[OUTPUT]\na b\n".toList

/-- The argument list with `k` empty strings before the file name `spec.slugs`. -/
def paddedArguments (k : Nat) : List Str :=
  "slugs".toList :: (List.replicate k [] ++ ["spec.slugs".toList])

/-- The conjunction of a list of Boolean functions: true under a valuation when every
function of the list is; the constant true for the empty list. -/
def conjunction (fs : List BF) : BF := ⟨fun a => fs.all (fun f => f.eval a)⟩

namespace GR1Context

/-- The Boolean function `g` is the conjunction of the functions that
`parseBooleanFormula` returns for the lines `ls`, taken in any order. -/
def IsConjunctionOf (ctx : GR1Context) (roles : RoleSet) (ls : List Str) (g : BF) : Prop :=
  ∃ fs, List.Forall₂ (fun l f => ctx.parseBooleanFormula l roles = .ok f) ls fs ∧
    ∀ fs', fs.Perm fs' → g = conjunction fs'

end GR1Context

/-- The lines of `exampleFile` with the section `[ENV_INIT]` opened twice and a second
formula in each of `[ENV_INIT]` and `[SYS_TRANS]`. -/
def repeatedSectionFile : Str :=
  "[INPUT]\nr\n[OUTPUT]\ng\n[ENV_INIT]\n! r\n[SYS_TRANS]\ng\n| r g".toList ++ [primeChar] ++
    "\n[ENV_INIT]\n| r ! r\n".toList

/-- The name is in the variable table after the lines: it is the text of a declaration
line among them, or such a text followed by a prime. -/
def NamedBefore (pre : List Str) (name : Str) : Prop :=
  ∃ d ∈ linesUnder "[INPUT]".toList pre ++ linesUnder "[OUTPUT]".toList pre,
    name = d ∨ name = d ++ [primeChar]

instance (pre : List Str) (name : Str) : Decidable (NamedBefore pre name) := by
  unfold NamedBefore; infer_instance

/-- The allowed roles of the formula section with the given `readMode`. -/
def sectionRoles : Nat → RoleSet
  | 2 => GR1Context.allowedEnvInit
  | 3 => GR1Context.allowedSysInit
  | 4 => GR1Context.allowedEnv
  | 5 => GR1Context.allowedSys
  | 6 => GR1Context.allowedEnv
  | 7 => GR1Context.allowedSys
  | _ => []

/-- An input file whose formula under `[ENV_INIT]` uses the input `y`, which is declared
only after it. -/
def forwardUseFile : Str := "[INPUT]\nx\n[ENV_INIT]\n& x y\n[INPUT]\ny\n".toList

/-- An input file whose formula under `[SYS_INIT]` uses the input `x`, which is not
allowed there, before the output `y`, which is declared only after it. -/
def forwardUseDisallowedFile : Str := "[INPUT]\nx\n[SYS_INIT]\n& x y\n[OUTPUT]\ny\n".toList

/-- An input file whose formula under `[ENV_TRANS]` uses the name `x` followed by a
prime, which is declared as an input of its own only after it, the input `x` being
declared before it. -/
def forwardUsePrimedFile : Str :=
  "[INPUT]\nx\n[ENV_TRANS]\nx".toList ++ [primeChar] ++ "\n[INPUT]\nx".toList ++ [primeChar] ++
    "\n".toList

/-- A Boolean function of the manager: it depends only on the variables that the
manager has allocated. -/
def BFManager.Owns (mgr : BFManager) (f : BF) : Prop :=
  ∀ a b : Assignment, (∀ i, i < mgr.numVars → a i = b i) → f.eval a = f.eval b

/-- A token: a non-empty text without whitespace. -/
def IsToken (w : Str) : Prop := w ≠ [] ∧ ∀ c ∈ w, isspace c = false

instance (w : Str) : Decidable (IsToken w) := by
  unfold IsToken; infer_instance

/-- The whitespace-separated serialization of a sequence of tokens: the tokens in
order, with one blank between two neighbours. -/
def serialize : List Str → Str
  | [] => []
  | [t] => t
  | t :: u :: rest => t ++ ' ' :: serialize (u :: rest)

/-- An input file that declares the output `a b`, a name with a blank inside. -/
def spacedNameFile : Str := "[OUTPUT]\na b\n".toList

/-- An input file that declares `x` as an input and then as an output. -/
def twoRolesFile : Str := "[INPUT]\nx\n[OUTPUT]\nx\n".toList

/-- A file system with the two files `spec.slugs`, whose content is `exampleFile`, and
`bogus.slugs`, whose content is `bogusFile`. -/
def mixedFileSystem : Str → Option Str :=
  fun name =>
    if name = "spec.slugs".toList then some exampleFile
    else if name = "bogus.slugs".toList then some bogusFile
    else none

/-- The file `spacedNameFile` followed by the section `[SYS_INIT]` with the line `a b`. -/
def spacedNameUseFile : Str := "[OUTPUT]\na b\n[SYS_INIT]\na b\n".toList

/-- The file `twoRolesFile` followed by the section `[SYS_INIT]` with the line `x`. -/
def twoRolesUseFile : Str := "[INPUT]\nx\n[OUTPUT]\nx\n[SYS_INIT]\nx\n".toList


/-! ## Boolean functions -/

theorem BF.or_comm (f g : BF) : f.or g = g.or f := by
  simp only [BF.or, Bool.or_comm]

theorem BF.and_comm (f g : BF) : f.and g = g.and f := by
  simp only [BF.and, Bool.and_comm]

/-! ## Tokens and the formula parser -/

open GR1Context

theorem tokens_nil : tokens [] = [] := by
  simp [tokens, List.splitOnP_nil]

theorem tokens_cons_space (c : Char) (s : Str) (h : isspace c = true) :
    tokens (c :: s) = tokens s := by
  simp [tokens, List.splitOnP_cons, h]

theorem splitOnP_head (s : Str) :
    ∃ t, s.splitOnP isspace = s.takeWhile (fun c => !isspace c) :: t ∧
      t.filter (fun w => w ≠ []) = tokens (s.dropWhile (fun c => !isspace c)) := by
  induction s with
  | nil => exact ⟨[], by simp [List.splitOnP_nil], by simp [tokens_nil]⟩
  | cons c s ih =>
    obtain ⟨t, h1, h2⟩ := ih
    by_cases hc : isspace c = true
    · refine ⟨s.splitOnP isspace, by simp [List.splitOnP_cons, hc], ?_⟩
      have hd : (c :: s).dropWhile (fun c => !isspace c) = c :: s := by
        simp [List.dropWhile_cons, hc]
      rw [hd, tokens_cons_space c s hc]
      rfl
    · refine ⟨t, by simp [List.splitOnP_cons, hc, h1, List.modifyHead], ?_⟩
      simp only [Bool.not_eq_true] at hc
      simpa [List.dropWhile_cons, hc] using h2

theorem tokens_cons_word (c : Char) (s : Str) (h : isspace c = false) :
    tokens (c :: s) =
      (c :: s.takeWhile (fun c => !isspace c)) :: tokens (s.dropWhile (fun c => !isspace c)) := by
  obtain ⟨t, h1, h2⟩ := splitOnP_head s
  simp [tokens, List.splitOnP_cons, h, h1, List.modifyHead]
  simpa [tokens] using h2

theorem tokens_dropWhile_space (s : Str) : tokens (s.dropWhile isspace) = tokens s := by
  induction s with
  | nil => rfl
  | cons c s ih =>
    by_cases hc : isspace c = true
    · simp [List.dropWhile_cons, hc, ih, tokens_cons_space c s hc]
    · simp [List.dropWhile_cons, hc]

theorem dropWhile_space_cases (s : Str) :
    s.dropWhile isspace = [] ∨
      ∃ c r, s.dropWhile isspace = c :: r ∧ isspace c = false ∧ r.length < s.length := by
  induction s with
  | nil => left; rfl
  | cons c s ih =>
    by_cases hc : isspace c = true
    · rcases ih with h | ⟨d, r, h1, h2, h3⟩
      · left; simp [List.dropWhile_cons, hc, h]
      · right; exact ⟨d, r, by simp [List.dropWhile_cons, hc, h1], h2, by simp; omega⟩
    · right
      simp only [Bool.not_eq_true] at hc
      exact ⟨c, s, by simp [List.dropWhile_cons, hc], hc, by simp⟩

theorem extractWord_nil_iff (s : Str) : (extractWord s).1 = [] ↔ tokens s = [] := by
  rw [← tokens_dropWhile_space s]
  rcases dropWhile_space_cases s with h | ⟨c, r, h1, h2, _⟩
  · simp [extractWord, h, tokens_nil]
  · simp [extractWord, h1, tokens_cons_word c r h2, List.takeWhile_cons, h2]

theorem tokens_eq_extractWord (s : Str) (h : (extractWord s).1 ≠ []) :
    tokens s = (extractWord s).1 :: tokens (extractWord s).2 ∧
      (extractWord s).2.length < s.length := by
  rw [← tokens_dropWhile_space s]
  rcases dropWhile_space_cases s with h0 | ⟨c, r, h1, h2, h3⟩
  · simp [extractWord, h0] at h
  · have hl : (r.dropWhile (fun c => !isspace c)).length ≤ r.length :=
      (List.dropWhile_sublist _).length_le
    simp only [extractWord, h1, tokens_cons_word c r h2, List.takeWhile_cons, h2,
      List.dropWhile_cons, Bool.not_false, if_true, true_and]
    omega


theorem firstEntry_lt (name : Str) : ∀ (names : List Str) (k : Nat),
    firstEntry name names = some k → k < names.length := by
  intro names
  induction names with
  | nil => intro k h; simp [firstEntry] at h
  | cons n ns ih =>
    intro k h
    by_cases hn : n = name
    · simp [firstEntry, hn] at h; subst h; simp
    · simp only [firstEntry, hn, if_false] at h
      cases hj : firstEntry name ns with
      | none => simp [hj] at h
      | some j =>
        simp [hj] at h
        have := ih j hj
        simp; omega

theorem findVariable_eq (ctx : GR1Context) (allowedTypes : RoleSet) (operation : Str) :
    ∀ (names : List Str) (i : Nat),
      ctx.findVariable allowedTypes operation i names =
        match firstEntry operation names with
        | none => .error (.variableNotFound ctx.lineNumberCurrentlyRead operation)
        | some k =>
          match ctx.variableTypes[i + k]? with
          | none => .error .indexOutOfRange
          | some t =>
            if t ∉ allowedTypes then
              .error (.variableNotAllowed ctx.lineNumberCurrentlyRead operation)
            else
              match ctx.variables[i + k]? with
              | none => .error .indexOutOfRange
              | some v => .ok v := by
  intro names
  induction names with
  | nil => intro i; rfl
  | cons n ns ih =>
    intro i
    by_cases hn : n = operation
    · subst hn
      rw [findVariable, if_pos rfl]
      simp only [firstEntry, if_true, Nat.add_zero]
    · rw [findVariable, if_neg hn, ih (i + 1)]
      simp only [firstEntry, if_neg hn]
      cases firstEntry operation ns with
      | none => rfl
      | some k => simp only [Option.map_some']; rw [show i + 1 + k = i + (k + 1) by omega]

theorem findVariable_cases (ctx : GR1Context) (allowedTypes : RoleSet) (n : Str)
    (hal : ctx.TableAligned) :
    (firstEntry n ctx.variableNames = none ∧
      ctx.findVariable allowedTypes n 0 ctx.variableNames =
        .error (.variableNotFound ctx.lineNumberCurrentlyRead n)) ∨
    (∃ t, ctx.roleOf n = some t ∧ t ∉ allowedTypes ∧
      ctx.findVariable allowedTypes n 0 ctx.variableNames =
        .error (.variableNotAllowed ctx.lineNumberCurrentlyRead n)) ∨
    (∃ t v, ctx.roleOf n = some t ∧ t ∈ allowedTypes ∧ ctx.variableOf n = some v ∧
      ctx.findVariable allowedTypes n 0 ctx.variableNames = .ok v) := by
  rw [findVariable_eq]
  cases hk : firstEntry n ctx.variableNames with
  | none => left; exact ⟨rfl, rfl⟩
  | some k =>
    right
    have hlt := firstEntry_lt n _ k hk
    have ht : k < ctx.variableTypes.length := by rw [hal.2]; exact hlt
    have hv : k < ctx.variables.length := by rw [hal.1]; exact hlt
    have e1 : ctx.variableTypes[0 + k]? = some ctx.variableTypes[k] := by
      rw [Nat.zero_add]; exact List.getElem?_eq_getElem ht
    have e2 : ctx.variables[0 + k]? = some ctx.variables[k] := by
      rw [Nat.zero_add]; exact List.getElem?_eq_getElem hv
    have r1 : ctx.roleOf n = some ctx.variableTypes[k] := by
      simp [roleOf, hk, List.getElem?_eq_getElem ht]
    have r2 : ctx.variableOf n = some ctx.variables[k] := by
      simp [variableOf, hk, List.getElem?_eq_getElem hv]
    by_cases hmem : ctx.variableTypes[k] ∈ allowedTypes
    · right
      refine ⟨_, _, r1, hmem, r2, ?_⟩
      simp only [e1, e2, hmem, not_true_eq_false, if_false]
    · left
      refine ⟨_, r1, hmem, ?_⟩
      simp only [e1, hmem, not_false_eq_true, if_true]

theorem not_operator (n : Str) (h : n ∉ operatorTokens) :
    n ≠ "|".toList ∧ n ≠ "&".toList ∧ n ≠ "!".toList ∧ n ≠ "1".toList ∧ n ≠ "0".toList := by
  simp only [operatorTokens, List.mem_cons, List.mem_singleton, not_or, List.not_mem_nil,
    or_false] at h
  exact h

theorem polish_ne_nil (φ : Formula) : φ.polish ≠ [] := by
  cases φ <;> simp [Formula.polish]

theorem polish_length_pos (φ : Formula) : 0 < φ.polish.length :=
  List.length_pos.mpr (polish_ne_nil φ)

/-- A complete, resolvable formula at the head of the stream is parsed, and the stream
is left at the tokens that follow it. -/
theorem recurse_polish (ctx : GR1Context) (allowedTypes : RoleSet) (hal : ctx.TableAligned) :
    ∀ (φ : Formula) (fuel : Nat) (s : Str) (r : List Str),
      φ.polish.length ≤ fuel → tokens s = φ.polish ++ r →
      (∀ n ∈ φ.names, ctx.Resolves allowedTypes n) →
      ∃ f rest, ctx.parseBooleanFormulaRecurse allowedTypes fuel s = .ok (f, rest) ∧
        tokens rest = r ∧ φ.denote ctx = some f := by
  intro φ
  induction φ with
  | or a b iha ihb =>
    intro fuel s r hf ht hr
    cases fuel with
    | zero => simp [Formula.polish] at hf
    | succ fuel =>
      simp only [Formula.polish, List.length_cons, List.length_append] at hf
      have hw : (extractWord s).1 ≠ [] := by
        rw [Ne, extractWord_nil_iff, ht]; simp [Formula.polish]
      have h2 := (tokens_eq_extractWord s hw).1
      rw [ht] at h2
      simp only [Formula.polish, List.cons_append, List.cons.injEq, List.append_assoc] at h2
      obtain ⟨fa, ra, pa, ta, da⟩ := iha fuel (extractWord s).2 (b.polish ++ r) (by omega)
        h2.2.symm (fun n hn => hr n (by simp [Formula.names, hn]))
      obtain ⟨fb, rb, pb, tb, db⟩ := ihb fuel ra r (by omega) ta
        (fun n hn => hr n (by simp [Formula.names, hn]))
      refine ⟨fa.or fb, rb, ?_, tb, by simp [Formula.denote, da, db]⟩
      rw [parseBooleanFormulaRecurse, if_neg hw, if_pos h2.1.symm, pa]
      simp only [pb]
  | and a b iha ihb =>
    intro fuel s r hf ht hr
    cases fuel with
    | zero => simp [Formula.polish] at hf
    | succ fuel =>
      simp only [Formula.polish, List.length_cons, List.length_append] at hf
      have hw : (extractWord s).1 ≠ [] := by
        rw [Ne, extractWord_nil_iff, ht]; simp [Formula.polish]
      have h2 := (tokens_eq_extractWord s hw).1
      rw [ht] at h2
      simp only [Formula.polish, List.cons_append, List.cons.injEq, List.append_assoc] at h2
      obtain ⟨fa, ra, pa, ta, da⟩ := iha fuel (extractWord s).2 (b.polish ++ r) (by omega)
        h2.2.symm (fun n hn => hr n (by simp [Formula.names, hn]))
      obtain ⟨fb, rb, pb, tb, db⟩ := ihb fuel ra r (by omega) ta
        (fun n hn => hr n (by simp [Formula.names, hn]))
      refine ⟨fa.and fb, rb, ?_, tb, by simp [Formula.denote, da, db]⟩
      have e1 : (extractWord s).1 = "&".toList := h2.1.symm
      rw [parseBooleanFormulaRecurse, if_neg hw, if_neg (by rw [e1]; decide), if_pos e1, pa]
      simp only [pb]
  | not a iha =>
    intro fuel s r hf ht hr
    cases fuel with
    | zero => simp [Formula.polish] at hf
    | succ fuel =>
      simp only [Formula.polish, List.length_cons] at hf
      have hw : (extractWord s).1 ≠ [] := by
        rw [Ne, extractWord_nil_iff, ht]; simp [Formula.polish]
      have h2 := (tokens_eq_extractWord s hw).1
      rw [ht] at h2
      simp only [Formula.polish, List.cons_append, List.cons.injEq] at h2
      obtain ⟨fa, ra, pa, ta, da⟩ := iha fuel (extractWord s).2 r (by omega)
        h2.2.symm (fun n hn => hr n (by simp [Formula.names, hn]))
      refine ⟨fa.not, ra, ?_, ta, by simp [Formula.denote, da]⟩
      have e1 : (extractWord s).1 = "!".toList := h2.1.symm
      rw [parseBooleanFormulaRecurse, if_neg hw, if_neg (by rw [e1]; decide),
        if_neg (by rw [e1]; decide), if_pos e1, pa]
  | tt =>
    intro fuel s r hf ht _
    cases fuel with
    | zero => simp [Formula.polish] at hf
    | succ fuel =>
      have hw : (extractWord s).1 ≠ [] := by
        rw [Ne, extractWord_nil_iff, ht]; simp [Formula.polish]
      have h2 := (tokens_eq_extractWord s hw).1
      rw [ht] at h2
      simp only [Formula.polish, List.cons_append, List.cons.injEq, List.nil_append] at h2
      refine ⟨ctx.mgr.constantTrue, (extractWord s).2, ?_, h2.2.symm, rfl⟩
      have e1 : (extractWord s).1 = "1".toList := h2.1.symm
      rw [parseBooleanFormulaRecurse, if_neg hw, if_neg (by rw [e1]; decide),
        if_neg (by rw [e1]; decide), if_neg (by rw [e1]; decide), if_pos e1]
  | ff =>
    intro fuel s r hf ht _
    cases fuel with
    | zero => simp [Formula.polish] at hf
    | succ fuel =>
      have hw : (extractWord s).1 ≠ [] := by
        rw [Ne, extractWord_nil_iff, ht]; simp [Formula.polish]
      have h2 := (tokens_eq_extractWord s hw).1
      rw [ht] at h2
      simp only [Formula.polish, List.cons_append, List.cons.injEq, List.nil_append] at h2
      refine ⟨ctx.mgr.constantFalse, (extractWord s).2, ?_, h2.2.symm, rfl⟩
      have e1 : (extractWord s).1 = "0".toList := h2.1.symm
      rw [parseBooleanFormulaRecurse, if_neg hw, if_neg (by rw [e1]; decide),
        if_neg (by rw [e1]; decide), if_neg (by rw [e1]; decide), if_neg (by rw [e1]; decide),
        if_pos e1]
  | var name =>
    intro fuel s r hf ht hr
    cases fuel with
    | zero => simp [Formula.polish] at hf
    | succ fuel =>
      have hw : (extractWord s).1 ≠ [] := by
        rw [Ne, extractWord_nil_iff, ht]; simp [Formula.polish]
      have h2 := (tokens_eq_extractWord s hw).1
      rw [ht] at h2
      simp only [Formula.polish, List.cons_append, List.cons.injEq, List.nil_append] at h2
      have hres := hr name (by simp [Formula.names])
      obtain ⟨o1, o2, o3, o4, o5⟩ := not_operator name hres.1
      have e1 : (extractWord s).1 = name := h2.1.symm
      rcases findVariable_cases ctx allowedTypes name hal with ⟨hk, _⟩ | ⟨t, ht1, ht2, _⟩ |
          ⟨t, v, _, _, hv, hfind⟩
      · obtain ⟨t, _, ht⟩ := hres.2
        simp [roleOf, hk] at ht
      · obtain ⟨t', ht', hrole⟩ := hres.2
        rw [hrole] at ht1
        cases ht1
        exact absurd ht' ht2
      · refine ⟨v, (extractWord s).2, ?_, h2.2.symm, hv⟩
        rw [parseBooleanFormulaRecurse, if_neg hw, if_neg (by rw [e1]; exact o1),
          if_neg (by rw [e1]; exact o2), if_neg (by rw [e1]; exact o3),
          if_neg (by rw [e1]; exact o4), if_neg (by rw [e1]; exact o5), e1, hfind]

theorem endsPrematurely_nil : EndsPrematurely [] :=
  ⟨.tt, ["1".toList], by intro n hn; simp [Formula.names] at hn, by simp, rfl⟩

theorem resolves_wellNamed (ctx : GR1Context) (allowedTypes : RoleSet) (φ : Formula)
    (h : ∀ n ∈ φ.names, ctx.Resolves allowedTypes n) : φ.WellNamed :=
  fun n hn => (h n hn).1

/-- An error below a unary or as the first operand of a binary operator. -/
theorem recurseErrorSpec_cons (ctx : GR1Context) (allowedTypes : RoleSet) (op : Str)
    (ts : List Str) (e : SlugsError)
    (hop : ∀ φ : Formula, φ.WellNamed →
      ∃ ψ : Formula, ψ.WellNamed ∧ ∃ tail, ψ.polish = op :: (φ.polish ++ tail))
    (h : ctx.RecurseErrorSpec allowedTypes ts e) :
    ctx.RecurseErrorSpec allowedTypes (op :: ts) e := by
  rcases h with ⟨he, φ, extra, hφ, hex, hp⟩ | ⟨n, he, hn, h1, h2⟩ | ⟨n, he, hn, h1, h2⟩
  · left
    obtain ⟨ψ, hψ, tail, hpol⟩ := hop φ hφ
    refine ⟨he, ψ, extra ++ tail, hψ, by simp [hex], ?_⟩
    rw [hpol, ← hp]; simp
  · right; left; exact ⟨n, he, List.mem_cons_of_mem _ hn, h1, h2⟩
  · right; right; exact ⟨n, he, List.mem_cons_of_mem _ hn, h1, h2⟩

/-- An error in the second operand of a binary operator. -/
theorem recurseErrorSpec_second (ctx : GR1Context) (allowedTypes : RoleSet) (op : Str)
    (α : Formula) (_hα : α.WellNamed) (ts : List Str) (e : SlugsError)
    (hop : ∀ φ : Formula, φ.WellNamed →
      ∃ ψ : Formula, ψ.WellNamed ∧ ψ.polish = op :: (α.polish ++ φ.polish))
    (h : ctx.RecurseErrorSpec allowedTypes ts e) :
    ctx.RecurseErrorSpec allowedTypes (op :: (α.polish ++ ts)) e := by
  rcases h with ⟨he, φ, extra, hφ, hex, hp⟩ | ⟨n, he, hn, h1, h2⟩ | ⟨n, he, hn, h1, h2⟩
  · left
    obtain ⟨ψ, hψ, hpol⟩ := hop φ hφ
    refine ⟨he, ψ, extra, hψ, hex, ?_⟩
    rw [hpol, ← hp]; simp
  · right; left
    exact ⟨n, he, List.mem_cons_of_mem _ (List.mem_append_right _ hn), h1, h2⟩
  · right; right
    exact ⟨n, he, List.mem_cons_of_mem _ (List.mem_append_right _ hn), h1, h2⟩

theorem wellNamed_or (a b : Formula) (ha : a.WellNamed) (hb : b.WellNamed) :
    (Formula.or a b).WellNamed := by
  intro n hn
  simp only [Formula.names, List.mem_append] at hn
  exact hn.elim (ha n) (hb n)

theorem wellNamed_and (a b : Formula) (ha : a.WellNamed) (hb : b.WellNamed) :
    (Formula.and a b).WellNamed := by
  intro n hn
  simp only [Formula.names, List.mem_append] at hn
  exact hn.elim (ha n) (hb n)

theorem wellNamed_tt : Formula.tt.WellNamed := by
  intro n hn; simp [Formula.names] at hn

/-- What `parseBooleanFormulaRecurse` returns, in terms of the tokens of the stream:
on success it has consumed the listing of a resolvable tree and returns its denotation;
its errors are the three `throw`s, and the recursion bound is not reached. -/
theorem recurse_spec (ctx : GR1Context) (allowedTypes : RoleSet) (hal : ctx.TableAligned) :
    ∀ (fuel : Nat) (s : Str), s.length < fuel →
      (∀ f rest, ctx.parseBooleanFormulaRecurse allowedTypes fuel s = .ok (f, rest) →
        rest.length < s.length ∧ ∃ φ : Formula, tokens s = φ.polish ++ tokens rest ∧
          (∀ n ∈ φ.names, ctx.Resolves allowedTypes n) ∧ φ.denote ctx = some f) ∧
      (∀ e, ctx.parseBooleanFormulaRecurse allowedTypes fuel s = .error e →
        ctx.RecurseErrorSpec allowedTypes (tokens s) e) := by
  intro fuel
  induction fuel with
  | zero => intro s hs; omega
  | succ fuel ih =>
    intro s hs
    by_cases hw : (extractWord s).1 = []
    · rw [parseBooleanFormulaRecurse, if_pos hw]
      refine ⟨(fun f rest h => by cases h), fun e h => ?_⟩
      cases h
      left
      rw [(extractWord_nil_iff s).mp hw]
      exact ⟨rfl, endsPrematurely_nil⟩
    obtain ⟨htok, hlen⟩ := tokens_eq_extractWord s hw
    have ih1 := ih (extractWord s).2 (by omega)
    rw [parseBooleanFormulaRecurse, if_neg hw, htok]
    by_cases h1 : (extractWord s).1 = "|".toList
    · rw [if_pos h1, h1]
      cases hA : ctx.parseBooleanFormulaRecurse allowedTypes fuel (extractWord s).2 with
      | error e =>
        refine ⟨(fun f rest h => by cases h), fun e' h => ?_⟩
        cases h
        exact recurseErrorSpec_cons ctx allowedTypes _ _ _
          (fun φ hφ => ⟨.or φ .tt, wellNamed_or _ _ hφ wellNamed_tt, _, rfl⟩) (ih1.2 e hA)
      | ok p =>
        obtain ⟨l, is1⟩ := p
        obtain ⟨hl1, α, hα, hαr, hαd⟩ := ih1.1 l is1 hA
        have ih2 := ih is1 (by omega)
        simp only
        cases hB : ctx.parseBooleanFormulaRecurse allowedTypes fuel is1 with
        | error e =>
          refine ⟨(fun f rest h => by cases h), fun e' h => ?_⟩
          cases h
          rw [hα]
          exact recurseErrorSpec_second ctx allowedTypes _ α (resolves_wellNamed _ _ _ hαr) _ _
            (fun φ hφ => ⟨.or α φ, wellNamed_or _ _ (resolves_wellNamed _ _ _ hαr) hφ, rfl⟩)
            (ih2.2 e hB)
        | ok q =>
          obtain ⟨r, is2⟩ := q
          obtain ⟨hl2, β, hβ, hβr, hβd⟩ := ih2.1 r is2 hB
          refine ⟨fun f rest h => ?_, fun e h => by cases h⟩
          simp only [Except.ok.injEq, Prod.mk.injEq] at h
          obtain ⟨rfl, rfl⟩ := h
          refine ⟨by omega, .or α β, ?_, ?_, by simp [Formula.denote, hαd, hβd]⟩
          · rw [hα, hβ]; simp [Formula.polish]
          · intro n hn
            simp only [Formula.names, List.mem_append] at hn
            exact hn.elim (hαr n) (hβr n)
    rw [if_neg h1]
    by_cases h2 : (extractWord s).1 = "&".toList
    · rw [if_pos h2, h2]
      cases hA : ctx.parseBooleanFormulaRecurse allowedTypes fuel (extractWord s).2 with
      | error e =>
        refine ⟨(fun f rest h => by cases h), fun e' h => ?_⟩
        cases h
        exact recurseErrorSpec_cons ctx allowedTypes _ _ _
          (fun φ hφ => ⟨.and φ .tt, wellNamed_and _ _ hφ wellNamed_tt, _, rfl⟩) (ih1.2 e hA)
      | ok p =>
        obtain ⟨l, is1⟩ := p
        obtain ⟨hl1, α, hα, hαr, hαd⟩ := ih1.1 l is1 hA
        have ih2 := ih is1 (by omega)
        simp only
        cases hB : ctx.parseBooleanFormulaRecurse allowedTypes fuel is1 with
        | error e =>
          refine ⟨(fun f rest h => by cases h), fun e' h => ?_⟩
          cases h
          rw [hα]
          exact recurseErrorSpec_second ctx allowedTypes _ α (resolves_wellNamed _ _ _ hαr) _ _
            (fun φ hφ => ⟨.and α φ, wellNamed_and _ _ (resolves_wellNamed _ _ _ hαr) hφ, rfl⟩)
            (ih2.2 e hB)
        | ok q =>
          obtain ⟨r, is2⟩ := q
          obtain ⟨hl2, β, hβ, hβr, hβd⟩ := ih2.1 r is2 hB
          refine ⟨fun f rest h => ?_, fun e h => by cases h⟩
          simp only [Except.ok.injEq, Prod.mk.injEq] at h
          obtain ⟨rfl, rfl⟩ := h
          refine ⟨by omega, .and α β, ?_, ?_, by simp [Formula.denote, hαd, hβd]⟩
          · rw [hα, hβ]; simp [Formula.polish]
          · intro n hn
            simp only [Formula.names, List.mem_append] at hn
            exact hn.elim (hαr n) (hβr n)
    rw [if_neg h2]
    by_cases h3 : (extractWord s).1 = "!".toList
    · rw [if_pos h3, h3]
      cases hA : ctx.parseBooleanFormulaRecurse allowedTypes fuel (extractWord s).2 with
      | error e =>
        refine ⟨(fun f rest h => by cases h), fun e' h => ?_⟩
        cases h
        exact recurseErrorSpec_cons ctx allowedTypes _ _ _
          (fun φ hφ => ⟨.not φ, fun n hn => hφ n (by simpa [Formula.names] using hn), [],
            by simp [Formula.polish]⟩) (ih1.2 e hA)
      | ok p =>
        obtain ⟨l, is1⟩ := p
        obtain ⟨hl1, α, hα, hαr, hαd⟩ := ih1.1 l is1 hA
        refine ⟨fun f rest h => ?_, fun e h => by cases h⟩
        simp only [Except.ok.injEq, Prod.mk.injEq] at h
        obtain ⟨rfl, rfl⟩ := h
        refine ⟨by omega, .not α, ?_, ?_, by simp [Formula.denote, hαd]⟩
        · rw [hα]; simp [Formula.polish]
        · intro n hn
          simp only [Formula.names] at hn
          exact hαr n hn
    rw [if_neg h3]
    by_cases h4 : (extractWord s).1 = "1".toList
    · rw [if_pos h4, h4]
      refine ⟨fun f rest h => ?_, fun e h => by cases h⟩
      simp only [Except.ok.injEq, Prod.mk.injEq] at h
      obtain ⟨rfl, rfl⟩ := h
      exact ⟨hlen, .tt, by simp [Formula.polish], by intro n hn; simp [Formula.names] at hn, rfl⟩
    rw [if_neg h4]
    by_cases h5 : (extractWord s).1 = "0".toList
    · rw [if_pos h5, h5]
      refine ⟨fun f rest h => ?_, fun e h => by cases h⟩
      simp only [Except.ok.injEq, Prod.mk.injEq] at h
      obtain ⟨rfl, rfl⟩ := h
      exact ⟨hlen, .ff, by simp [Formula.polish], by intro n hn; simp [Formula.names] at hn, rfl⟩
    rw [if_neg h5]
    have hnop : (extractWord s).1 ∉ operatorTokens := by
      simp only [operatorTokens, List.mem_cons, List.mem_singleton, List.not_mem_nil, or_false,
        not_or]
      exact ⟨h1, h2, h3, h4, h5⟩
    rcases findVariable_cases ctx allowedTypes (extractWord s).1 hal with ⟨hk, hfind⟩ |
        ⟨t, ht1, ht2, hfind⟩ | ⟨t, v, ht1, ht2, hv, hfind⟩
    · rw [hfind]
      refine ⟨(fun f rest h => by cases h), fun e h => ?_⟩
      cases h
      right; left
      exact ⟨_, rfl, List.mem_cons_self _ _, hnop, hk⟩
    · rw [hfind]
      refine ⟨(fun f rest h => by cases h), fun e h => ?_⟩
      cases h
      right; right
      exact ⟨_, rfl, List.mem_cons_self _ _, hnop, t, ht1, ht2⟩
    · rw [hfind]
      refine ⟨fun f rest h => ?_, fun e h => by cases h⟩
      simp only [Except.ok.injEq, Prod.mk.injEq] at h
      obtain ⟨rfl, rfl⟩ := h
      refine ⟨hlen, .var (extractWord s).1, by simp [Formula.polish], ?_, hv⟩
      intro n hn
      simp only [Formula.names, List.mem_singleton] at hn
      subst hn
      exact ⟨hnop, t, ht2, ht1⟩

/-- Prefix listings are uniquely readable: a listing followed by anything determines
the tree and what follows. -/
theorem polish_unique : ∀ (φ ψ : Formula) (r1 r2 : List Str), φ.WellNamed → ψ.WellNamed →
    φ.polish ++ r1 = ψ.polish ++ r2 → φ = ψ ∧ r1 = r2 := by
  intro φ
  induction φ with
  | or a b iha ihb =>
    intro ψ r1 r2 hφ hψ h
    have ha : a.WellNamed := fun n hn => hφ n (by simp [Formula.names, hn])
    have hb : b.WellNamed := fun n hn => hφ n (by simp [Formula.names, hn])
    cases ψ with
    | or c d =>
      simp only [Formula.polish, List.cons_append, List.cons.injEq, true_and,
        List.append_assoc] at h
      obtain ⟨rfl, h'⟩ := iha c _ _ ha (fun n hn => hψ n (by simp [Formula.names, hn])) h
      obtain ⟨rfl, h''⟩ := ihb d _ _ hb (fun n hn => hψ n (by simp [Formula.names, hn])) h'
      exact ⟨rfl, h''⟩
    | var name =>
      simp only [Formula.polish, List.cons_append, List.cons.injEq] at h
      exact absurd h.1.symm (not_operator name (hψ name (by simp [Formula.names]))).1
    | and c d => simp [Formula.polish] at h
    | not c => simp [Formula.polish] at h
    | tt => simp [Formula.polish] at h
    | ff => simp [Formula.polish] at h
  | and a b iha ihb =>
    intro ψ r1 r2 hφ hψ h
    have ha : a.WellNamed := fun n hn => hφ n (by simp [Formula.names, hn])
    have hb : b.WellNamed := fun n hn => hφ n (by simp [Formula.names, hn])
    cases ψ with
    | and c d =>
      simp only [Formula.polish, List.cons_append, List.cons.injEq, true_and,
        List.append_assoc] at h
      obtain ⟨rfl, h'⟩ := iha c _ _ ha (fun n hn => hψ n (by simp [Formula.names, hn])) h
      obtain ⟨rfl, h''⟩ := ihb d _ _ hb (fun n hn => hψ n (by simp [Formula.names, hn])) h'
      exact ⟨rfl, h''⟩
    | var name =>
      simp only [Formula.polish, List.cons_append, List.cons.injEq] at h
      exact absurd h.1.symm (not_operator name (hψ name (by simp [Formula.names]))).2.1
    | or c d => simp [Formula.polish] at h
    | not c => simp [Formula.polish] at h
    | tt => simp [Formula.polish] at h
    | ff => simp [Formula.polish] at h
  | not a iha =>
    intro ψ r1 r2 hφ hψ h
    have ha : a.WellNamed := fun n hn => hφ n (by simp [Formula.names, hn])
    cases ψ with
    | not c =>
      simp only [Formula.polish, List.cons_append, List.cons.injEq, true_and] at h
      obtain ⟨rfl, h'⟩ := iha c _ _ ha (fun n hn => hψ n (by simp [Formula.names, hn])) h
      exact ⟨rfl, h'⟩
    | var name =>
      simp only [Formula.polish, List.cons_append, List.cons.injEq] at h
      exact absurd h.1.symm (not_operator name (hψ name (by simp [Formula.names]))).2.2.1
    | or c d => simp [Formula.polish] at h
    | and c d => simp [Formula.polish] at h
    | tt => simp [Formula.polish] at h
    | ff => simp [Formula.polish] at h
  | tt =>
    intro ψ r1 r2 hφ hψ h
    cases ψ with
    | tt => simpa [Formula.polish] using h
    | var name =>
      simp only [Formula.polish, List.cons_append, List.cons.injEq] at h
      exact absurd h.1.symm (not_operator name (hψ name (by simp [Formula.names]))).2.2.2.1
    | or c d => simp [Formula.polish] at h
    | and c d => simp [Formula.polish] at h
    | not c => simp [Formula.polish] at h
    | ff => simp [Formula.polish] at h
  | ff =>
    intro ψ r1 r2 hφ hψ h
    cases ψ with
    | ff => simpa [Formula.polish] using h
    | var name =>
      simp only [Formula.polish, List.cons_append, List.cons.injEq] at h
      exact absurd h.1.symm (not_operator name (hψ name (by simp [Formula.names]))).2.2.2.2
    | or c d => simp [Formula.polish] at h
    | and c d => simp [Formula.polish] at h
    | not c => simp [Formula.polish] at h
    | tt => simp [Formula.polish] at h
  | var name =>
    intro ψ r1 r2 hφ hψ h
    obtain ⟨o1, o2, o3, o4, o5⟩ := not_operator name (hφ name (by simp [Formula.names]))
    cases ψ with
    | var name2 =>
      simp only [Formula.polish, List.cons_append, List.cons.injEq, List.nil_append] at h
      exact ⟨by rw [h.1], h.2⟩
    | or c d =>
      simp only [Formula.polish, List.cons_append, List.cons.injEq] at h
      exact absurd h.1 o1
    | and c d =>
      simp only [Formula.polish, List.cons_append, List.cons.injEq] at h
      exact absurd h.1 o2
    | not c =>
      simp only [Formula.polish, List.cons_append, List.cons.injEq] at h
      exact absurd h.1 o3
    | tt =>
      simp only [Formula.polish, List.cons_append, List.cons.injEq] at h
      exact absurd h.1 o4
    | ff =>
      simp only [Formula.polish, List.cons_append, List.cons.injEq] at h
      exact absurd h.1 o5

theorem tokens_length_le : ∀ (n : Nat) (s : Str), s.length ≤ n → (tokens s).length ≤ s.length := by
  intro n
  induction n with
  | zero =>
    intro s hs
    have : s = [] := List.length_eq_zero.mp (by omega)
    subst this
    simp [tokens_nil]
  | succ n ih =>
    intro s hs
    by_cases hw : (extractWord s).1 = []
    · rw [(extractWord_nil_iff s).mp hw]; simp
    · obtain ⟨h1, h2⟩ := tokens_eq_extractWord s hw
      have := ih (extractWord s).2 (by omega)
      rw [h1]; simp only [List.length_cons]; omega

theorem mem_polish (φ : Formula) (t : Str) (h : t ∈ φ.polish) :
    t ∈ operatorTokens ∨ t ∈ φ.names := by
  induction φ with
  | or a b iha ihb =>
    simp only [Formula.polish, List.mem_cons, List.mem_append] at h
    rcases h with h | h | h
    · left; rw [h]; decide
    · exact (iha h).imp id (fun x => by simp [Formula.names, x])
    · exact (ihb h).imp id (fun x => by simp [Formula.names, x])
  | and a b iha ihb =>
    simp only [Formula.polish, List.mem_cons, List.mem_append] at h
    rcases h with h | h | h
    · left; rw [h]; decide
    · exact (iha h).imp id (fun x => by simp [Formula.names, x])
    · exact (ihb h).imp id (fun x => by simp [Formula.names, x])
  | not a iha =>
    simp only [Formula.polish, List.mem_cons] at h
    rcases h with h | h
    · left; rw [h]; decide
    · exact (iha h).imp id (fun x => by simpa [Formula.names] using x)
  | tt =>
    simp only [Formula.polish, List.mem_singleton] at h
    left; rw [h]; decide
  | ff =>
    simp only [Formula.polish, List.mem_singleton] at h
    left; rw [h]; decide
  | var name =>
    simp only [Formula.polish, List.mem_singleton] at h
    right; simp [Formula.names, h]

/-- A token sequence that is exactly the listing of a resolvable tree shows none of the
four defects. -/
theorem complete_excludes (ctx : GR1Context) (allowedTypes : RoleSet) (φ : Formula)
    (ts : List Str) (hts : ts = φ.polish) (hres : ∀ n ∈ φ.names, ctx.Resolves allowedTypes n) :
    ¬ (EndsPrematurely ts ∨ HasUnknownVariable ctx ts ∨
        HasDisallowedVariable ctx allowedTypes ts ∨ HasStrayToken ts) := by
  have hwn := resolves_wellNamed ctx allowedTypes φ hres
  subst hts
  rintro (⟨ψ, extra, hψ, hex, h⟩ | ⟨n, hn, hop, hk⟩ | ⟨n, hn, hop, t, ht, hnot⟩ |
      ⟨ψ, rest, hψ, hrest, h⟩)
  · have := polish_unique φ ψ extra [] hwn hψ (by simpa using h)
    exact hex this.2
  · rcases mem_polish φ n hn with h | h
    · exact hop h
    · obtain ⟨_, t, _, ht⟩ := hres n h
      simp [roleOf, hk] at ht
  · rcases mem_polish φ n hn with h | h
    · exact hop h
    · obtain ⟨_, t', ht', hrole⟩ := hres n h
      rw [hrole] at ht
      cases ht
      exact hnot ht'
  · have := polish_unique φ ψ [] rest hwn hψ (by simpa using h)
    exact hrest this.2.symm

/-- A line whose tokens are the listing of a resolvable tree is parsed to the
denotation of the tree. -/
theorem parseBooleanFormula_of_polish (ctx : GR1Context) (allowedTypes : RoleSet) (φ : Formula)
    (currentLine : Str) (hal : ctx.TableAligned) (hline : tokens currentLine = φ.polish)
    (hres : ∀ n ∈ φ.names, ctx.Resolves allowedTypes n) :
    ∃ f, φ.denote ctx = some f ∧ ctx.parseBooleanFormula currentLine allowedTypes = .ok f := by
  have hlen : φ.polish.length ≤ currentLine.length + 1 := by
    have := tokens_length_le currentLine.length currentLine (le_refl _)
    rw [hline] at this; omega
  obtain ⟨f, rest, hp, hr, hd⟩ := recurse_polish ctx allowedTypes hal φ
    (currentLine.length + 1) currentLine [] hlen (by simpa using hline) hres
  refine ⟨f, hd, ?_⟩
  rw [parseBooleanFormula, hp]
  simp only
  rw [if_pos ((extractWord_nil_iff rest).mpr hr)]

/-- Whatever `parseBooleanFormula` returns is the denotation of a resolvable tree whose
listing is the token sequence of the line. -/
theorem parseBooleanFormula_ok_spec (ctx : GR1Context) (allowedTypes : RoleSet)
    (currentLine : Str) (hal : ctx.TableAligned) (f : BF)
    (h : ctx.parseBooleanFormula currentLine allowedTypes = .ok f) :
    ∃ φ : Formula, tokens currentLine = φ.polish ∧
      (∀ n ∈ φ.names, ctx.Resolves allowedTypes n) ∧ φ.denote ctx = some f := by
  have hspec := recurse_spec ctx allowedTypes hal (currentLine.length + 1) currentLine
    (Nat.lt_succ_self _)
  rw [parseBooleanFormula] at h
  cases hR : ctx.parseBooleanFormulaRecurse allowedTypes (currentLine.length + 1)
      currentLine with
  | error e' => rw [hR] at h; cases h
  | ok p =>
    obtain ⟨g, rest⟩ := p
    rw [hR] at h
    simp only at h
    obtain ⟨_, φ, hφ, hφr, hφd⟩ := hspec.1 g rest hR
    by_cases hw : (extractWord rest).1 = []
    · rw [if_pos hw] at h
      cases h
      refine ⟨φ, ?_, hφr, hφd⟩
      rw [hφ, (extractWord_nil_iff rest).mp hw]; simp
    · rw [if_neg hw] at h; cases h

theorem takeWhile_token (t rest : Str) (ht : ∀ c ∈ t, isspace c = false)
    (hrest : ∀ c ∈ rest.head?, isspace c = true) :
    (t ++ rest).takeWhile (fun c => !isspace c) = t ∧
      (t ++ rest).dropWhile (fun c => !isspace c) = rest := by
  induction t with
  | nil =>
    cases rest with
    | nil => exact ⟨rfl, rfl⟩
    | cons c r =>
      have hc : isspace c = true := hrest c rfl
      simp [List.takeWhile_cons, List.dropWhile_cons, hc]
  | cons a t ih =>
    have ha : isspace a = false := ht a (List.mem_cons_self _ _)
    obtain ⟨h1, h2⟩ := ih (fun c hc => ht c (List.mem_cons_of_mem _ hc))
    simp [List.takeWhile_cons, List.dropWhile_cons, ha, h1, h2]

theorem tokens_append_token (t rest : Str) (ht : IsToken t)
    (hrest : ∀ c ∈ rest.head?, isspace c = true) : tokens (t ++ rest) = t :: tokens rest := by
  obtain ⟨hne, hall⟩ := ht
  cases t with
  | nil => exact absurd rfl hne
  | cons a t =>
    obtain ⟨h1, h2⟩ := takeWhile_token t rest (fun c hc => hall c (List.mem_cons_of_mem _ hc))
      hrest
    rw [List.cons_append, tokens_cons_word a (t ++ rest) (hall a (List.mem_cons_self _ _)),
      h1, h2]

/-- The tokens of the serialization of a sequence of tokens are these tokens. -/
theorem tokens_serialize : ∀ ts : List Str, (∀ t ∈ ts, IsToken t) →
    tokens (serialize ts) = ts := by
  intro ts
  induction ts with
  | nil => intro _; exact tokens_nil
  | cons t rest ih =>
    intro h
    have ht : IsToken t := h t (List.mem_cons_self _ _)
    cases rest with
    | nil =>
      have := tokens_append_token t [] ht (fun c hc => by cases hc)
      simpa [serialize, tokens_nil] using this
    | cons u rest =>
      have hrec := ih (fun x hx => h x (List.mem_cons_of_mem _ hx))
      have := tokens_append_token t (' ' :: serialize (u :: rest)) ht
        (fun c hc => by
          simp only [List.head?_cons, Option.mem_def, Option.some.injEq] at hc
          subst hc
          decide)
      rw [serialize, this, tokens_cons_space ' ' _ (by decide), hrec]

theorem isToken_polish (φ : Formula) (h : ∀ n ∈ φ.names, IsToken n) :
    ∀ t ∈ φ.polish, IsToken t := by
  intro t ht
  rcases mem_polish φ t ht with hop | hn
  · simp only [operatorTokens, List.mem_cons, List.mem_singleton, List.not_mem_nil,
      or_false] at hop
    rcases hop with rfl | rfl | rfl | rfl | rfl <;> decide
  · exact h t hn

/-- C1 as amended: for every formula tree over `|`, `&`, `!`, `0`, `1` and names that
are tokens (non-empty, without whitespace), that are none of the five operator and
constant tokens, and whose first table entry has a role in the allowed set,
`parseBooleanFormula` applied to the whitespace-separated prefix serialization of the
tree, and to every other line whose whitespace-separated tokens are the prefix listing
of the tree, succeeds and returns the Boolean function the tree denotes. -/
theorem parseBooleanFormula_polish (ctx : GR1Context) (allowedTypes : RoleSet) (φ : Formula)
    (hal : ctx.TableAligned) (htok : ∀ n ∈ φ.names, IsToken n)
    (hres : ∀ n ∈ φ.names, ctx.Resolves allowedTypes n) :
    ∃ f, φ.denote ctx = some f ∧
      ctx.parseBooleanFormula (serialize φ.polish) allowedTypes = .ok f ∧
      ∀ currentLine : Str, tokens currentLine = φ.polish →
        ctx.parseBooleanFormula currentLine allowedTypes = .ok f := by
  have key : ∀ currentLine : Str, tokens currentLine = φ.polish →
      ∃ f, φ.denote ctx = some f ∧ ctx.parseBooleanFormula currentLine allowedTypes = .ok f := by
    intro currentLine hline
    have hcount := tokens_length_le currentLine.length currentLine (le_refl _)
    rw [hline] at hcount
    obtain ⟨f, rest, hp, hr, hd⟩ := recurse_polish ctx allowedTypes hal φ
      (currentLine.length + 1) currentLine [] (Nat.le_succ_of_le hcount) (by simpa using hline)
      hres
    have hend : (extractWord rest).1 = [] := (extractWord_nil_iff rest).mpr hr
    refine ⟨f, hd, ?_⟩
    unfold parseBooleanFormula
    rw [hp]
    simp only [hend, if_true]
  obtain ⟨f, hd, hp⟩ := key (serialize φ.polish)
    (tokens_serialize φ.polish (isToken_polish φ htok))
  refine ⟨f, hd, hp, fun currentLine hline => ?_⟩
  obtain ⟨g, hg, hq⟩ := key currentLine hline
  rw [hd] at hg
  cases hg
  exact hq

/-- The instance of C1 as amended for the tree of `| ! r' g` over the table of `r` and
`g`: its serialization and the line `  | ! r'   g ` are parsed to the same function. -/
theorem parseBooleanFormula_polish_witness :
    exampleContext.TableAligned ∧ (∀ n ∈ exampleFormula.names, IsToken n) ∧
      (∀ n ∈ exampleFormula.names, exampleContext.Resolves allowedEnv n) ∧
      tokens exampleLine = exampleFormula.polish ∧
      ∃ f, exampleFormula.denote exampleContext = some f ∧
        exampleContext.parseBooleanFormula (serialize exampleFormula.polish) allowedEnv =
          .ok f ∧
        ∀ currentLine : Str, tokens currentLine = exampleFormula.polish →
          exampleContext.parseBooleanFormula currentLine allowedEnv = .ok f :=
  ⟨⟨rfl, rfl⟩, by decide, by decide, by decide,
    parseBooleanFormula_polish exampleContext allowedEnv exampleFormula ⟨rfl, rfl⟩ (by decide)
      (by decide)⟩

/-- C1 as stated fails.  After the declaration of the output `a b` the name `a b` is in
the variable table, differs from the five operator tokens and has the role `PreOutput`,
which `[SYS_INIT]` allows, but the serialization `a b` of the tree that consists of this
name has the two tokens `a` and `b`, and `parseBooleanFormula` throws for the unknown
variable `a`.  After the declaration of `x` as an input and then as an output the name
`x` is in the table with the role `PreOutput`, at position 2, but `parseBooleanFormula`
applied to `x` with the roles of `[SYS_INIT]` throws: the first entry named `x` has the
role `PreInput`.  The construction fails accordingly when the two lines stand under
`[SYS_INIT]` in the files. -/
theorem parseBooleanFormula_named_fails :
    (∃ ctx, construct (some spacedNameFile) = .ok ctx ∧
      "a b".toList ∈ ctx.variableNames ∧ ctx.Resolves allowedSysInit "a b".toList ∧
      serialize (Formula.var "a b".toList).polish = "a b".toList ∧
      ctx.parseBooleanFormula "a b".toList allowedSysInit =
        .error (.variableNotFound 2 "a".toList)) ∧
    (∃ ctx, construct (some twoRolesFile) = .ok ctx ∧
      ctx.variableNames[2]? = some "x".toList ∧
      ctx.variableTypes[2]? = some .PreOutput ∧ VariableType.PreOutput ∈ allowedSysInit ∧
      "x".toList ∉ operatorTokens ∧
      serialize (Formula.var "x".toList).polish = "x".toList ∧
      ctx.parseBooleanFormula "x".toList allowedSysInit =
        .error (.variableNotAllowed 4 "x".toList)) ∧
    construct (some spacedNameUseFile) = .error (.variableNotFound 4 "a".toList) ∧
    construct (some twoRolesUseFile) = .error (.variableNotAllowed 6 "x".toList) :=
  ⟨⟨_, rfl, by decide, by decide, rfl, rfl⟩, ⟨_, rfl, rfl, rfl, by decide, by decide, rfl, rfl⟩,
    by rfl, by rfl⟩

/-- Every error of `parseBooleanFormula` is one of its four `throw`s, carries the
current line number, and comes with the matching defect of the token sequence. -/
theorem parseBooleanFormula_error_spec (ctx : GR1Context) (allowedTypes : RoleSet)
    (currentLine : Str) (hal : ctx.TableAligned) (e : SlugsError)
    (he : ctx.parseBooleanFormula currentLine allowedTypes = .error e) :
    (e = .prematureEndOfLine ctx.lineNumberCurrentlyRead ∧
      EndsPrematurely (tokens currentLine)) ∨
    (∃ n, e = .variableNotFound ctx.lineNumberCurrentlyRead n ∧
      HasUnknownVariable ctx (tokens currentLine)) ∨
    (∃ n, e = .variableNotAllowed ctx.lineNumberCurrentlyRead n ∧
      HasDisallowedVariable ctx allowedTypes (tokens currentLine)) ∨
    (∃ w, e = .strayCharacters ctx.lineNumberCurrentlyRead w ∧
      HasStrayToken (tokens currentLine)) := by
  have hspec := recurse_spec ctx allowedTypes hal (currentLine.length + 1) currentLine
    (Nat.lt_succ_self _)
  rw [parseBooleanFormula] at he
  cases hR : ctx.parseBooleanFormulaRecurse allowedTypes (currentLine.length + 1)
      currentLine with
  | error e' =>
    rw [hR] at he
    cases he
    rcases hspec.2 e hR with ⟨h1, h2⟩ | ⟨n, h1, h2, h3, h4⟩ | ⟨n, h1, h2, h3, h4⟩
    · left; exact ⟨h1, h2⟩
    · right; left; exact ⟨n, h1, n, h2, h3, h4⟩
    · right; right; left; exact ⟨n, h1, n, h2, h3, h4⟩
  | ok p =>
    obtain ⟨f, rest⟩ := p
    rw [hR] at he
    simp only at he
    obtain ⟨_, φ, hφ, hφr, _⟩ := hspec.1 f rest hR
    by_cases hw : (extractWord rest).1 = []
    · rw [if_pos hw] at he; cases he
    · rw [if_neg hw] at he
      cases he
      right; right; right
      refine ⟨_, rfl, φ, tokens rest, resolves_wellNamed _ _ _ hφr, ?_, hφ⟩
      rw [Ne, ← extractWord_nil_iff]; exact hw

/-- C2: `parseBooleanFormula` fails exactly when the tokens of the line are not the
prefix listing of one complete formula over resolvable names, that is exactly when the
tokens run out early, or a non-operator token names no table entry, or resolves to an
entry with a role that is not allowed, or a token remains after the first complete
formula; each error is one of the four `throw`s, with the matching condition; and
when there is no error a Boolean function is returned. -/
theorem parseBooleanFormula_error_iff (ctx : GR1Context) (allowedTypes : RoleSet)
    (currentLine : Str) (hal : ctx.TableAligned) :
    ((∃ e, ctx.parseBooleanFormula currentLine allowedTypes = .error e) ↔
      ¬ ∃ φ : Formula, tokens currentLine = φ.polish ∧
        ∀ n ∈ φ.names, ctx.Resolves allowedTypes n) ∧
    ((∃ e, ctx.parseBooleanFormula currentLine allowedTypes = .error e) ↔
      (EndsPrematurely (tokens currentLine) ∨ HasUnknownVariable ctx (tokens currentLine) ∨
        HasDisallowedVariable ctx allowedTypes (tokens currentLine) ∨
        HasStrayToken (tokens currentLine))) ∧
    (∀ e, ctx.parseBooleanFormula currentLine allowedTypes = .error e →
      (e = .prematureEndOfLine ctx.lineNumberCurrentlyRead ∧
        EndsPrematurely (tokens currentLine)) ∨
      (∃ n, e = .variableNotFound ctx.lineNumberCurrentlyRead n ∧
        HasUnknownVariable ctx (tokens currentLine)) ∨
      (∃ n, e = .variableNotAllowed ctx.lineNumberCurrentlyRead n ∧
        HasDisallowedVariable ctx allowedTypes (tokens currentLine)) ∨
      (∃ w, e = .strayCharacters ctx.lineNumberCurrentlyRead w ∧
        HasStrayToken (tokens currentLine))) ∧
    ((¬ ∃ e, ctx.parseBooleanFormula currentLine allowedTypes = .error e) →
      ∃ f, ctx.parseBooleanFormula currentLine allowedTypes = .ok f) := by
  have hspec := recurse_spec ctx allowedTypes hal (currentLine.length + 1) currentLine
    (Nat.lt_succ_self _)
  have hkind := parseBooleanFormula_error_spec ctx allowedTypes currentLine hal
  have hcomplete : (∃ φ : Formula, tokens currentLine = φ.polish ∧
        ∀ n ∈ φ.names, ctx.Resolves allowedTypes n) →
      ¬ ∃ e, ctx.parseBooleanFormula currentLine allowedTypes = .error e := by
    rintro ⟨φ, h1, h2⟩ ⟨e, he⟩
    obtain ⟨f, _, hf⟩ := parseBooleanFormula_of_polish ctx allowedTypes φ currentLine hal h1 h2
    rw [hf] at he; cases he
  have hdefect : (∃ e, ctx.parseBooleanFormula currentLine allowedTypes = .error e) →
      (EndsPrematurely (tokens currentLine) ∨ HasUnknownVariable ctx (tokens currentLine) ∨
        HasDisallowedVariable ctx allowedTypes (tokens currentLine) ∨
        HasStrayToken (tokens currentLine)) := by
    rintro ⟨e, he⟩
    rcases hkind e he with ⟨_, h⟩ | ⟨_, _, h⟩ | ⟨_, _, h⟩ | ⟨_, _, h⟩
    · exact Or.inl h
    · exact Or.inr (Or.inl h)
    · exact Or.inr (Or.inr (Or.inl h))
    · exact Or.inr (Or.inr (Or.inr h))
  have hok : (¬ ∃ e, ctx.parseBooleanFormula currentLine allowedTypes = .error e) →
      ∃ φ : Formula, tokens currentLine = φ.polish ∧
        ∀ n ∈ φ.names, ctx.Resolves allowedTypes n := by
    intro hne
    cases hR : ctx.parseBooleanFormulaRecurse allowedTypes (currentLine.length + 1)
        currentLine with
    | error e' =>
      exact absurd ⟨e', by rw [parseBooleanFormula, hR]⟩ hne
    | ok p =>
      obtain ⟨f, rest⟩ := p
      obtain ⟨_, φ, hφ, hφr, _⟩ := hspec.1 f rest hR
      by_cases hw : (extractWord rest).1 = []
      · refine ⟨φ, ?_, hφr⟩
        rw [hφ, (extractWord_nil_iff rest).mp hw]; simp
      · exact absurd ⟨_, by rw [parseBooleanFormula, hR]; simp only; rw [if_neg hw]⟩ hne
  refine ⟨⟨fun h hφ => hcomplete hφ h, fun h => by_contra fun hne => h (hok hne)⟩,
    ⟨hdefect, fun h => by_contra fun hne => ?_⟩, hkind, fun hne => ?_⟩
  · obtain ⟨φ, h1, h2⟩ := hok hne
    exact complete_excludes ctx allowedTypes φ _ h1 h2 h
  · cases hp : ctx.parseBooleanFormula currentLine allowedTypes with
    | error e => exact absurd ⟨e, hp⟩ hne
    | ok f => exact ⟨f, rfl⟩

/-- The instance of C2 for the line `& r`, which ends prematurely. -/
theorem parseBooleanFormula_error_iff_witness :
    exampleContext.TableAligned ∧
      ((∃ e, exampleContext.parseBooleanFormula "& r".toList allowedEnv = .error e) ↔
        ¬ ∃ φ : Formula, tokens "& r".toList = φ.polish ∧
          ∀ n ∈ φ.names, exampleContext.Resolves allowedEnv n) :=
  ⟨⟨rfl, rfl⟩, (parseBooleanFormula_error_iff exampleContext allowedEnv "& r".toList ⟨rfl, rfl⟩).1⟩

/-! ## The reading loop -/

theorem readLine_ignorable (st : GR1Context × Int) (rawLine : Str) (h : Ignorable rawLine) :
    readLine st rawLine = .ok (st.1.nextLine, st.2) := by
  unfold readLine
  rw [if_neg]
  rintro ⟨h1, h2⟩
  rcases h with h | h
  · rw [h] at h1; simp at h1
  · exact h2 h

theorem readLine_header (st : GR1Context × Int) (rawLine : Str) (h : ¬ Ignorable rawLine)
    (hb : StartsWithBracket rawLine) :
    readLine st rawLine = readHeader st.1.nextLine (trim rawLine) := by
  unfold readLine
  have h1 : (trim rawLine).length > 0 ∧ (trim rawLine).head? ≠ some '#' := by
    constructor
    · exact List.length_pos.mpr (fun h0 => h (Or.inl h0))
    · exact fun h0 => h (Or.inr h0)
  unfold StartsWithBracket at hb
  rw [if_pos h1, if_pos hb]

theorem readLine_content (st : GR1Context × Int) (rawLine : Str) (h : ¬ Ignorable rawLine)
    (hb : ¬ StartsWithBracket rawLine) :
    readLine st rawLine = readContent st.1.nextLine st.2 (trim rawLine) := by
  unfold readLine
  have h1 : (trim rawLine).length > 0 ∧ (trim rawLine).head? ≠ some '#' := by
    constructor
    · exact List.length_pos.mpr (fun h0 => h (Or.inl h0))
    · exact fun h0 => h (Or.inr h0)
  unfold StartsWithBracket at hb
  rw [if_pos h1, if_neg hb]

theorem readHeader_cases (l : Str) :
    (∃ k : Nat, sectionHeaders[k]? = some l ∧
      ∀ ctx : GR1Context, readHeader ctx l = .ok (ctx, (k : Int))) ∨
    (l ∉ sectionHeaders ∧ ∀ ctx : GR1Context, readHeader ctx l = .error (.unknownCategory l)) := by
  by_cases h0 : l = "[INPUT]".toList
  · exact Or.inl ⟨0, by rw [h0]; rfl, fun ctx => by unfold readHeader; rw [if_pos h0]; rfl⟩
  by_cases h1 : l = "[OUTPUT]".toList
  · exact Or.inl ⟨1, by rw [h1]; rfl, fun ctx => by
      unfold readHeader; rw [if_neg h0, if_pos h1]; rfl⟩
  by_cases h2 : l = "[ENV_INIT]".toList
  · exact Or.inl ⟨2, by rw [h2]; rfl, fun ctx => by
      unfold readHeader; rw [if_neg h0, if_neg h1, if_pos h2]; rfl⟩
  by_cases h3 : l = "[SYS_INIT]".toList
  · exact Or.inl ⟨3, by rw [h3]; rfl, fun ctx => by
      unfold readHeader; rw [if_neg h0, if_neg h1, if_neg h2, if_pos h3]; rfl⟩
  by_cases h4 : l = "[ENV_TRANS]".toList
  · exact Or.inl ⟨4, by rw [h4]; rfl, fun ctx => by
      unfold readHeader; rw [if_neg h0, if_neg h1, if_neg h2, if_neg h3, if_pos h4]; rfl⟩
  by_cases h5 : l = "[SYS_TRANS]".toList
  · exact Or.inl ⟨5, by rw [h5]; rfl, fun ctx => by
      unfold readHeader
      rw [if_neg h0, if_neg h1, if_neg h2, if_neg h3, if_neg h4, if_pos h5]; rfl⟩
  by_cases h6 : l = "[ENV_LIVENESS]".toList
  · exact Or.inl ⟨6, by rw [h6]; rfl, fun ctx => by
      unfold readHeader
      rw [if_neg h0, if_neg h1, if_neg h2, if_neg h3, if_neg h4, if_neg h5, if_pos h6]; rfl⟩
  by_cases h7 : l = "[SYS_LIVENESS]".toList
  · exact Or.inl ⟨7, by rw [h7]; rfl, fun ctx => by
      unfold readHeader
      rw [if_neg h0, if_neg h1, if_neg h2, if_neg h3, if_neg h4, if_neg h5, if_neg h6,
        if_pos h7]; rfl⟩
  refine Or.inr ⟨?_, fun ctx => ?_⟩
  · simp only [sectionHeaders, List.mem_cons, List.mem_singleton, List.not_mem_nil, or_false,
      not_or]
    exact ⟨h0, h1, h2, h3, h4, h5, h6, h7⟩
  · unfold readHeader
    rw [if_neg h0, if_neg h1, if_neg h2, if_neg h3, if_neg h4, if_neg h5, if_neg h6, if_neg h7]

theorem readHeader_ok (ctx : GR1Context) (l : Str) (st' : GR1Context × Int)
    (h : readHeader ctx l = .ok st') :
    ∃ k : Nat, sectionHeaders[k]? = some l ∧ st' = (ctx, (k : Int)) := by
  rcases readHeader_cases l with ⟨k, hk, hr⟩ | ⟨_, hr⟩
  · rw [hr ctx] at h; cases h; exact ⟨k, hk, rfl⟩
  · rw [hr ctx] at h; cases h

theorem readHeader_unknown (ctx : GR1Context) (l : Str) (h : l ∉ sectionHeaders) :
    readHeader ctx l = .error (.unknownCategory l) := by
  rcases readHeader_cases l with ⟨k, hk, _⟩ | ⟨_, hr⟩
  · exact absurd (List.getElem?_mem hk) h
  · exact hr ctx

theorem readContent_cases (ctx : GR1Context) (mode : Int) (l : Str) :
    (mode = 0 ∧ readContent ctx mode l =
      .ok (ctx.declareVariable l .PreInput .PostInput, mode)) ∨
    (mode = 1 ∧ readContent ctx mode l =
      .ok (ctx.declareVariable l .PreOutput .PostOutput, mode)) ∨
    (mode = 2 ∧ readContent ctx mode l =
      match ctx.parseBooleanFormula l allowedEnvInit with
      | .error e => .error e
      | .ok f => .ok ({ ctx with initEnv := ctx.initEnv.and f }, mode)) ∨
    (mode = 3 ∧ readContent ctx mode l =
      match ctx.parseBooleanFormula l allowedSysInit with
      | .error e => .error e
      | .ok f => .ok ({ ctx with initSys := ctx.initSys.and f }, mode)) ∨
    (mode = 4 ∧ readContent ctx mode l =
      match ctx.parseBooleanFormula l allowedEnv with
      | .error e => .error e
      | .ok f => .ok ({ ctx with safetyEnv := ctx.safetyEnv.and f }, mode)) ∨
    (mode = 5 ∧ readContent ctx mode l =
      match ctx.parseBooleanFormula l allowedSys with
      | .error e => .error e
      | .ok f => .ok ({ ctx with safetySys := ctx.safetySys.and f }, mode)) ∨
    (mode = 6 ∧ readContent ctx mode l =
      match ctx.parseBooleanFormula l allowedEnv with
      | .error e => .error e
      | .ok f =>
        .ok ({ ctx with livenessAssumptions := ctx.livenessAssumptions ++ [f] }, mode)) ∨
    (mode = 7 ∧ readContent ctx mode l =
      match ctx.parseBooleanFormula l allowedSys with
      | .error e => .error e
      | .ok f =>
        .ok ({ ctx with livenessGuarantees := ctx.livenessGuarantees ++ [f] }, mode)) ∨
    (readContent ctx mode l = .error (.noCategorialContext ctx.lineNumberCurrentlyRead)) := by
  by_cases h0 : mode = 0
  · exact Or.inl ⟨h0, by unfold readContent; rw [if_pos h0]⟩
  by_cases h1 : mode = 1
  · exact Or.inr (Or.inl ⟨h1, by unfold readContent; rw [if_neg h0, if_pos h1]⟩)
  by_cases h2 : mode = 2
  · exact Or.inr (Or.inr (Or.inl ⟨h2, by
      unfold readContent; rw [if_neg h0, if_neg h1, if_pos h2]⟩))
  by_cases h3 : mode = 3
  · exact Or.inr (Or.inr (Or.inr (Or.inl ⟨h3, by
      unfold readContent; rw [if_neg h0, if_neg h1, if_neg h2, if_pos h3]⟩)))
  by_cases h4 : mode = 4
  · exact Or.inr (Or.inr (Or.inr (Or.inr (Or.inl ⟨h4, by
      unfold readContent; rw [if_neg h0, if_neg h1, if_neg h2, if_neg h3, if_pos h4]⟩))))
  by_cases h5 : mode = 5
  · exact Or.inr (Or.inr (Or.inr (Or.inr (Or.inr (Or.inl ⟨h5, by
      unfold readContent
      rw [if_neg h0, if_neg h1, if_neg h2, if_neg h3, if_neg h4, if_pos h5]⟩)))))
  by_cases h6 : mode = 6
  · exact Or.inr (Or.inr (Or.inr (Or.inr (Or.inr (Or.inr (Or.inl ⟨h6, by
      unfold readContent
      rw [if_neg h0, if_neg h1, if_neg h2, if_neg h3, if_neg h4, if_neg h5, if_pos h6]⟩))))))
  by_cases h7 : mode = 7
  · exact Or.inr (Or.inr (Or.inr (Or.inr (Or.inr (Or.inr (Or.inr (Or.inl ⟨h7, by
      unfold readContent
      rw [if_neg h0, if_neg h1, if_neg h2, if_neg h3, if_neg h4, if_neg h5, if_neg h6,
        if_pos h7]⟩)))))))
  · refine Or.inr (Or.inr (Or.inr (Or.inr (Or.inr (Or.inr (Or.inr (Or.inr ?_)))))))
    unfold readContent
    rw [if_neg h0, if_neg h1, if_neg h2, if_neg h3, if_neg h4, if_neg h5, if_neg h6, if_neg h7]

theorem readContent_ok (ctx : GR1Context) (mode : Int) (l : Str) (st' : GR1Context × Int)
    (h : readContent ctx mode l = .ok st') :
    st'.2 = mode ∧ ContentEffect ctx l mode st'.1 := by
  rcases readContent_cases ctx mode l with ⟨hm, hr⟩ | ⟨hm, hr⟩ | ⟨hm, hr⟩ | ⟨hm, hr⟩ |
      ⟨hm, hr⟩ | ⟨hm, hr⟩ | ⟨hm, hr⟩ | ⟨hm, hr⟩ | hr
  · rw [hr] at h; cases h; subst hm; exact ⟨rfl, .input⟩
  · rw [hr] at h; cases h; subst hm; exact ⟨rfl, .output⟩
  · rw [hr] at h
    cases hp : ctx.parseBooleanFormula l allowedEnvInit with
    | error e => rw [hp] at h; cases h
    | ok f => rw [hp] at h; cases h; subst hm; exact ⟨rfl, .envInit f hp⟩
  · rw [hr] at h
    cases hp : ctx.parseBooleanFormula l allowedSysInit with
    | error e => rw [hp] at h; cases h
    | ok f => rw [hp] at h; cases h; subst hm; exact ⟨rfl, .sysInit f hp⟩
  · rw [hr] at h
    cases hp : ctx.parseBooleanFormula l allowedEnv with
    | error e => rw [hp] at h; cases h
    | ok f => rw [hp] at h; cases h; subst hm; exact ⟨rfl, .envTrans f hp⟩
  · rw [hr] at h
    cases hp : ctx.parseBooleanFormula l allowedSys with
    | error e => rw [hp] at h; cases h
    | ok f => rw [hp] at h; cases h; subst hm; exact ⟨rfl, .sysTrans f hp⟩
  · rw [hr] at h
    cases hp : ctx.parseBooleanFormula l allowedEnv with
    | error e => rw [hp] at h; cases h
    | ok f => rw [hp] at h; cases h; subst hm; exact ⟨rfl, .envLiveness f hp⟩
  · rw [hr] at h
    cases hp : ctx.parseBooleanFormula l allowedSys with
    | error e => rw [hp] at h; cases h
    | ok f => rw [hp] at h; cases h; subst hm; exact ⟨rfl, .sysLiveness f hp⟩
  · rw [hr] at h; cases h

/-- The three ways in which a line can be read without error. -/
theorem readLine_ok_cases (st st' : GR1Context × Int) (rawLine : Str)
    (h : readLine st rawLine = .ok st') :
    (Ignorable rawLine ∧ st' = (st.1.nextLine, st.2)) ∨
    (¬ Ignorable rawLine ∧ StartsWithBracket rawLine ∧
      ∃ k : Nat, sectionHeaders[k]? = some (trim rawLine) ∧ st' = (st.1.nextLine, (k : Int))) ∨
    (¬ Ignorable rawLine ∧ ¬ StartsWithBracket rawLine ∧ st'.2 = st.2 ∧
      ContentEffect st.1.nextLine (trim rawLine) st.2 st'.1) := by
  by_cases hi : Ignorable rawLine
  · left
    rw [readLine_ignorable st rawLine hi] at h
    cases h; exact ⟨hi, rfl⟩
  · right
    by_cases hb : StartsWithBracket rawLine
    · left
      rw [readLine_header st rawLine hi hb] at h
      exact ⟨hi, hb, readHeader_ok _ _ _ h⟩
    · right
      rw [readLine_content st rawLine hi hb] at h
      exact ⟨hi, hb, readContent_ok _ _ _ _ h⟩

theorem readLines_append (lines₁ lines₂ : List Str) : ∀ st : GR1Context × Int,
    readLines st (lines₁ ++ lines₂) =
      match readLines st lines₁ with
      | .error e => .error e
      | .ok st₁ => readLines st₁ lines₂ := by
  induction lines₁ with
  | nil => intro st; rfl
  | cons raw rest ih =>
    intro st
    simp only [List.cons_append, readLines]
    cases readLine st raw with
    | error e => rfl
    | ok st₁ => exact ih st₁

/-- A property of the reading state that every line preserves holds at the end. -/
theorem readLines_invariant (P : GR1Context × Int → Prop)
    (hstep : ∀ st rawLine st', P st → readLine st rawLine = .ok st' → P st') :
    ∀ (lines : List Str) (st st' : GR1Context × Int), P st → readLines st lines = .ok st' →
      P st' := by
  intro lines
  induction lines with
  | nil => intro st st' hP h; cases h; exact hP
  | cons raw rest ih =>
    intro st st' hP h
    rw [readLines] at h
    cases h1 : readLine st raw with
    | error e => rw [h1] at h; cases h
    | ok st₁ =>
      rw [h1] at h
      exact ih st₁ st' (hstep st raw st₁ hP h1) h

/-! ## Growth of the variable table -/

theorem extends_refl (c : GR1Context) : c.Extends c :=
  ⟨⟨[], by simp⟩, ⟨[], by simp⟩, ⟨[], by simp⟩⟩

theorem extends_trans (c₁ c₂ c₃ : GR1Context) (h₁ : c₁.Extends c₂) (h₂ : c₂.Extends c₃) :
    c₁.Extends c₃ := by
  obtain ⟨⟨a, ha⟩, ⟨b, hb⟩, ⟨c, hc⟩⟩ := h₁
  obtain ⟨⟨a', ha'⟩, ⟨b', hb'⟩, ⟨c', hc'⟩⟩ := h₂
  exact ⟨⟨a ++ a', by rw [ha', ha, List.append_assoc]⟩,
    ⟨b ++ b', by rw [hb', hb, List.append_assoc]⟩, ⟨c ++ c', by rw [hc', hc, List.append_assoc]⟩⟩

theorem extends_declareVariable (c : GR1Context) (l : Str) (pre post : VariableType) :
    c.Extends (c.declareVariable l pre post) :=
  ⟨⟨_, rfl⟩, ⟨_, rfl⟩, ⟨_, rfl⟩⟩

theorem tableAligned_declareVariable (c : GR1Context) (l : Str) (pre post : VariableType)
    (h : c.TableAligned) : (c.declareVariable l pre post).TableAligned := by
  obtain ⟨h1, h2⟩ := h
  constructor
  · simp only [declareVariable, List.length_append, h1, List.length_cons, List.length_nil]
  · simp only [declareVariable, List.length_append, h2, List.length_cons, List.length_nil]

theorem contentEffect_extends (ctx c' : GR1Context) (l : Str) (mode : Int)
    (h : ContentEffect ctx l mode c') :
    ctx.Extends c' ∧ (ctx.TableAligned → c'.TableAligned) := by
  cases h with
  | input => exact ⟨extends_declareVariable _ _ _ _, tableAligned_declareVariable _ _ _ _⟩
  | output => exact ⟨extends_declareVariable _ _ _ _, tableAligned_declareVariable _ _ _ _⟩
  | envInit f hf => exact ⟨extends_refl ctx, fun h => h⟩
  | sysInit f hf => exact ⟨extends_refl ctx, fun h => h⟩
  | envTrans f hf => exact ⟨extends_refl ctx, fun h => h⟩
  | sysTrans f hf => exact ⟨extends_refl ctx, fun h => h⟩
  | envLiveness f hf => exact ⟨extends_refl ctx, fun h => h⟩
  | sysLiveness f hf => exact ⟨extends_refl ctx, fun h => h⟩

theorem readLine_extends (st st' : GR1Context × Int) (rawLine : Str)
    (h : readLine st rawLine = .ok st') :
    st.1.Extends st'.1 ∧ (st.1.TableAligned → st'.1.TableAligned) := by
  rcases readLine_ok_cases st st' rawLine h with ⟨_, rfl⟩ | ⟨_, _, k, _, rfl⟩ | ⟨_, _, _, he⟩
  · exact ⟨extends_refl st.1, fun h => h⟩
  · exact ⟨extends_refl st.1, fun h => h⟩
  · exact contentEffect_extends st.1.nextLine st'.1 _ _ he

theorem readLines_extends : ∀ (lines : List Str) (st st' : GR1Context × Int),
    readLines st lines = .ok st' →
      st.1.Extends st'.1 ∧ (st.1.TableAligned → st'.1.TableAligned) := by
  intro lines
  induction lines with
  | nil => intro st st' h; cases h; exact ⟨extends_refl _, fun h => h⟩
  | cons raw rest ih =>
    intro st st' h
    rw [readLines] at h
    cases h1 : readLine st raw with
    | error e => rw [h1] at h; cases h
    | ok st₁ =>
      rw [h1] at h
      obtain ⟨e1, a1⟩ := readLine_extends st st₁ raw h1
      obtain ⟨e2, a2⟩ := ih st₁ st' h
      exact ⟨extends_trans _ _ _ e1 e2, fun h => a2 (a1 h)⟩

theorem tableAligned_initial : GR1Context.initial.TableAligned := ⟨rfl, rfl⟩

theorem getElem?_append_of_some {α : Type} (l m : List α) (i : Nat) (x : α)
    (h : l[i]? = some x) : (l ++ m)[i]? = some x := by
  have hi : i < l.length := by
    by_contra hc
    rw [List.getElem?_eq_none (by omega)] at h
    cases h
  rw [List.getElem?_append_left hi]; exact h

theorem firstEntry_append (name : Str) (names more : List Str) (k : Nat)
    (h : firstEntry name names = some k) : firstEntry name (names ++ more) = some k := by
  induction names generalizing k with
  | nil => simp [firstEntry] at h
  | cons n ns ih =>
    by_cases hn : n = name
    · simp only [firstEntry, hn, if_true] at h
      simp only [List.cons_append, firstEntry, hn, if_true]; exact h
    · simp only [firstEntry, hn, if_false] at h
      simp only [List.cons_append, firstEntry, hn, if_false]
      cases hj : firstEntry name ns with
      | none => rw [hj] at h; cases h
      | some j =>
        rw [hj] at h
        have := ih j hj
        simp only [List.append_eq] at this ⊢
        rw [this]; exact h

theorem roleOf_extends (c c' : GR1Context) (h : c.Extends c') (name : Str) (t : VariableType)
    (hr : c.roleOf name = some t) : c'.roleOf name = some t := by
  obtain ⟨⟨a, ha⟩, ⟨b, hb⟩, _⟩ := h
  unfold roleOf at hr ⊢
  cases hk : firstEntry name c.variableNames with
  | none => rw [hk] at hr; cases hr
  | some k =>
    rw [hk] at hr
    rw [ha, firstEntry_append name _ a k hk, hb]
    exact getElem?_append_of_some _ _ _ _ hr

theorem variableOf_extends (c c' : GR1Context) (h : c.Extends c') (name : Str) (v : BF)
    (hr : c.variableOf name = some v) : c'.variableOf name = some v := by
  obtain ⟨⟨a, ha⟩, _, ⟨b, hb⟩⟩ := h
  unfold variableOf at hr ⊢
  cases hk : firstEntry name c.variableNames with
  | none => rw [hk] at hr; cases hr
  | some k =>
    rw [hk] at hr
    rw [ha, firstEntry_append name _ a k hk, hb]
    exact getElem?_append_of_some _ _ _ _ hr

theorem resolves_extends (c c' : GR1Context) (h : c.Extends c') (allowedTypes : RoleSet)
    (name : Str) (hr : c.Resolves allowedTypes name) : c'.Resolves allowedTypes name := by
  obtain ⟨h1, t, ht, hrole⟩ := hr
  exact ⟨h1, t, ht, roleOf_extends c c' h name t hrole⟩

theorem denote_extends (c c' : GR1Context) (h : c.Extends c') :
    ∀ (φ : Formula) (f : BF), φ.denote c = some f → φ.denote c' = some f := by
  intro φ
  induction φ with
  | or a b iha ihb =>
    intro f hf
    simp only [Formula.denote] at hf ⊢
    cases ha : a.denote c with
    | none => rw [ha] at hf; cases hf
    | some x =>
      cases hb : b.denote c with
      | none => rw [ha, hb] at hf; cases hf
      | some y => rw [ha, hb] at hf; rw [iha x ha, ihb y hb]; exact hf
  | and a b iha ihb =>
    intro f hf
    simp only [Formula.denote] at hf ⊢
    cases ha : a.denote c with
    | none => rw [ha] at hf; cases hf
    | some x =>
      cases hb : b.denote c with
      | none => rw [ha, hb] at hf; cases hf
      | some y => rw [ha, hb] at hf; rw [iha x ha, ihb y hb]; exact hf
  | not a iha =>
    intro f hf
    simp only [Formula.denote] at hf ⊢
    cases ha : a.denote c with
    | none => rw [ha] at hf; cases hf
    | some x => rw [ha] at hf; rw [iha x ha]; exact hf
  | tt => intro f hf; exact hf
  | ff => intro f hf; exact hf
  | var name => intro f hf; exact variableOf_extends c c' h name f hf

/-- A formula that was parsed over a table is parsed to the same function over every
extension of the table. -/
theorem parseBooleanFormula_extends (c c' : GR1Context) (h : c.Extends c')
    (hal : c.TableAligned) (hal' : c'.TableAligned) (l : Str) (allowedTypes : RoleSet) (f : BF)
    (hp : c.parseBooleanFormula l allowedTypes = .ok f) :
    c'.parseBooleanFormula l allowedTypes = .ok f := by
  obtain ⟨φ, h1, h2, h3⟩ := parseBooleanFormula_ok_spec c allowedTypes l hal f hp
  obtain ⟨g, hg, hpg⟩ := parseBooleanFormula_of_polish c' allowedTypes φ l hal' h1
    (fun n hn => resolves_extends c c' h allowedTypes n (h2 n hn))
  rw [denote_extends c c' h φ f h3] at hg
  cases hg
  exact hpg

/-! ## Supports -/

theorem agreeOn_extends (c c' : GR1Context) (h : c.Extends c') (roles : RoleSet)
    (a b : Assignment) (hab : c'.AgreeOn roles a b) : c.AgreeOn roles a b := by
  obtain ⟨_, ⟨m, hm⟩, ⟨n, hn⟩⟩ := h
  intro i t v ht hr hv
  exact hab i t v (by rw [hm]; exact getElem?_append_of_some _ _ _ _ ht) hr
    (by rw [hn]; exact getElem?_append_of_some _ _ _ _ hv)

theorem dependsOnlyOn_extends (c c' : GR1Context) (h : c.Extends c') (roles : RoleSet) (f : BF)
    (hf : c.DependsOnlyOn roles f) : c'.DependsOnlyOn roles f :=
  fun a b hab => hf a b (agreeOn_extends c c' h roles a b hab)

theorem dependsOnlyOn_and (c : GR1Context) (roles : RoleSet) (f g : BF)
    (hf : c.DependsOnlyOn roles f) (hg : c.DependsOnlyOn roles g) :
    c.DependsOnlyOn roles (f.and g) := by
  intro a b hab
  simp only [BF.and, hf a b hab, hg a b hab]

theorem dependsOnlyOn_const (c : GR1Context) (roles : RoleSet) (v : Bool) :
    c.DependsOnlyOn roles ⟨fun _ => v⟩ :=
  fun _ _ _ => rfl

theorem denote_dependsOnlyOn (c : GR1Context) (roles : RoleSet) :
    ∀ (φ : Formula) (f : BF), (∀ n ∈ φ.names, c.Resolves roles n) → φ.denote c = some f →
      c.DependsOnlyOn roles f := by
  intro φ
  induction φ with
  | or x y ihx ihy =>
    intro f hr hf
    simp only [Formula.denote] at hf
    cases hx : x.denote c with
    | none => rw [hx] at hf; cases hf
    | some fx =>
      cases hy : y.denote c with
      | none => rw [hx, hy] at hf; cases hf
      | some fy =>
        rw [hx, hy] at hf
        cases hf
        have h1 := ihx fx (fun n hn => hr n (by simp [Formula.names, hn])) hx
        have h2 := ihy fy (fun n hn => hr n (by simp [Formula.names, hn])) hy
        intro a b hab
        simp only [BF.or, h1 a b hab, h2 a b hab]
  | and x y ihx ihy =>
    intro f hr hf
    simp only [Formula.denote] at hf
    cases hx : x.denote c with
    | none => rw [hx] at hf; cases hf
    | some fx =>
      cases hy : y.denote c with
      | none => rw [hx, hy] at hf; cases hf
      | some fy =>
        rw [hx, hy] at hf
        cases hf
        have h1 := ihx fx (fun n hn => hr n (by simp [Formula.names, hn])) hx
        have h2 := ihy fy (fun n hn => hr n (by simp [Formula.names, hn])) hy
        exact dependsOnlyOn_and c roles fx fy h1 h2
  | not x ihx =>
    intro f hr hf
    simp only [Formula.denote] at hf
    cases hx : x.denote c with
    | none => rw [hx] at hf; cases hf
    | some fx =>
      rw [hx] at hf
      cases hf
      have h1 := ihx fx (fun n hn => hr n (by simpa [Formula.names] using hn)) hx
      intro a b hab
      simp only [BF.not, h1 a b hab]
  | tt => intro f _ hf; cases hf; exact dependsOnlyOn_const c roles true
  | ff => intro f _ hf; cases hf; exact dependsOnlyOn_const c roles false
  | var name =>
    intro f hr hf
    obtain ⟨_, t, ht, hrole⟩ := hr name (by simp [Formula.names])
    simp only [Formula.denote, variableOf] at hf
    simp only [roleOf] at hrole
    cases hk : firstEntry name c.variableNames with
    | none => rw [hk] at hf; cases hf
    | some k =>
      rw [hk] at hf hrole
      intro a b hab
      exact hab k t f hrole ht hf

theorem parseBooleanFormula_dependsOnlyOn (c : GR1Context) (hal : c.TableAligned) (l : Str)
    (roles : RoleSet) (f : BF) (hp : c.parseBooleanFormula l roles = .ok f) :
    c.DependsOnlyOn roles f := by
  obtain ⟨φ, _, h2, h3⟩ := parseBooleanFormula_ok_spec c roles l hal f hp
  exact denote_dependsOnlyOn c roles φ f h2 h3

theorem supportInv_extends (c c' : GR1Context) (h : c.Extends c')
    (h1 : c'.initEnv = c.initEnv) (h2 : c'.initSys = c.initSys)
    (h3 : c'.safetyEnv = c.safetyEnv) (h4 : c'.safetySys = c.safetySys)
    (h5 : c'.livenessAssumptions = c.livenessAssumptions)
    (h6 : c'.livenessGuarantees = c.livenessGuarantees) (hs : c.SupportInv) :
    c'.SupportInv := by
  obtain ⟨s1, s2, s3, s4, s5, s6⟩ := hs
  refine ⟨?_, ?_, ?_, ?_, ?_, ?_⟩
  · rw [h1]; exact dependsOnlyOn_extends c c' h _ _ s1
  · rw [h2]; exact dependsOnlyOn_extends c c' h _ _ s2
  · rw [h3]; exact dependsOnlyOn_extends c c' h _ _ s3
  · rw [h4]; exact dependsOnlyOn_extends c c' h _ _ s4
  · rw [h5]; exact fun f hf => dependsOnlyOn_extends c c' h _ _ (s5 f hf)
  · rw [h6]; exact fun f hf => dependsOnlyOn_extends c c' h _ _ (s6 f hf)

theorem contentEffect_supportInv (ctx c' : GR1Context) (l : Str) (mode : Int)
    (h : ContentEffect ctx l mode c') (hal : ctx.TableAligned) (hs : ctx.SupportInv) :
    c'.SupportInv := by
  cases h with
  | input =>
    exact supportInv_extends ctx _ (extends_declareVariable _ _ _ _) rfl rfl rfl rfl rfl rfl hs
  | output =>
    exact supportInv_extends ctx _ (extends_declareVariable _ _ _ _) rfl rfl rfl rfl rfl rfl hs
  | envInit f hf =>
    obtain ⟨s1, s2, s3, s4, s5, s6⟩ := hs
    exact ⟨dependsOnlyOn_and ctx _ _ _ s1 (parseBooleanFormula_dependsOnlyOn ctx hal l _ f hf),
      s2, s3, s4, s5, s6⟩
  | sysInit f hf =>
    obtain ⟨s1, s2, s3, s4, s5, s6⟩ := hs
    exact ⟨s1, dependsOnlyOn_and ctx _ _ _ s2
      (parseBooleanFormula_dependsOnlyOn ctx hal l _ f hf), s3, s4, s5, s6⟩
  | envTrans f hf =>
    obtain ⟨s1, s2, s3, s4, s5, s6⟩ := hs
    exact ⟨s1, s2, dependsOnlyOn_and ctx _ _ _ s3
      (parseBooleanFormula_dependsOnlyOn ctx hal l _ f hf), s4, s5, s6⟩
  | sysTrans f hf =>
    obtain ⟨s1, s2, s3, s4, s5, s6⟩ := hs
    exact ⟨s1, s2, s3, dependsOnlyOn_and ctx _ _ _ s4
      (parseBooleanFormula_dependsOnlyOn ctx hal l _ f hf), s5, s6⟩
  | envLiveness f hf =>
    obtain ⟨s1, s2, s3, s4, s5, s6⟩ := hs
    refine ⟨s1, s2, s3, s4, fun g hg => ?_, s6⟩
    rcases List.mem_append.mp hg with hg | hg
    · exact s5 g hg
    · rw [List.mem_singleton.mp hg]
      exact parseBooleanFormula_dependsOnlyOn ctx hal l _ f hf
  | sysLiveness f hf =>
    obtain ⟨s1, s2, s3, s4, s5, s6⟩ := hs
    refine ⟨s1, s2, s3, s4, s5, fun g hg => ?_⟩
    rcases List.mem_append.mp hg with hg | hg
    · exact s6 g hg
    · rw [List.mem_singleton.mp hg]
      exact parseBooleanFormula_dependsOnlyOn ctx hal l _ f hf

theorem freshVariables_declareVariable (c : GR1Context) (l : Str) (pre post : VariableType)
    (h : c.FreshVariables) : (c.declareVariable l pre post).FreshVariables := by
  obtain ⟨h1, h2⟩ := h
  constructor
  · simp only [declareVariable, BFManager.newVariable, List.length_append, List.length_cons,
      List.length_nil, h1]
  · simp only [declareVariable, BFManager.newVariable, List.length_append, List.length_cons,
      List.length_nil, h1]
    rw [show c.variables.length + (0 + 1 + 1) = (c.variables.length + 1) + 1 by omega,
      List.range_succ, List.range_succ, List.map_append, List.map_append, ← h2]
    simp

theorem contentEffect_freshVariables (ctx c' : GR1Context) (l : Str) (mode : Int)
    (h : ContentEffect ctx l mode c') (hs : ctx.FreshVariables) : c'.FreshVariables := by
  cases h with
  | input => exact freshVariables_declareVariable _ _ _ _ hs
  | output => exact freshVariables_declareVariable _ _ _ _ hs
  | envInit f hf => exact hs
  | sysInit f hf => exact hs
  | envTrans f hf => exact hs
  | sysTrans f hf => exact hs
  | envLiveness f hf => exact hs
  | sysLiveness f hf => exact hs

/-- The invariants of the reading loop that concern the context alone. -/
theorem readLines_contextInv (lines : List Str) (st' : GR1Context × Int)
    (h : readLines (GR1Context.initial, -1) lines = .ok st') :
    st'.1.TableAligned ∧ st'.1.SupportInv ∧ st'.1.FreshVariables := by
  refine readLines_invariant
    (fun st => st.1.TableAligned ∧ st.1.SupportInv ∧ st.1.FreshVariables) ?_ lines
    (GR1Context.initial, -1) st' ?_ h
  · intro st raw st₁ ⟨hal, hs, hfr⟩ hr
    rcases readLine_ok_cases st st₁ raw hr with ⟨_, rfl⟩ | ⟨_, _, k, _, rfl⟩ | ⟨_, _, _, he⟩
    · exact ⟨hal, hs, hfr⟩
    · exact ⟨hal, hs, hfr⟩
    · exact ⟨(contentEffect_extends _ _ _ _ he).2 hal,
        contentEffect_supportInv _ _ _ _ he hal hs, contentEffect_freshVariables _ _ _ _ he hfr⟩
  · refine ⟨tableAligned_initial, ⟨?_, ?_, ?_, ?_, ?_, ?_⟩, rfl, rfl⟩
    · exact dependsOnlyOn_const _ _ true
    · exact dependsOnlyOn_const _ _ true
    · exact dependsOnlyOn_const _ _ true
    · exact dependsOnlyOn_const _ _ true
    · intro f hf; cases hf
    · intro f hf; cases hf

/-- The end of the constructor changes only the variable vectors, the cubes and, when
empty, the liveness lists. -/
theorem finish_ok (c c' : GR1Context) (h : finish c = .ok c') :
    ∃ ls, classifyVariables c 0 c.variables ⟨c.preVars, c.postVars, [], [], [], []⟩ = .ok ls ∧
      c' = { c with
        preVars := ls.preVars
        postVars := ls.postVars
        varVectorPre := c.mgr.computeVarVector ls.preVars
        varVectorPost := c.mgr.computeVarVector ls.postVars
        varCubePostInput := c.mgr.computeCube ls.postInputVars
        varCubePostOutput := c.mgr.computeCube ls.postOutputVars
        varCubePreInput := c.mgr.computeCube ls.preInputVars
        varCubePreOutput := c.mgr.computeCube ls.preOutputVars
        varCubePre := c.mgr.computeCube ls.preVars
        livenessAssumptions :=
          if c.livenessAssumptions.length = 0 then
            c.livenessAssumptions ++ [c.mgr.constantTrue]
          else c.livenessAssumptions
        livenessGuarantees :=
          if c.livenessGuarantees.length = 0 then
            c.livenessGuarantees ++ [c.mgr.constantTrue]
          else c.livenessGuarantees } := by
  unfold finish at h
  split at h
  · cases h
  · next ls hls => cases h; exact ⟨ls, hls, rfl⟩

theorem ofLines_ok (lines : List Str) (ctx : GR1Context) (h : ofLines lines = .ok ctx) :
    ∃ st, readLines (GR1Context.initial, -1) lines = .ok st ∧ finish st.1 = .ok ctx := by
  unfold ofLines at h
  split at h
  · cases h
  · next st hst => exact ⟨st, hst, h⟩

theorem construct_ok (inFile : Option Str) (ctx : GR1Context) (h : construct inFile = .ok ctx) :
    ∃ content, inFile = some content ∧ ofLines (getlines content) = .ok ctx := by
  cases inFile with
  | none => cases h
  | some content => exact ⟨content, rfl, h⟩

theorem finish_supportInv (c c' : GR1Context) (h : finish c = .ok c') (hs : c.SupportInv) :
    c'.SupportInv := by
  obtain ⟨ls, _, rfl⟩ := finish_ok c c' h
  obtain ⟨s1, s2, s3, s4, s5, s6⟩ := hs
  refine ⟨s1, s2, s3, s4, ?_, ?_⟩
  · intro f hf
    simp only at hf
    split_ifs at hf
    · rcases List.mem_append.mp hf with hf | hf
      · exact s5 f hf
      · rw [List.mem_singleton.mp hf]; exact dependsOnlyOn_const _ _ true
    · exact s5 f hf
  · intro f hf
    simp only at hf
    split_ifs at hf
    · rcases List.mem_append.mp hf with hf | hf
      · exact s6 f hf
      · rw [List.mem_singleton.mp hf]; exact dependsOnlyOn_const _ _ true
    · exact s6 f hf

/-- The invariants of the context that hold after every successful construction. -/
theorem ofLines_contextInv (lines : List Str) (ctx : GR1Context)
    (h : ofLines lines = .ok ctx) :
    ctx.TableAligned ∧ ctx.SupportInv ∧ ctx.FreshVariables := by
  obtain ⟨st, hst, hfin⟩ := ofLines_ok lines ctx h
  obtain ⟨hal, hs, hfr⟩ := readLines_contextInv lines st hst
  refine ⟨?_, finish_supportInv _ _ hfin hs, ?_⟩
  · obtain ⟨ls, _, rfl⟩ := finish_ok _ _ hfin
    exact hal
  · obtain ⟨ls, _, rfl⟩ := finish_ok _ _ hfin
    exact hfr

theorem agreeOn_of_indices (c : GR1Context) (hfr : c.FreshVariables) (roles : RoleSet)
    (a b : Assignment)
    (hab : ∀ i t, c.variableTypes[i]? = some t → t ∈ roles → a i = b i) :
    c.AgreeOn roles a b := by
  intro i t v ht hr hv
  have hi : i < c.variables.length := by
    by_contra hc
    rw [List.getElem?_eq_none (by omega)] at hv
    cases hv
  rw [hfr.2] at hv
  simp only [List.getElem?_map] at hv
  rw [List.getElem?_range hi] at hv
  simp only [Option.map_some', Option.some.injEq] at hv
  subst hv
  exact hab i t ht hr

/-- C3: after a successful construction every constraint depends only on the variables
of the roles of its section: `initEnv` on `PreInput` variables, `initSys` on `PreOutput`
variables, `safetyEnv` and every liveness assumption on `PreInput`, `PreOutput` and
`PostInput` variables; in particular the latter take equal values on two valuations that
differ only at the BDD variables of `PostOutput` entries. -/
theorem construct_support (inFile : Option Str) (ctx : GR1Context)
    (h : construct inFile = .ok ctx) :
    ctx.DependsOnlyOn [.PreInput] ctx.initEnv ∧
    ctx.DependsOnlyOn [.PreOutput] ctx.initSys ∧
    ctx.DependsOnlyOn [.PreInput, .PreOutput, .PostInput] ctx.safetyEnv ∧
    (∀ f ∈ ctx.livenessAssumptions,
      ctx.DependsOnlyOn [.PreInput, .PreOutput, .PostInput] f) ∧
    (∀ a b : Assignment, (∀ i, ctx.variableTypes[i]? ≠ some .PostOutput → a i = b i) →
      ctx.safetyEnv.eval a = ctx.safetyEnv.eval b ∧
        ∀ f ∈ ctx.livenessAssumptions, f.eval a = f.eval b) := by
  obtain ⟨content, _, hl⟩ := construct_ok inFile ctx h
  obtain ⟨_, ⟨s1, s2, s3, _, s5, _⟩, hfr⟩ := ofLines_contextInv _ ctx hl
  refine ⟨s1, s2, s3, s5, fun a b hab => ?_⟩
  have hag : ctx.AgreeOn allowedEnv a b := by
    apply agreeOn_of_indices ctx hfr
    intro i t ht hr
    apply hab i
    rw [ht]
    intro hc
    cases hc
    simp [allowedEnv] at hr
  exact ⟨s3 a b hag, fun f hf => s5 f hf a b hag⟩

/-- The instance of C3 for `exampleFile`. -/
theorem construct_support_witness :
    ∃ ctx, construct (some exampleFile) = .ok ctx ∧
      ctx.DependsOnlyOn [.PreInput] ctx.initEnv ∧
      ctx.DependsOnlyOn [.PreInput, .PreOutput, .PostInput] ctx.safetyEnv :=
  ⟨_, rfl, (construct_support (some exampleFile) _ rfl).1,
    (construct_support (some exampleFile) _ rfl).2.2.1⟩

/-! ## Sections -/

theorem sectionHeaders_index (j k : Nat) (hj : j < 8)
    (h : sectionHeaders[k]? = sectionHeaders[j]?) : k = j := by
  have hk : k < 8 := by
    by_contra hc
    rw [List.getElem?_eq_none (by simp [sectionHeaders]; omega)] at h
    rw [List.getElem?_eq_getElem (by simp [sectionHeaders]; omega)] at h
    cases h
  interval_cases j <;> interval_cases k <;> first | rfl | (exfalso; revert h; decide)

theorem modeOf_iff (current : Option Str) (mode : Int) (h : ModeOf current mode) (j : Nat)
    (hj : j < 8) : current = sectionHeaders[j]? ↔ mode = (j : Int) := by
  cases current with
  | none =>
    simp only [ModeOf] at h
    constructor
    · intro hc
      rw [List.getElem?_eq_getElem (by simp [sectionHeaders]; omega)] at hc
      cases hc
    · intro hc; omega
  | some header =>
    obtain ⟨k, hk, hm⟩ := h
    constructor
    · intro hc
      rw [← hk] at hc
      rw [hm, sectionHeaders_index j k hj hc]
    · intro hc
      have : k = j := by omega
      rw [← hk, this]

/-- Induction over the lines of a file for a property `S c L` that relates the context
`c` to the declaration or formula lines `L` read so far under the section with number
`j`. -/
theorem readLines_under (j : Nat) (hj : j < 8) (header : Str)
    (hheader : sectionHeaders[j]? = some header) (S : GR1Context → List Str → Prop)
    (hnext : ∀ c L, S c L → S c.nextLine L)
    (hother : ∀ c c' l (m : Int) L, m ≠ (j : Int) → ContentEffect c l m c' → c.TableAligned →
      S c L → S c' L)
    (hsame : ∀ c c' l L, ContentEffect c l (j : Int) c' → c.TableAligned → S c L →
      S c' (L ++ [l])) :
    ∀ (lines : List Str) (st st' : GR1Context × Int) (current : Option Str) (done : List Str),
      ModeOf current st.2 → st.1.TableAligned → S st.1 done → readLines st lines = .ok st' →
        S st'.1 (done ++ linesUnderFrom header current lines) := by
  intro lines
  induction lines with
  | nil =>
    intro st st' current done _ _ hS h
    cases h
    simpa [linesUnderFrom] using hS
  | cons raw rest ih =>
    intro st st' current done hmode hal hS h
    rw [readLines] at h
    cases h1 : readLine st raw with
    | error e => rw [h1] at h; cases h
    | ok st₁ =>
      rw [h1] at h
      rcases readLine_ok_cases st st₁ raw h1 with ⟨hi, rfl⟩ | ⟨hi, hb, k, hk, rfl⟩ |
          ⟨hi, hb, hm, he⟩
      · have := ih (st.1.nextLine, st.2) st' current done hmode hal (hnext _ _ hS) h
        simpa [linesUnderFrom, hi] using this
      · have := ih (st.1.nextLine, (k : Int)) st' (some (trim raw)) done ⟨k, hk, rfl⟩ hal
          (hnext _ _ hS) h
        simpa [linesUnderFrom, hi, hb] using this
      · have hal₁ : st₁.1.TableAligned := (contentEffect_extends _ _ _ _ he).2 hal
        have hmode₁ : ModeOf current st₁.2 := by rw [hm]; exact hmode
        by_cases hj' : st.2 = (j : Int)
        · have hcur : current = some header := by
            rw [← hheader]; exact (modeOf_iff current st.2 hmode j hj).mpr hj'
          rw [hj'] at he
          have := ih st₁ st' current (done ++ [trim raw]) hmode₁ hal₁
            (hsame _ _ _ _ he hal (hnext _ _ hS)) h
          simpa [linesUnderFrom, hi, hb, hcur] using this
        · have hcur : current ≠ some header := by
            rw [← hheader]; exact fun hc => hj' ((modeOf_iff current st.2 hmode j hj).mp hc)
          have := ih st₁ st' current done hmode₁ hal₁
            (hother _ _ _ _ _ hj' he hal (hnext _ _ hS)) h
          simpa [linesUnderFrom, hi, hb, hcur] using this

/-! ## The variable table -/

theorem contentEffect_inv (c c' : GR1Context) (l : Str) (m : Int)
    (h : ContentEffect c l m c') :
    (m = 0 ∧ c' = c.declareVariable l .PreInput .PostInput) ∨
    (m = 1 ∧ c' = c.declareVariable l .PreOutput .PostOutput) ∨
    (m = 2 ∧ ∃ f, c.parseBooleanFormula l allowedEnvInit = .ok f ∧
      c' = { c with initEnv := c.initEnv.and f }) ∨
    (m = 3 ∧ ∃ f, c.parseBooleanFormula l allowedSysInit = .ok f ∧
      c' = { c with initSys := c.initSys.and f }) ∨
    (m = 4 ∧ ∃ f, c.parseBooleanFormula l allowedEnv = .ok f ∧
      c' = { c with safetyEnv := c.safetyEnv.and f }) ∨
    (m = 5 ∧ ∃ f, c.parseBooleanFormula l allowedSys = .ok f ∧
      c' = { c with safetySys := c.safetySys.and f }) ∨
    (m = 6 ∧ ∃ f, c.parseBooleanFormula l allowedEnv = .ok f ∧
      c' = { c with livenessAssumptions := c.livenessAssumptions ++ [f] }) ∨
    (m = 7 ∧ ∃ f, c.parseBooleanFormula l allowedSys = .ok f ∧
      c' = { c with livenessGuarantees := c.livenessGuarantees ++ [f] }) := by
  cases h with
  | input => exact Or.inl ⟨rfl, rfl⟩
  | output => exact Or.inr (Or.inl ⟨rfl, rfl⟩)
  | envInit f hf => exact Or.inr (Or.inr (Or.inl ⟨rfl, f, hf, rfl⟩))
  | sysInit f hf => exact Or.inr (Or.inr (Or.inr (Or.inl ⟨rfl, f, hf, rfl⟩)))
  | envTrans f hf => exact Or.inr (Or.inr (Or.inr (Or.inr (Or.inl ⟨rfl, f, hf, rfl⟩))))
  | sysTrans f hf =>
    exact Or.inr (Or.inr (Or.inr (Or.inr (Or.inr (Or.inl ⟨rfl, f, hf, rfl⟩)))))
  | envLiveness f hf =>
    exact Or.inr (Or.inr (Or.inr (Or.inr (Or.inr (Or.inr (Or.inl ⟨rfl, f, hf, rfl⟩))))))
  | sysLiveness f hf =>
    exact Or.inr (Or.inr (Or.inr (Or.inr (Or.inr (Or.inr (Or.inr ⟨rfl, f, hf, rfl⟩))))))

theorem entryCount_declareVariable (c : GR1Context) (hal : c.TableAligned) (l name : Str)
    (pre post role : VariableType) :
    (c.declareVariable l pre post).entryCount name role =
      c.entryCount name role + (if l = name ∧ pre = role then 1 else 0) +
        (if l ++ [primeChar] = name ∧ post = role then 1 else 0) := by
  unfold entryCount declareVariable
  simp only
  rw [List.zip_append hal.2.symm, List.count_append]
  simp only [List.zip_cons_cons, List.zip_nil_right, List.count_cons, List.count_nil,
    beq_iff_eq, Prod.mk.injEq]
  omega

/-- How a declaration or formula line changes the number of entries of a name and
role. -/
theorem contentEffect_entryCount (c c' : GR1Context) (l : Str) (m : Int)
    (h : ContentEffect c l m c') (hal : c.TableAligned) (name : Str) (role : VariableType) :
    c'.entryCount name role =
      c.entryCount name role +
        (if m = 0 then
          (if l = name ∧ VariableType.PreInput = role then 1 else 0) +
            (if l ++ [primeChar] = name ∧ VariableType.PostInput = role then 1 else 0)
        else if m = 1 then
          (if l = name ∧ VariableType.PreOutput = role then 1 else 0) +
            (if l ++ [primeChar] = name ∧ VariableType.PostOutput = role then 1 else 0)
        else 0) := by
  cases h with
  | input => rw [entryCount_declareVariable c hal]; simp only [if_true]; omega
  | output =>
    rw [entryCount_declareVariable c hal]
    simp only [if_true, show ¬ ((1 : Int) = 0) by decide, if_false]; omega
  | envInit f hf => simp [entryCount]
  | sysInit f hf => simp [entryCount]
  | envTrans f hf => simp [entryCount]
  | sysTrans f hf => simp [entryCount]
  | envLiveness f hf => simp [entryCount]
  | sysLiveness f hf => simp [entryCount]

theorem readLines_entryCount_input (lines : List Str) (st' : GR1Context × Int)
    (h : readLines (GR1Context.initial, -1) lines = .ok st') (name : Str) :
    st'.1.entryCount name .PreInput = (linesUnder "[INPUT]".toList lines).count name ∧
    st'.1.entryCount (name ++ [primeChar]) .PostInput =
      (linesUnder "[INPUT]".toList lines).count name := by
  have := readLines_under 0 (by decide) "[INPUT]".toList rfl
    (fun c L => c.entryCount name .PreInput = L.count name ∧
      c.entryCount (name ++ [primeChar]) .PostInput = L.count name)
    (fun c L hS => hS) ?_ ?_ lines (GR1Context.initial, -1) st' none [] rfl
    tableAligned_initial ⟨rfl, rfl⟩ h
  · simpa [linesUnder] using this
  · intro c c' l m L hm he hal ⟨h1, h2⟩
    have hm' : ¬ m = 0 := by simpa using hm
    rw [contentEffect_entryCount c c' l m he hal, contentEffect_entryCount c c' l m he hal,
      if_neg hm']
    constructor
    · rw [← h1]; split_ifs <;> simp_all
    · rw [← h2]; split_ifs <;> simp_all
  · intro c c' l L he hal ⟨h1, h2⟩
    rw [contentEffect_entryCount c c' l _ he hal, contentEffect_entryCount c c' l _ he hal,
      List.count_append, h1, h2]
    simp only [Nat.cast_zero, if_true, List.append_cancel_right_eq, and_true, and_false,
      if_false, List.count_cons, List.count_nil, beq_iff_eq, reduceCtorEq]
    split_ifs <;> simp

theorem readLines_entryCount_output (lines : List Str) (st' : GR1Context × Int)
    (h : readLines (GR1Context.initial, -1) lines = .ok st') (name : Str) :
    st'.1.entryCount name .PreOutput = (linesUnder "[OUTPUT]".toList lines).count name ∧
    st'.1.entryCount (name ++ [primeChar]) .PostOutput =
      (linesUnder "[OUTPUT]".toList lines).count name := by
  have := readLines_under 1 (by decide) "[OUTPUT]".toList rfl
    (fun c L => c.entryCount name .PreOutput = L.count name ∧
      c.entryCount (name ++ [primeChar]) .PostOutput = L.count name)
    (fun c L hS => hS) ?_ ?_ lines (GR1Context.initial, -1) st' none [] rfl
    tableAligned_initial ⟨rfl, rfl⟩ h
  · simpa [linesUnder] using this
  · intro c c' l m L hm he hal ⟨h1, h2⟩
    rw [contentEffect_entryCount c c' l m he hal, contentEffect_entryCount c c' l m he hal]
    simp only [Nat.cast_one] at hm
    rw [if_neg hm]
    constructor
    · rw [← h1]; split_ifs <;> simp_all
    · rw [← h2]; split_ifs <;> simp_all
  · intro c c' l L he hal ⟨h1, h2⟩
    rw [contentEffect_entryCount c c' l _ he hal, contentEffect_entryCount c c' l _ he hal,
      List.count_append, h1, h2]
    simp only [Nat.cast_one, show ¬ ((1 : Int) = 0) by decide, if_true,
      List.append_cancel_right_eq, and_true, and_false,
      if_false, List.count_cons, List.count_nil, beq_iff_eq, reduceCtorEq]
    split_ifs <;> simp

theorem pairedNames_append (ds : List (Str × Bool)) (l : Str) (b : Bool) :
    pairedNames (ds ++ [(l, b)]) = pairedNames ds ++ [l, l ++ [primeChar]] := by
  simp [pairedNames, List.flatMap_append]

theorem pairedTypes_append_input (ds : List (Str × Bool)) (l : Str) :
    pairedTypes (ds ++ [(l, true)]) = pairedTypes ds ++ [.PreInput, .PostInput] := by
  simp [pairedTypes, List.flatMap_append]

theorem pairedTypes_append_output (ds : List (Str × Bool)) (l : Str) :
    pairedTypes (ds ++ [(l, false)]) = pairedTypes ds ++ [.PreOutput, .PostOutput] := by
  simp [pairedTypes, List.flatMap_append]

theorem contentEffect_pairedTable (c c' : GR1Context) (l : Str) (m : Int)
    (h : ContentEffect c l m c') (hp : c.PairedTable) : c'.PairedTable := by
  obtain ⟨ds, h1, h2⟩ := hp
  cases h with
  | input =>
    exact ⟨ds ++ [(l, true)], by rw [pairedNames_append, ← h1]; rfl,
      by rw [pairedTypes_append_input, ← h2]; rfl⟩
  | output =>
    exact ⟨ds ++ [(l, false)], by rw [pairedNames_append, ← h1]; rfl,
      by rw [pairedTypes_append_output, ← h2]; rfl⟩
  | envInit f hf => exact ⟨ds, h1, h2⟩
  | sysInit f hf => exact ⟨ds, h1, h2⟩
  | envTrans f hf => exact ⟨ds, h1, h2⟩
  | sysTrans f hf => exact ⟨ds, h1, h2⟩
  | envLiveness f hf => exact ⟨ds, h1, h2⟩
  | sysLiveness f hf => exact ⟨ds, h1, h2⟩

theorem contentEffect_varVectors (c c' : GR1Context) (l : Str) (m : Int)
    (h : ContentEffect c l m c') : c'.preVars = c.preVars ∧ c'.postVars = c.postVars := by
  cases h <;> exact ⟨rfl, rfl⟩

/-- While the file is read the table stays a sequence of declaration pairs and the
variable vectors stay empty. -/
theorem readLines_pairedTable (lines : List Str) (st' : GR1Context × Int)
    (h : readLines (GR1Context.initial, -1) lines = .ok st') :
    st'.1.PairedTable ∧ st'.1.preVars = [] ∧ st'.1.postVars = [] := by
  refine readLines_invariant
    (fun st => st.1.PairedTable ∧ st.1.preVars = [] ∧ st.1.postVars = []) ?_ lines
    (GR1Context.initial, -1) st' ⟨⟨[], rfl, rfl⟩, rfl, rfl⟩ h
  intro st raw st₁ ⟨hp, h1, h2⟩ hr
  rcases readLine_ok_cases st st₁ raw hr with ⟨_, rfl⟩ | ⟨_, _, k, _, rfl⟩ | ⟨_, _, _, he⟩
  · exact ⟨hp, h1, h2⟩
  · exact ⟨hp, h1, h2⟩
  · obtain ⟨e1, e2⟩ := contentEffect_varVectors _ _ _ _ he
    exact ⟨contentEffect_pairedTable _ _ _ _ he hp, by rw [e1]; exact h1, by rw [e2]; exact h2⟩

/-- The classification loop puts the current-state variables into `preVars` and the
next-state variables into `postVars`, in table order. -/
theorem classifyVariables_eq (c : GR1Context) : ∀ (vars : List BF) (i : Nat) (acc : VarLists),
    i + vars.length = c.variableTypes.length →
    ∃ ls, c.classifyVariables i vars acc = .ok ls ∧
      ls.preVars = acc.preVars ++ pick isPre vars (c.variableTypes.drop i) ∧
      ls.postVars = acc.postVars ++ pick (fun t => !isPre t) vars (c.variableTypes.drop i) := by
  intro vars
  induction vars with
  | nil => intro i acc _; exact ⟨acc, rfl, by simp [pick], by simp [pick]⟩
  | cons v vars ih =>
    intro i acc hlen
    simp only [List.length_cons] at hlen
    have hi : i < c.variableTypes.length := by omega
    have hdrop : c.variableTypes.drop i = c.variableTypes[i] :: c.variableTypes.drop (i + 1) :=
      List.drop_eq_getElem_cons hi
    have hget : c.variableTypes[i]? = some c.variableTypes[i] := List.getElem?_eq_getElem hi
    rw [classifyVariables, hget, hdrop]
    cases ht : c.variableTypes[i] with
    | PreInput =>
      obtain ⟨ls, h1, h2, h3⟩ := ih (i + 1) _ (by omega)
      exact ⟨ls, h1, by rw [h2]; simp [pick, isPre], by rw [h3]; simp [pick, isPre]⟩
    | PreOutput =>
      obtain ⟨ls, h1, h2, h3⟩ := ih (i + 1) _ (by omega)
      exact ⟨ls, h1, by rw [h2]; simp [pick, isPre], by rw [h3]; simp [pick, isPre]⟩
    | PostInput =>
      obtain ⟨ls, h1, h2, h3⟩ := ih (i + 1) _ (by omega)
      exact ⟨ls, h1, by rw [h2]; simp [pick, isPre], by rw [h3]; simp [pick, isPre]⟩
    | PostOutput =>
      obtain ⟨ls, h1, h2, h3⟩ := ih (i + 1) _ (by omega)
      exact ⟨ls, h1, by rw [h2]; simp [pick, isPre], by rw [h3]; simp [pick, isPre]⟩

theorem pairedTypes_length (ds : List (Str × Bool)) :
    (pairedTypes ds).length = 2 * ds.length := by
  induction ds with
  | nil => rfl
  | cons d ds ih =>
    obtain ⟨l, b⟩ := d
    cases b <;> simp [pairedTypes, List.flatMap_cons] at ih ⊢ <;> omega

/-- Over a table of declaration pairs, the variables picked for `preVars` are those at
the even positions and the variables picked for `postVars` those at the odd ones. -/
theorem pick_paired : ∀ (ds : List (Str × Bool)) (vars : List BF),
    vars.length = 2 * ds.length →
    (pick isPre vars (pairedTypes ds)).length = ds.length ∧
    (pick (fun t => !isPre t) vars (pairedTypes ds)).length = ds.length ∧
    ∀ k, k < ds.length →
      (pick isPre vars (pairedTypes ds))[k]? = vars[2 * k]? ∧
      (pick (fun t => !isPre t) vars (pairedTypes ds))[k]? = vars[2 * k + 1]? := by
  intro ds
  induction ds with
  | nil => intro vars _; exact ⟨by simp [pick, pairedTypes], by simp [pick, pairedTypes],
      fun k hk => by simp at hk⟩
  | cons d ds ih =>
    intro vars hlen
    obtain ⟨l, b⟩ := d
    match vars, hlen with
    | v0 :: v1 :: rest, hlen =>
      simp only [List.length_cons] at hlen
      obtain ⟨h1, h2, h3⟩ := ih rest (by omega)
      have e1 : pick isPre (v0 :: v1 :: rest) (pairedTypes ((l, b) :: ds)) =
          v0 :: pick isPre rest (pairedTypes ds) := by
        cases b <;> simp [pick, pairedTypes, List.flatMap_cons, isPre]
      have e2 : pick (fun t => !isPre t) (v0 :: v1 :: rest) (pairedTypes ((l, b) :: ds)) =
          v1 :: pick (fun t => !isPre t) rest (pairedTypes ds) := by
        cases b <;> simp [pick, pairedTypes, List.flatMap_cons, isPre]
      rw [e1, e2]
      refine ⟨by simp [h1], by simp [h2], fun k hk => ?_⟩
      cases k with
      | zero => simp
      | succ k =>
        simp only [List.length_cons] at hk
        obtain ⟨h4, h5⟩ := h3 k (by omega)
        rw [show 2 * (k + 1) = (2 * k + 1) + 1 by omega, List.getElem?_cons_succ,
          List.getElem?_cons_succ, List.getElem?_cons_succ, List.getElem?_cons_succ,
          List.getElem?_cons_succ, List.getElem?_cons_succ]
        exact ⟨h4, h5⟩
    | [], hlen => simp at hlen
    | [_], hlen => simp at hlen; omega

theorem paired_getElem? : ∀ (ds : List (Str × Bool)) (k : Nat), k < ds.length →
    ∃ base, (pairedNames ds)[2 * k]? = some base ∧
      (pairedNames ds)[2 * k + 1]? = some (base ++ [primeChar]) ∧
      (((pairedTypes ds)[2 * k]? = some .PreInput ∧
          (pairedTypes ds)[2 * k + 1]? = some .PostInput) ∨
        ((pairedTypes ds)[2 * k]? = some .PreOutput ∧
          (pairedTypes ds)[2 * k + 1]? = some .PostOutput)) := by
  intro ds
  induction ds with
  | nil => intro k hk; simp at hk
  | cons d ds ih =>
    intro k hk
    obtain ⟨l, b⟩ := d
    cases k with
    | zero =>
      refine ⟨l, by simp [pairedNames, List.flatMap_cons],
        by simp [pairedNames, List.flatMap_cons], ?_⟩
      cases b <;> simp [pairedTypes, List.flatMap_cons]
    | succ k =>
      simp only [List.length_cons] at hk
      obtain ⟨base, h1, h2, h3⟩ := ih k (by omega)
      have en : pairedNames ((l, b) :: ds) = l :: (l ++ [primeChar]) :: pairedNames ds := by
        simp [pairedNames, List.flatMap_cons]
      have et : ∃ t0 t1, pairedTypes ((l, b) :: ds) = t0 :: t1 :: pairedTypes ds := by
        cases b
        · exact ⟨.PreOutput, .PostOutput, by simp [pairedTypes, List.flatMap_cons]⟩
        · exact ⟨.PreInput, .PostInput, by simp [pairedTypes, List.flatMap_cons]⟩
      obtain ⟨t0, t1, et⟩ := et
      refine ⟨base, ?_, ?_, ?_⟩
      · rw [en, show 2 * (k + 1) = (2 * k + 1) + 1 by omega, List.getElem?_cons_succ,
          List.getElem?_cons_succ]; exact h1
      · rw [en, show 2 * (k + 1) + 1 = (2 * k + 1 + 1) + 1 by omega, List.getElem?_cons_succ,
          List.getElem?_cons_succ]; exact h2
      · rw [et, show 2 * (k + 1) + 1 = (2 * k + 1 + 1) + 1 by omega,
          show 2 * (k + 1) = (2 * k + 1) + 1 by omega, List.getElem?_cons_succ,
          List.getElem?_cons_succ, List.getElem?_cons_succ, List.getElem?_cons_succ]
        exact h3

/-- C4 as stated fails: in the file that declares the input `x` twice the construction
succeeds and the declared name `x` has two `PreInput` entries, not exactly one. -/
theorem construct_entries_not_unique :
    ¬ ∀ (content : Str) (ctx : GR1Context), construct (some content) = .ok ctx →
      (∀ name ∈ linesUnder "[INPUT]".toList (getlines content),
        ctx.entryCount name .PreInput = 1 ∧
          ctx.entryCount (name ++ [primeChar]) .PostInput = 1) ∧
      (∀ name ∈ linesUnder "[OUTPUT]".toList (getlines content),
        ctx.entryCount name .PreOutput = 1 ∧
          ctx.entryCount (name ++ [primeChar]) .PostOutput = 1) := by
  intro hall
  have h := ((hall duplicateFile _ rfl).1 "x".toList (by decide)).1
  revert h
  decide

/-- C4, amended: after a successful construction, for every name the number of
`PreInput` entries with that name and the number of `PostInput` entries with that name
followed by an apostrophe both equal the number of lines that declare the name under
`[INPUT]`, and likewise for `PreOutput`, `PostOutput` and `[OUTPUT]`; so there is exactly
one entry of each of the two roles for a name that is declared once. -/
theorem construct_entryCount (content : Str) (ctx : GR1Context)
    (h : construct (some content) = .ok ctx) (name : Str) :
    (ctx.entryCount name .PreInput =
        (linesUnder "[INPUT]".toList (getlines content)).count name ∧
      ctx.entryCount (name ++ [primeChar]) .PostInput =
        (linesUnder "[INPUT]".toList (getlines content)).count name) ∧
    (ctx.entryCount name .PreOutput =
        (linesUnder "[OUTPUT]".toList (getlines content)).count name ∧
      ctx.entryCount (name ++ [primeChar]) .PostOutput =
        (linesUnder "[OUTPUT]".toList (getlines content)).count name) ∧
    ((linesUnder "[INPUT]".toList (getlines content)).count name = 1 →
      ctx.entryCount name .PreInput = 1 ∧
        ctx.entryCount (name ++ [primeChar]) .PostInput = 1) ∧
    ((linesUnder "[OUTPUT]".toList (getlines content)).count name = 1 →
      ctx.entryCount name .PreOutput = 1 ∧
        ctx.entryCount (name ++ [primeChar]) .PostOutput = 1) := by
  obtain ⟨st, hst, hfin⟩ := ofLines_ok _ ctx h
  obtain ⟨ls, _, rfl⟩ := finish_ok _ _ hfin
  have hin := readLines_entryCount_input _ st hst name
  have hout := readLines_entryCount_output _ st hst name
  refine ⟨hin, hout, fun h1 => ?_, fun h1 => ?_⟩
  · rw [← h1]; exact hin
  · rw [← h1]; exact hout

/-- The instance of the amended C4 for `exampleFile` and the input `r`. -/
theorem construct_entryCount_witness :
    ∃ ctx, construct (some exampleFile) = .ok ctx ∧
      ctx.entryCount "r".toList .PreInput = 1 ∧
      ctx.entryCount ("r".toList ++ [primeChar]) .PostInput = 1 :=
  ⟨_, rfl, (construct_entryCount exampleFile _ rfl "r".toList).2.2.1 (by decide)⟩

/-- C5: after a successful construction `preVars` and `postVars` have the same length
and together hold every variable of the table, whose entries are pairwise different
BDD variables; at every position `k` they hold the variables of the table entries
`2 * k` and `2 * k + 1`, the name of the second is the name of the first followed by an
apostrophe, and the roles are `PreInput` and `PostInput`, or `PreOutput` and
`PostOutput`; the variable vectors are built from these two lists. -/
theorem construct_varVectors (inFile : Option Str) (ctx : GR1Context)
    (h : construct inFile = .ok ctx) :
    ctx.preVars.length = ctx.postVars.length ∧
    ctx.variables.length = 2 * ctx.preVars.length ∧
    ctx.varVectorPre = ctx.mgr.computeVarVector ctx.preVars ∧
    ctx.varVectorPost = ctx.mgr.computeVarVector ctx.postVars ∧
    ctx.variables = (List.range ctx.variables.length).map BF.var ∧
    ∀ k, k < ctx.preVars.length →
      ctx.preVars[k]? = ctx.variables[2 * k]? ∧
      ctx.postVars[k]? = ctx.variables[2 * k + 1]? ∧
      ∃ base, ctx.variableNames[2 * k]? = some base ∧
        ctx.variableNames[2 * k + 1]? = some (base ++ [primeChar]) ∧
        ((ctx.variableTypes[2 * k]? = some .PreInput ∧
            ctx.variableTypes[2 * k + 1]? = some .PostInput) ∨
          (ctx.variableTypes[2 * k]? = some .PreOutput ∧
            ctx.variableTypes[2 * k + 1]? = some .PostOutput)) := by
  obtain ⟨content, _, hl⟩ := construct_ok inFile ctx h
  obtain ⟨st, hst, hfin⟩ := ofLines_ok _ ctx hl
  obtain ⟨hal, _, hfr⟩ := readLines_contextInv _ st hst
  obtain ⟨⟨ds, hn, ht⟩, hpre, hpost⟩ := readLines_pairedTable _ st hst
  obtain ⟨ls, hcl, rfl⟩ := finish_ok _ _ hfin
  obtain ⟨ls', hcl', e1, e2⟩ := classifyVariables_eq st.1 st.1.variables 0
    ⟨st.1.preVars, st.1.postVars, [], [], [], []⟩ (by rw [Nat.zero_add, hal.1, hal.2])
  rw [hcl] at hcl'
  cases hcl'
  simp only [hpre, hpost, List.nil_append, List.drop_zero, ht] at e1 e2
  have hvl : st.1.variables.length = 2 * ds.length := by
    rw [hal.1, ← hal.2, ht, pairedTypes_length]
  obtain ⟨p1, p2, p3⟩ := pick_paired ds st.1.variables hvl
  simp only
  rw [e1, e2]
  refine ⟨by rw [p1, p2], by rw [p1, hvl], trivial, trivial, hfr.2, fun k hk => ?_⟩
  rw [p1] at hk
  obtain ⟨q1, q2⟩ := p3 k hk
  refine ⟨q1, q2, ?_⟩
  rw [hn, ht]
  exact paired_getElem? ds k hk

/-- The instance of C5 for `exampleFile`: two positions, for `r` and for `g`. -/
theorem construct_varVectors_witness :
    ∃ ctx, construct (some exampleFile) = .ok ctx ∧
      ctx.preVars.length = ctx.postVars.length ∧ ctx.variables.length = 2 * ctx.preVars.length :=
  ⟨_, rfl, (construct_varVectors (some exampleFile) _ rfl).1,
    (construct_varVectors (some exampleFile) _ rfl).2.1⟩

/-! ## The liveness lists -/

theorem contentEffect_livenessAssumptions (c c' : GR1Context) (l : Str) (m : Int)
    (h : ContentEffect c l m c') (hm : m ≠ 6) :
    c'.livenessAssumptions = c.livenessAssumptions := by
  cases h <;> first | rfl | exact absurd rfl hm

theorem contentEffect_livenessGuarantees (c c' : GR1Context) (l : Str) (m : Int)
    (h : ContentEffect c l m c') (hm : m ≠ 7) :
    c'.livenessGuarantees = c.livenessGuarantees := by
  cases h <;> first | rfl | exact absurd rfl hm

theorem forall₂_parse_extends (c c' : GR1Context) (h : c.Extends c') (hal : c.TableAligned)
    (hal' : c'.TableAligned) (roles : RoleSet) (L : List Str) (fs : List BF)
    (hF : List.Forall₂ (fun l f => c.parseBooleanFormula l roles = .ok f) L fs) :
    List.Forall₂ (fun l f => c'.parseBooleanFormula l roles = .ok f) L fs :=
  hF.imp (fun {l f} hp => parseBooleanFormula_extends c c' h hal hal' l roles f hp)

/-- The liveness assumptions read so far are the functions of the formula lines read
so far under `[ENV_LIVENESS]`, in order. -/
theorem readLines_livenessAssumptions (lines : List Str) (st' : GR1Context × Int)
    (h : readLines (GR1Context.initial, -1) lines = .ok st') :
    List.Forall₂ (fun l f => st'.1.parseBooleanFormula l allowedEnv = .ok f)
      (linesUnder "[ENV_LIVENESS]".toList lines) st'.1.livenessAssumptions := by
  have := readLines_under 6 (by decide) "[ENV_LIVENESS]".toList rfl
    (fun c L => c.TableAligned ∧
      List.Forall₂ (fun l f => c.parseBooleanFormula l allowedEnv = .ok f) L
        c.livenessAssumptions)
    ?_ ?_ ?_ lines (GR1Context.initial, -1) st' none [] rfl
    tableAligned_initial ⟨tableAligned_initial, List.Forall₂.nil⟩ h
  · simpa [linesUnder] using this.2
  · intro c L ⟨hal, hF⟩
    exact ⟨hal, forall₂_parse_extends c c.nextLine (extends_refl c) hal hal _ _ _ hF⟩
  · intro c c' l m L hm he hal ⟨_, hF⟩
    obtain ⟨hext, hal'⟩ := contentEffect_extends c c' l m he
    rw [← contentEffect_livenessAssumptions c c' l m he (by simpa using hm)] at hF
    exact ⟨hal' hal, forall₂_parse_extends c c' hext hal (hal' hal) _ _ _ hF⟩
  · intro c c' l L he hal ⟨_, hF⟩
    obtain ⟨hext, hal'⟩ := contentEffect_extends c c' l _ he
    refine ⟨hal' hal, ?_⟩
    rcases contentEffect_inv c c' l _ he with ⟨hm, _⟩ | ⟨hm, _⟩ | ⟨hm, _⟩ | ⟨hm, _⟩ | ⟨hm, _⟩ |
        ⟨hm, _⟩ | ⟨_, f, hf, rfl⟩ | ⟨hm, _⟩
    all_goals first | (exfalso; revert hm; decide) | skip
    exact List.rel_append (forall₂_parse_extends c _ hext hal (hal' hal) _ _ _ hF)
      (List.Forall₂.cons (parseBooleanFormula_extends c _ hext hal (hal' hal) l _ f hf)
        List.Forall₂.nil)

/-- The liveness guarantees read so far are the functions of the formula lines read so
far under `[SYS_LIVENESS]`, in order. -/
theorem readLines_livenessGuarantees (lines : List Str) (st' : GR1Context × Int)
    (h : readLines (GR1Context.initial, -1) lines = .ok st') :
    List.Forall₂ (fun l f => st'.1.parseBooleanFormula l allowedSys = .ok f)
      (linesUnder "[SYS_LIVENESS]".toList lines) st'.1.livenessGuarantees := by
  have := readLines_under 7 (by decide) "[SYS_LIVENESS]".toList rfl
    (fun c L => c.TableAligned ∧
      List.Forall₂ (fun l f => c.parseBooleanFormula l allowedSys = .ok f) L
        c.livenessGuarantees)
    ?_ ?_ ?_ lines (GR1Context.initial, -1) st' none [] rfl
    tableAligned_initial ⟨tableAligned_initial, List.Forall₂.nil⟩ h
  · simpa [linesUnder] using this.2
  · intro c L ⟨hal, hF⟩
    exact ⟨hal, forall₂_parse_extends c c.nextLine (extends_refl c) hal hal _ _ _ hF⟩
  · intro c c' l m L hm he hal ⟨_, hF⟩
    obtain ⟨hext, hal'⟩ := contentEffect_extends c c' l m he
    rw [← contentEffect_livenessGuarantees c c' l m he (by simpa using hm)] at hF
    exact ⟨hal' hal, forall₂_parse_extends c c' hext hal (hal' hal) _ _ _ hF⟩
  · intro c c' l L he hal ⟨_, hF⟩
    obtain ⟨hext, hal'⟩ := contentEffect_extends c c' l _ he
    refine ⟨hal' hal, ?_⟩
    rcases contentEffect_inv c c' l _ he with ⟨hm, _⟩ | ⟨hm, _⟩ | ⟨hm, _⟩ | ⟨hm, _⟩ | ⟨hm, _⟩ |
        ⟨hm, _⟩ | ⟨hm, _⟩ | ⟨_, f, hf, rfl⟩
    all_goals first | (exfalso; revert hm; decide) | skip
    exact List.rel_append (forall₂_parse_extends c _ hext hal (hal' hal) _ _ _ hF)
      (List.Forall₂.cons (parseBooleanFormula_extends c _ hext hal (hal' hal) l _ f hf)
        List.Forall₂.nil)

/-! ## The state in which a line is read -/

theorem linesUnderFrom_append (header : Str) : ∀ (a b : List Str) (current : Option Str),
    linesUnderFrom header current (a ++ b) =
      linesUnderFrom header current a ++ linesUnderFrom header (sectionAfter current a) b := by
  intro a
  induction a with
  | nil => intro b current; rfl
  | cons raw rest ih =>
    intro b current
    by_cases hi : Ignorable raw
    · simp only [List.cons_append, linesUnderFrom, sectionAfter, hi, if_true]
      exact ih b current
    · by_cases hb : StartsWithBracket raw
      · simp only [List.cons_append, linesUnderFrom, sectionAfter, hi, hb, if_true, if_false]
        exact ih b _
      · by_cases hc : current = some header
        · simp only [List.cons_append, linesUnderFrom, sectionAfter, hi, hb, hc, if_true,
            if_false]
          simp only [List.append_eq, List.cons_append]
          rw [ih b (some header)]
        · simp only [List.cons_append, linesUnderFrom, sectionAfter, hi, hb, hc, if_false]
          exact ih b current

theorem readLines_modeOf : ∀ (lines : List Str) (st st' : GR1Context × Int)
    (current : Option Str), ModeOf current st.2 → readLines st lines = .ok st' →
      ModeOf (sectionAfter current lines) st'.2 := by
  intro lines
  induction lines with
  | nil => intro st st' current hm h; cases h; exact hm
  | cons raw rest ih =>
    intro st st' current hm h
    rw [readLines] at h
    cases h₁ : readLine st raw with
    | error e => rw [h₁] at h; cases h
    | ok st₁ =>
      rw [h₁] at h
      rcases readLine_ok_cases st st₁ raw h₁ with ⟨hi, rfl⟩ | ⟨hi, hb, k, hk, rfl⟩ |
          ⟨hi, hb, hmode, _⟩
      · simp only [sectionAfter, hi, if_true]
        exact ih (st.1.nextLine, st.2) st' current hm h
      · simp only [sectionAfter, hi, hb, if_true, if_false]
        exact ih (st.1.nextLine, (k : Int)) st' (some (trim raw)) ⟨k, hk, rfl⟩ h
      · simp only [sectionAfter, hi, hb, if_false]
        exact ih st₁ st' current (by rw [hmode]; exact hm) h

/-- The liveness lists only grow at their end while the file is read. -/
theorem readLines_liveness_grow : ∀ (lines : List Str) (st st' : GR1Context × Int),
    readLines st lines = .ok st' →
      (∃ more, st'.1.livenessAssumptions = st.1.livenessAssumptions ++ more) ∧
      (∃ more, st'.1.livenessGuarantees = st.1.livenessGuarantees ++ more) := by
  intro lines
  induction lines with
  | nil => intro st st' h; cases h; exact ⟨⟨[], by simp⟩, ⟨[], by simp⟩⟩
  | cons raw rest ih =>
    intro st st' h
    rw [readLines] at h
    cases h₁ : readLine st raw with
    | error e => rw [h₁] at h; cases h
    | ok st₁ =>
      rw [h₁] at h
      obtain ⟨⟨a, ha⟩, ⟨g, hg⟩⟩ := ih st₁ st' h
      have hstep : (∃ more, st₁.1.livenessAssumptions = st.1.livenessAssumptions ++ more) ∧
          (∃ more, st₁.1.livenessGuarantees = st.1.livenessGuarantees ++ more) := by
        rcases readLine_ok_cases st st₁ raw h₁ with ⟨_, rfl⟩ | ⟨_, _, k, _, rfl⟩ |
            ⟨_, _, _, he⟩
        · exact ⟨⟨[], by simp [nextLine]⟩, ⟨[], by simp [nextLine]⟩⟩
        · exact ⟨⟨[], by simp [nextLine]⟩, ⟨[], by simp [nextLine]⟩⟩
        · rcases contentEffect_inv _ _ _ _ he with ⟨_, hc⟩ | ⟨_, hc⟩ | ⟨_, f, _, hc⟩ |
              ⟨_, f, _, hc⟩ | ⟨_, f, _, hc⟩ | ⟨_, f, _, hc⟩ | ⟨_, f, _, hc⟩ | ⟨_, f, _, hc⟩
          all_goals rw [hc]
          · exact ⟨⟨[], by simp [nextLine, declareVariable]⟩,
              ⟨[], by simp [nextLine, declareVariable]⟩⟩
          · exact ⟨⟨[], by simp [nextLine, declareVariable]⟩,
              ⟨[], by simp [nextLine, declareVariable]⟩⟩
          · exact ⟨⟨[], by simp [nextLine]⟩, ⟨[], by simp [nextLine]⟩⟩
          · exact ⟨⟨[], by simp [nextLine]⟩, ⟨[], by simp [nextLine]⟩⟩
          · exact ⟨⟨[], by simp [nextLine]⟩, ⟨[], by simp [nextLine]⟩⟩
          · exact ⟨⟨[], by simp [nextLine]⟩, ⟨[], by simp [nextLine]⟩⟩
          · exact ⟨⟨[f], by simp [nextLine]⟩, ⟨[], by simp [nextLine]⟩⟩
          · exact ⟨⟨[], by simp [nextLine]⟩, ⟨[f], by simp [nextLine]⟩⟩
      obtain ⟨⟨a₁, ha₁⟩, ⟨g₁, hg₁⟩⟩ := hstep
      exact ⟨⟨a₁ ++ a, by rw [ha, ha₁, List.append_assoc]⟩,
        ⟨g₁ ++ g, by rw [hg, hg₁, List.append_assoc]⟩⟩

/-- A formula line under `[ENV_LIVENESS]`: the function that `parseBooleanFormula`
returns for it in the state in which it is read is the element of the final list at the
position given by the number of earlier lines of the section. -/
theorem readLines_livenessAssumptions_at (pre post : List Str) (raw : Str)
    (stF : GR1Context × Int)
    (h : readLines (GR1Context.initial, -1) (pre ++ raw :: post) = .ok stF)
    (hi : ¬ Ignorable raw) (hb : ¬ StartsWithBracket raw)
    (hsec : sectionAfter none pre = some "[ENV_LIVENESS]".toList) :
    ∃ st f, readLines (GR1Context.initial, -1) pre = .ok st ∧
      st.1.nextLine.parseBooleanFormula (trim raw) allowedEnv = .ok f ∧
      stF.1.livenessAssumptions[(linesUnder "[ENV_LIVENESS]".toList pre).length]? = some f := by
  rw [readLines_append] at h
  cases hst : readLines (GR1Context.initial, -1) pre with
  | error e => rw [hst] at h; cases h
  | ok st =>
    rw [hst] at h
    simp only [readLines] at h
    cases h₁ : readLine st raw with
    | error e => rw [h₁] at h; cases h
    | ok st₁ =>
      rw [h₁] at h
      have hmode := readLines_modeOf pre (GR1Context.initial, -1) st none rfl hst
      rw [hsec] at hmode
      have hm6 : st.2 = 6 := by
        have := (modeOf_iff _ st.2 hmode 6 (by decide)).mp rfl
        simpa using this
      rw [readLine_content st raw hi hb] at h₁
      obtain ⟨_, he⟩ := readContent_ok _ _ _ _ h₁
      rw [hm6] at he
      rcases contentEffect_inv _ _ _ _ he with ⟨hm, _⟩ | ⟨hm, _⟩ | ⟨hm, _⟩ | ⟨hm, _⟩ |
          ⟨hm, _⟩ | ⟨hm, _⟩ | ⟨_, f, hf, hc⟩ | ⟨hm, _⟩
      all_goals first | (exfalso; revert hm; decide) | skip
      refine ⟨st, f, rfl, hf, ?_⟩
      have hlen := (readLines_livenessAssumptions pre st hst).length_eq
      obtain ⟨⟨more, hmore⟩, _⟩ := readLines_liveness_grow post st₁ stF h
      rw [hmore, hc, hlen]
      simp only [nextLine, List.append_assoc]
      rw [List.getElem?_append_right (le_refl _)]
      simp

/-- A formula line under `[SYS_LIVENESS]`: the function that `parseBooleanFormula`
returns for it in the state in which it is read is the element of the final list at the
position given by the number of earlier lines of the section. -/
theorem readLines_livenessGuarantees_at (pre post : List Str) (raw : Str)
    (stF : GR1Context × Int)
    (h : readLines (GR1Context.initial, -1) (pre ++ raw :: post) = .ok stF)
    (hi : ¬ Ignorable raw) (hb : ¬ StartsWithBracket raw)
    (hsec : sectionAfter none pre = some "[SYS_LIVENESS]".toList) :
    ∃ st f, readLines (GR1Context.initial, -1) pre = .ok st ∧
      st.1.nextLine.parseBooleanFormula (trim raw) allowedSys = .ok f ∧
      stF.1.livenessGuarantees[(linesUnder "[SYS_LIVENESS]".toList pre).length]? = some f := by
  rw [readLines_append] at h
  cases hst : readLines (GR1Context.initial, -1) pre with
  | error e => rw [hst] at h; cases h
  | ok st =>
    rw [hst] at h
    simp only [readLines] at h
    cases h₁ : readLine st raw with
    | error e => rw [h₁] at h; cases h
    | ok st₁ =>
      rw [h₁] at h
      have hmode := readLines_modeOf pre (GR1Context.initial, -1) st none rfl hst
      rw [hsec] at hmode
      have hm7 : st.2 = 7 := by
        have := (modeOf_iff _ st.2 hmode 7 (by decide)).mp rfl
        simpa using this
      rw [readLine_content st raw hi hb] at h₁
      obtain ⟨_, he⟩ := readContent_ok _ _ _ _ h₁
      rw [hm7] at he
      rcases contentEffect_inv _ _ _ _ he with ⟨hm, _⟩ | ⟨hm, _⟩ | ⟨hm, _⟩ | ⟨hm, _⟩ |
          ⟨hm, _⟩ | ⟨hm, _⟩ | ⟨hm, _⟩ | ⟨_, f, hf, hc⟩
      all_goals first | (exfalso; revert hm; decide) | skip
      refine ⟨st, f, rfl, hf, ?_⟩
      have hlen := (readLines_livenessGuarantees pre st hst).length_eq
      obtain ⟨_, ⟨more, hmore⟩⟩ := readLines_liveness_grow post st₁ stF h
      rw [hmore, hc, hlen]
      simp only [nextLine, List.append_assoc]
      rw [List.getElem?_append_right (le_refl _)]
      simp

theorem extends_of_table (c c' : GR1Context) (h1 : c'.variableNames = c.variableNames)
    (h2 : c'.variableTypes = c.variableTypes) (h3 : c'.variables = c.variables) :
    c.Extends c' :=
  ⟨⟨[], by rw [h1, List.append_nil]⟩, ⟨[], by rw [h2, List.append_nil]⟩,
    ⟨[], by rw [h3, List.append_nil]⟩⟩

theorem tableAligned_of_table (c c' : GR1Context) (h1 : c'.variableNames = c.variableNames)
    (h2 : c'.variableTypes = c.variableTypes) (h3 : c'.variables = c.variables)
    (hal : c.TableAligned) : c'.TableAligned := by
  unfold TableAligned
  rw [h1, h2, h3]
  exact hal

/-- C6: after a successful construction both liveness lists are non-empty; a list is
the one-element list of the constant true when the file has no formula line under the
section, and otherwise it is, in file order and with nothing added, the list of the
functions that `parseBooleanFormula` returns for these lines; the element at the
position of a line is the function that was returned for the line in the state in which
the line was read. -/
theorem construct_liveness (content : Str) (ctx : GR1Context)
    (h : construct (some content) = .ok ctx) :
    1 ≤ ctx.livenessAssumptions.length ∧ 1 ≤ ctx.livenessGuarantees.length ∧
    (linesUnder "[ENV_LIVENESS]".toList (getlines content) = [] →
      ctx.livenessAssumptions = [⟨fun _ => true⟩]) ∧
    (linesUnder "[ENV_LIVENESS]".toList (getlines content) ≠ [] →
      List.Forall₂ (fun l f => ctx.parseBooleanFormula l allowedEnv = .ok f)
        (linesUnder "[ENV_LIVENESS]".toList (getlines content)) ctx.livenessAssumptions) ∧
    (linesUnder "[SYS_LIVENESS]".toList (getlines content) = [] →
      ctx.livenessGuarantees = [⟨fun _ => true⟩]) ∧
    (linesUnder "[SYS_LIVENESS]".toList (getlines content) ≠ [] →
      List.Forall₂ (fun l f => ctx.parseBooleanFormula l allowedSys = .ok f)
        (linesUnder "[SYS_LIVENESS]".toList (getlines content)) ctx.livenessGuarantees) ∧
    (∀ (pre post : List Str) (raw : Str), getlines content = pre ++ raw :: post →
      ¬ Ignorable raw → ¬ StartsWithBracket raw →
      (sectionAfter none pre = some "[ENV_LIVENESS]".toList →
        ∃ st f, readLines (GR1Context.initial, -1) pre = .ok st ∧
          st.1.nextLine.parseBooleanFormula (trim raw) allowedEnv = .ok f ∧
          ctx.livenessAssumptions[(linesUnder "[ENV_LIVENESS]".toList pre).length]? =
            some f) ∧
      (sectionAfter none pre = some "[SYS_LIVENESS]".toList →
        ∃ st f, readLines (GR1Context.initial, -1) pre = .ok st ∧
          st.1.nextLine.parseBooleanFormula (trim raw) allowedSys = .ok f ∧
          ctx.livenessGuarantees[(linesUnder "[SYS_LIVENESS]".toList pre).length]? =
            some f)) := by
  obtain ⟨st, hst, hfin⟩ := ofLines_ok _ ctx h
  obtain ⟨hal, _, _⟩ := readLines_contextInv _ st hst
  have hA := readLines_livenessAssumptions _ st hst
  have hG := readLines_livenessGuarantees _ st hst
  obtain ⟨ls, _, rfl⟩ := finish_ok _ _ hfin
  have hlenA := hA.length_eq
  have hlenG := hG.length_eq
  have hkeep : ∀ (fs : List BF) (k : Nat) (f t : BF), fs[k]? = some f →
      (if fs.length = 0 then fs ++ [t] else fs)[k]? = some f := by
    intro fs k f t hk
    by_cases h0 : fs.length = 0
    · rw [List.length_eq_zero.mp h0] at hk; cases hk
    · rw [if_neg h0]; exact hk
  refine ⟨?_, ?_, fun h0 => ?_, fun h0 => ?_, fun h0 => ?_, fun h0 => ?_,
    fun pre post raw hsplit hi hb => ⟨fun hsec => ?_, fun hsec => ?_⟩⟩
  rotate_right 2
  · rw [hsplit] at hst
    obtain ⟨st₀, f, h1, h2, h3⟩ := readLines_livenessAssumptions_at pre post raw st hst hi hb hsec
    exact ⟨st₀, f, h1, h2, hkeep _ _ _ _ h3⟩
  · rw [hsplit] at hst
    obtain ⟨st₀, f, h1, h2, h3⟩ := readLines_livenessGuarantees_at pre post raw st hst hi hb hsec
    exact ⟨st₀, f, h1, h2, hkeep _ _ _ _ h3⟩
  · simp only; split_ifs with h1
    · simp
    · omega
  · simp only; split_ifs with h1
    · simp
    · omega
  · rw [h0] at hlenA
    simp only [List.length_nil] at hlenA
    simp only [← hlenA, if_true]
    rw [List.length_eq_zero.mp hlenA.symm]; rfl
  · have hne : ¬ st.1.livenessAssumptions.length = 0 := by
      rw [← hlenA]; exact fun hc => h0 (List.length_eq_zero.mp hc)
    simp only [hne, if_false]
    refine forall₂_parse_extends st.1 _ ?_ hal ?_ _ _ _ hA
    · exact extends_of_table _ _ rfl rfl rfl
    · exact tableAligned_of_table _ _ rfl rfl rfl hal
  · rw [h0] at hlenG
    simp only [List.length_nil] at hlenG
    simp only [← hlenG, if_true]
    rw [List.length_eq_zero.mp hlenG.symm]; rfl
  · have hne : ¬ st.1.livenessGuarantees.length = 0 := by
      rw [← hlenG]; exact fun hc => h0 (List.length_eq_zero.mp hc)
    simp only [hne, if_false]
    refine forall₂_parse_extends st.1 _ ?_ hal ?_ _ _ _ hG
    · exact extends_of_table _ _ rfl rfl rfl
    · exact tableAligned_of_table _ _ rfl rfl rfl hal

/-- The instance of C6 for `exampleFile`, which has one goal on each side. -/
theorem construct_liveness_witness :
    ∃ ctx, construct (some exampleFile) = .ok ctx ∧
      1 ≤ ctx.livenessAssumptions.length ∧ 1 ≤ ctx.livenessGuarantees.length :=
  ⟨_, rfl, (construct_liveness exampleFile _ rfl).1, (construct_liveness exampleFile _ rfl).2.1⟩

theorem classifyVariables_congr (c c' : GR1Context) (h : c'.variableTypes = c.variableTypes) :
    ∀ (vars : List BF) (i : Nat) (acc : VarLists),
      c'.classifyVariables i vars acc = c.classifyVariables i vars acc := by
  intro vars
  induction vars with
  | nil => intro i acc; rfl
  | cons v vars ih =>
    intro i acc
    rw [classifyVariables, classifyVariables, h]
    cases c.variableTypes[i]? with
    | none => rfl
    | some t => cases t <;> exact ih _ _

theorem readLine_sysLivenessHeader (st : GR1Context × Int) :
    readLine st "[SYS_LIVENESS]".toList = .ok (st.1.nextLine, 7) := by
  rw [readLine_header st _ (by decide) (by decide)]
  rfl

theorem readLine_envLivenessHeader (st : GR1Context × Int) :
    readLine st "[ENV_LIVENESS]".toList = .ok (st.1.nextLine, 6) := by
  rw [readLine_header st _ (by decide) (by decide)]
  rfl

theorem readLine_sysLivenessTrue (c : GR1Context) :
    readLine (c, 7) "1".toList =
      .ok ({ c.nextLine with
        livenessGuarantees := c.nextLine.livenessGuarantees ++ [c.nextLine.mgr.constantTrue] },
        7) := by
  rw [readLine_content _ _ (by decide) (by decide)]
  rfl

theorem readLine_envLivenessTrue (c : GR1Context) :
    readLine (c, 6) "1".toList =
      .ok ({ c.nextLine with
        livenessAssumptions := c.nextLine.livenessAssumptions ++ [c.nextLine.mgr.constantTrue] },
        6) := by
  rw [readLine_content _ _ (by decide) (by decide)]
  rfl

theorem finish_of_classify (c : GR1Context) (ls : VarLists)
    (hcl : c.classifyVariables 0 c.variables ⟨c.preVars, c.postVars, [], [], [], []⟩ = .ok ls) :
    finish c = .ok { c with
      preVars := ls.preVars
      postVars := ls.postVars
      varVectorPre := c.mgr.computeVarVector ls.preVars
      varVectorPost := c.mgr.computeVarVector ls.postVars
      varCubePostInput := c.mgr.computeCube ls.postInputVars
      varCubePostOutput := c.mgr.computeCube ls.postOutputVars
      varCubePreInput := c.mgr.computeCube ls.preInputVars
      varCubePreOutput := c.mgr.computeCube ls.preOutputVars
      varCubePre := c.mgr.computeCube ls.preVars
      livenessAssumptions :=
        if c.livenessAssumptions.length = 0 then
          c.livenessAssumptions ++ [c.mgr.constantTrue]
        else c.livenessAssumptions
      livenessGuarantees :=
        if c.livenessGuarantees.length = 0 then
          c.livenessGuarantees ++ [c.mgr.constantTrue]
        else c.livenessGuarantees } := by
  unfold finish
  rw [hcl]

/-- Finishing after an explicit trivial system goal gives what finishing without any
system goal gives. -/
theorem finish_explicit_guarantee (c r : GR1Context) (h : finish c = .ok r)
    (hnil : c.livenessGuarantees = []) (n : Nat) :
    ∃ r', finish { c with
        lineNumberCurrentlyRead := n
        livenessGuarantees := c.livenessGuarantees ++ [c.mgr.constantTrue] } = .ok r' ∧
      r'.withoutLineCounter = r.withoutLineCounter := by
  obtain ⟨ls, hcl, hr⟩ := finish_ok c r h
  have hcl' := (classifyVariables_congr c { c with
        lineNumberCurrentlyRead := n
        livenessGuarantees := c.livenessGuarantees ++ [c.mgr.constantTrue] } rfl
      c.variables 0 ⟨c.preVars, c.postVars, [], [], [], []⟩).trans hcl
  refine ⟨_, finish_of_classify _ ls hcl', ?_⟩
  rw [hr]
  simp [withoutLineCounter, hnil]

/-- Finishing after an explicit trivial environment goal gives what finishing without
any environment goal gives. -/
theorem finish_explicit_assumption (c r : GR1Context) (h : finish c = .ok r)
    (hnil : c.livenessAssumptions = []) (n : Nat) :
    ∃ r', finish { c with
        lineNumberCurrentlyRead := n
        livenessAssumptions := c.livenessAssumptions ++ [c.mgr.constantTrue] } = .ok r' ∧
      r'.withoutLineCounter = r.withoutLineCounter := by
  obtain ⟨ls, hcl, hr⟩ := finish_ok c r h
  have hcl' := (classifyVariables_congr c { c with
        lineNumberCurrentlyRead := n
        livenessAssumptions := c.livenessAssumptions ++ [c.mgr.constantTrue] } rfl
      c.variables 0 ⟨c.preVars, c.postVars, [], [], [], []⟩).trans hcl
  refine ⟨_, finish_of_classify _ ls hcl', ?_⟩
  rw [hr]
  simp [withoutLineCounter, hnil]

/-- C7: for an accepted file without formula line under `[SYS_LIVENESS]` (respectively
`[ENV_LIVENESS]`), the file with the two lines `[SYS_LIVENESS]` and `1` (respectively
`[ENV_LIVENESS]` and `1`) appended is accepted too and yields the same context, field by
field, the private line counter apart; so every function of the data of the game takes
the same value on both. -/
theorem ofLines_explicit_liveness (lines : List Str) (ctx : GR1Context)
    (h : ofLines lines = .ok ctx) :
    (linesUnder "[SYS_LIVENESS]".toList lines = [] →
      ∃ ctx', ofLines (lines ++ explicitSysLiveness) = .ok ctx' ∧
        ctx'.withoutLineCounter = ctx.withoutLineCounter ∧
        ∀ (α : Type) (solver : GR1Context → α),
          solver ctx'.withoutLineCounter = solver ctx.withoutLineCounter) ∧
    (linesUnder "[ENV_LIVENESS]".toList lines = [] →
      ∃ ctx', ofLines (lines ++ explicitEnvLiveness) = .ok ctx' ∧
        ctx'.withoutLineCounter = ctx.withoutLineCounter ∧
        ∀ (α : Type) (solver : GR1Context → α),
          solver ctx'.withoutLineCounter = solver ctx.withoutLineCounter) := by
  obtain ⟨st, hst, hfin⟩ := ofLines_ok _ ctx h
  have hA := (readLines_livenessAssumptions _ st hst).length_eq
  have hG := (readLines_livenessGuarantees _ st hst).length_eq
  constructor
  · intro h0
    rw [h0] at hG
    have hnil : st.1.livenessGuarantees = [] := List.length_eq_zero.mp hG.symm
    obtain ⟨r', hr', heq⟩ := finish_explicit_guarantee st.1 ctx hfin hnil
      st.1.nextLine.nextLine.lineNumberCurrentlyRead
    have hrun : readLines (GR1Context.initial, -1) (lines ++ explicitSysLiveness) =
        .ok ({ st.1 with
          lineNumberCurrentlyRead := st.1.nextLine.nextLine.lineNumberCurrentlyRead
          livenessGuarantees := st.1.livenessGuarantees ++ [st.1.mgr.constantTrue] }, 7) := by
      rw [readLines_append, hst]
      simp only [explicitSysLiveness, readLines, readLine_sysLivenessHeader,
        readLine_sysLivenessTrue]
      rfl
    refine ⟨r', ?_, heq, fun α solver => by rw [heq]⟩
    unfold ofLines
    rw [hrun]
    exact hr'
  · intro h0
    rw [h0] at hA
    have hnil : st.1.livenessAssumptions = [] := List.length_eq_zero.mp hA.symm
    obtain ⟨r', hr', heq⟩ := finish_explicit_assumption st.1 ctx hfin hnil
      st.1.nextLine.nextLine.lineNumberCurrentlyRead
    have hrun : readLines (GR1Context.initial, -1) (lines ++ explicitEnvLiveness) =
        .ok ({ st.1 with
          lineNumberCurrentlyRead := st.1.nextLine.nextLine.lineNumberCurrentlyRead
          livenessAssumptions := st.1.livenessAssumptions ++ [st.1.mgr.constantTrue] }, 6) := by
      rw [readLines_append, hst]
      simp only [explicitEnvLiveness, readLines, readLine_envLivenessHeader,
        readLine_envLivenessTrue]
      rfl
    refine ⟨r', ?_, heq, fun α solver => by rw [heq]⟩
    unfold ofLines
    rw [hrun]
    exact hr'

/-- The instance of C7 for a file without liveness sections. -/
theorem ofLines_explicit_liveness_witness :
    ∃ ctx, ofLines safetyOnlyLines = .ok ctx ∧
      linesUnder "[SYS_LIVENESS]".toList safetyOnlyLines = [] ∧
      ∃ ctx', ofLines (safetyOnlyLines ++ explicitSysLiveness) = .ok ctx' ∧
        ctx'.withoutLineCounter = ctx.withoutLineCounter :=
  ⟨_, rfl, by decide,
    ((ofLines_explicit_liveness safetyOnlyLines _ rfl).1 (by decide)).imp
      (fun _ hc => ⟨hc.1, hc.2.1⟩)⟩

/-! ## Blank lines, comments and surrounding whitespace -/

theorem dropWhile_of_all (p : Char → Bool) (ws s : Str) (h : ∀ c ∈ ws, p c = true) :
    (ws ++ s).dropWhile p = s.dropWhile p := by
  induction ws with
  | nil => rfl
  | cons c ws ih =>
    rw [List.cons_append, List.dropWhile_cons, if_pos (h c (List.mem_cons_self _ _))]
    exact ih (fun d hd => h d (List.mem_cons_of_mem _ hd))

theorem dropWhile_head_false (p : Char → Bool) (s : Str) (x : Char) (xs : Str)
    (h : s.dropWhile p = x :: xs) : p x = false := by
  induction s with
  | nil => simp at h
  | cons c s ih =>
    rw [List.dropWhile_cons] at h
    by_cases hc : p c = true
    · rw [if_pos hc] at h; exact ih h
    · rw [if_neg hc] at h
      cases h
      simpa using hc

theorem dropWhile_dropWhile (p : Char → Bool) (s : Str) :
    (s.dropWhile p).dropWhile p = s.dropWhile p := by
  cases h : s.dropWhile p with
  | nil => rfl
  | cons x xs =>
    rw [List.dropWhile_cons, if_neg]
    rw [dropWhile_head_false p s x xs h]
    simp

theorem trim_trim (s : Str) : trim (trim s) = trim s := by
  have key : ∀ u : Str, u = (s.dropWhile isspace).reverse.dropWhile isspace →
      u.reverse.dropWhile isspace = u.reverse := by
    intro u hu
    cases hr : u.reverse with
    | nil => rfl
    | cons x xs =>
      have hsplit := List.takeWhile_append_dropWhile isspace (s.dropWhile isspace).reverse
      have hd : s.dropWhile isspace =
          u.reverse ++ ((s.dropWhile isspace).reverse.takeWhile isspace).reverse := by
        rw [hu, ← List.reverse_append, hsplit, List.reverse_reverse]
      rw [hr, List.cons_append] at hd
      rw [List.dropWhile_cons, if_neg]
      rw [dropWhile_head_false isspace s x _ hd]
      simp
  have h := key _ rfl
  show (((((s.dropWhile isspace).reverse.dropWhile isspace).reverse).dropWhile
    isspace).reverse.dropWhile isspace).reverse = _
  rw [h, List.reverse_reverse, dropWhile_dropWhile]
  rfl

theorem trim_pad (ws₁ ws₂ s : Str) (h₁ : ∀ c ∈ ws₁, isspace c = true)
    (h₂ : ∀ c ∈ ws₂, isspace c = true) : trim (ws₁ ++ s ++ ws₂) = trim s := by
  unfold trim
  rw [List.append_assoc, dropWhile_of_all isspace ws₁ _ h₁]
  congr 1
  cases hd : s.dropWhile isspace with
  | nil =>
    have hall : ∀ c ∈ s, isspace c = true := by
      intro c hc
      by_contra hcon
      have := List.dropWhile_eq_nil_iff.mp hd c hc
      exact hcon this
    have : (s ++ ws₂).dropWhile isspace = [] := by
      rw [dropWhile_of_all isspace s _ hall]
      exact List.dropWhile_eq_nil_iff.mpr h₂
    rw [this]
  | cons x xs =>
    have hx := dropWhile_head_false isspace s x xs hd
    have : (s ++ ws₂).dropWhile isspace = x :: xs ++ ws₂ := by
      rw [List.dropWhile_append, hd]; simp
    rw [this, List.reverse_append]
    exact dropWhile_of_all isspace ws₂.reverse _ (fun c hc => h₂ c (List.mem_reverse.mp hc))

theorem eq_of_withoutLineCounter (c c₂ : GR1Context)
    (h : c.withoutLineCounter = c₂.withoutLineCounter) :
    c = c₂.setLineCounter c.lineNumberCurrentlyRead := by
  cases c
  cases c₂
  simp only [withoutLineCounter, setLineCounter, GR1Context.mk.injEq] at h ⊢
  simp only [h, and_self]

/-- The result of parsing does not depend on the line counter, except in the payload
of an error. -/
theorem parseBooleanFormula_lineCounter (c : GR1Context) (n : Nat) (hal : c.TableAligned)
    (l : Str) (roles : RoleSet) :
    (∃ f, (c.setLineCounter n).parseBooleanFormula l roles = .ok f ∧
        c.parseBooleanFormula l roles = .ok f) ∨
    (∃ e e₂, (c.setLineCounter n).parseBooleanFormula l roles = .error e ∧
        c.parseBooleanFormula l roles = .error e₂) := by
  have hal' : (c.setLineCounter n).TableAligned := hal
  cases h₁ : (c.setLineCounter n).parseBooleanFormula l roles with
  | ok f =>
    left
    exact ⟨f, rfl, parseBooleanFormula_extends (c.setLineCounter n) c
      (extends_of_table _ _ rfl rfl rfl) hal' hal l roles f h₁⟩
  | error e =>
    right
    cases h₂ : c.parseBooleanFormula l roles with
    | error e₂ => exact ⟨e, e₂, rfl, rfl⟩
    | ok f =>
      have := parseBooleanFormula_extends c (c.setLineCounter n)
        (extends_of_table _ _ rfl rfl rfl) hal hal' l roles f h₂
      rw [h₁] at this
      cases this

theorem readHeader_sameState (c c₂ : GR1Context)
    (h : c.withoutLineCounter = c₂.withoutLineCounter) (l : Str) :
    SameState (readHeader c l) (readHeader c₂ l) := by
  rcases readHeader_cases l with ⟨k, _, hr⟩ | ⟨_, hr⟩
  · rw [hr c, hr c₂]; exact ⟨h, rfl⟩
  · rw [hr c, hr c₂]; trivial

theorem readContent_sameState (c : GR1Context) (n : Nat) (hal : c.TableAligned) (m : Int)
    (l : Str) :
    SameState (readContent (c.setLineCounter n) m l) (readContent c m l) := by
  by_cases h0 : m = 0
  · subst h0; exact ⟨rfl, rfl⟩
  by_cases h1 : m = 1
  · subst h1; exact ⟨rfl, rfl⟩
  by_cases h2 : m = 2
  · subst h2
    have e : ∀ c : GR1Context, readContent c 2 l =
        (match c.parseBooleanFormula l allowedEnvInit with
        | .error e => .error e
        | .ok f => .ok ({ c with initEnv := c.initEnv.and f }, 2)) := fun _ => rfl
    rcases parseBooleanFormula_lineCounter c n hal l allowedEnvInit with ⟨f, h₁, h₂⟩ |
        ⟨e₁, e₂, h₁, h₂⟩
    · rw [e, e, h₁, h₂]; exact ⟨rfl, rfl⟩
    · rw [e, e, h₁, h₂]; trivial
  by_cases h3 : m = 3
  · subst h3
    have e : ∀ c : GR1Context, readContent c 3 l =
        (match c.parseBooleanFormula l allowedSysInit with
        | .error e => .error e
        | .ok f => .ok ({ c with initSys := c.initSys.and f }, 3)) := fun _ => rfl
    rcases parseBooleanFormula_lineCounter c n hal l allowedSysInit with ⟨f, h₁, h₂⟩ |
        ⟨e₁, e₂, h₁, h₂⟩
    · rw [e, e, h₁, h₂]; exact ⟨rfl, rfl⟩
    · rw [e, e, h₁, h₂]; trivial
  by_cases h4 : m = 4
  · subst h4
    have e : ∀ c : GR1Context, readContent c 4 l =
        (match c.parseBooleanFormula l allowedEnv with
        | .error e => .error e
        | .ok f => .ok ({ c with safetyEnv := c.safetyEnv.and f }, 4)) := fun _ => rfl
    rcases parseBooleanFormula_lineCounter c n hal l allowedEnv with ⟨f, h₁, h₂⟩ |
        ⟨e₁, e₂, h₁, h₂⟩
    · rw [e, e, h₁, h₂]; exact ⟨rfl, rfl⟩
    · rw [e, e, h₁, h₂]; trivial
  by_cases h5 : m = 5
  · subst h5
    have e : ∀ c : GR1Context, readContent c 5 l =
        (match c.parseBooleanFormula l allowedSys with
        | .error e => .error e
        | .ok f => .ok ({ c with safetySys := c.safetySys.and f }, 5)) := fun _ => rfl
    rcases parseBooleanFormula_lineCounter c n hal l allowedSys with ⟨f, h₁, h₂⟩ |
        ⟨e₁, e₂, h₁, h₂⟩
    · rw [e, e, h₁, h₂]; exact ⟨rfl, rfl⟩
    · rw [e, e, h₁, h₂]; trivial
  by_cases h6 : m = 6
  · subst h6
    have e : ∀ c : GR1Context, readContent c 6 l =
        (match c.parseBooleanFormula l allowedEnv with
        | .error e => .error e
        | .ok f =>
          .ok ({ c with livenessAssumptions := c.livenessAssumptions ++ [f] }, 6)) :=
      fun _ => rfl
    rcases parseBooleanFormula_lineCounter c n hal l allowedEnv with ⟨f, h₁, h₂⟩ |
        ⟨e₁, e₂, h₁, h₂⟩
    · rw [e, e, h₁, h₂]; exact ⟨rfl, rfl⟩
    · rw [e, e, h₁, h₂]; trivial
  by_cases h7 : m = 7
  · subst h7
    have e : ∀ c : GR1Context, readContent c 7 l =
        (match c.parseBooleanFormula l allowedSys with
        | .error e => .error e
        | .ok f =>
          .ok ({ c with livenessGuarantees := c.livenessGuarantees ++ [f] }, 7)) :=
      fun _ => rfl
    rcases parseBooleanFormula_lineCounter c n hal l allowedSys with ⟨f, h₁, h₂⟩ |
        ⟨e₁, e₂, h₁, h₂⟩
    · rw [e, e, h₁, h₂]; exact ⟨rfl, rfl⟩
    · rw [e, e, h₁, h₂]; trivial
  have e : ∀ c : GR1Context, readContent c m l =
      .error (.noCategorialContext c.lineNumberCurrentlyRead) := by
    intro c
    unfold readContent
    rw [if_neg h0, if_neg h1, if_neg h2, if_neg h3, if_neg h4, if_neg h5, if_neg h6, if_neg h7]
  rw [e, e]
  trivial

theorem ignorable_congr (raw raw₂ : Str) (h : trim raw = trim raw₂) :
    Ignorable raw ↔ Ignorable raw₂ := by
  unfold Ignorable; rw [h]

theorem startsWithBracket_congr (raw raw₂ : Str) (h : trim raw = trim raw₂) :
    StartsWithBracket raw ↔ StartsWithBracket raw₂ := by
  unfold StartsWithBracket; rw [h]

/-- Reading a line from two states that differ at most in the line counter, the line
given up to surrounding whitespace, ends alike. -/
theorem readLine_sameState (st st₂ : GR1Context × Int) (raw raw₂ : Str)
    (h₁ : st.1.withoutLineCounter = st₂.1.withoutLineCounter) (h₂ : st.2 = st₂.2)
    (ht : trim raw = trim raw₂) (hal : st₂.1.TableAligned) :
    SameState (readLine st raw) (readLine st₂ raw₂) := by
  have hnext : st.1.nextLine.withoutLineCounter = st₂.1.nextLine.withoutLineCounter := h₁
  by_cases hi : Ignorable raw
  · rw [readLine_ignorable st raw hi,
      readLine_ignorable st₂ raw₂ ((ignorable_congr raw raw₂ ht).mp hi)]
    exact ⟨hnext, h₂⟩
  · have hi₂ : ¬ Ignorable raw₂ := fun hc => hi ((ignorable_congr raw raw₂ ht).mpr hc)
    by_cases hb : StartsWithBracket raw
    · rw [readLine_header st raw hi hb,
        readLine_header st₂ raw₂ hi₂ ((startsWithBracket_congr raw raw₂ ht).mp hb), ht]
      exact readHeader_sameState _ _ hnext _
    · have hb₂ : ¬ StartsWithBracket raw₂ :=
        fun hc => hb ((startsWithBracket_congr raw raw₂ ht).mpr hc)
      rw [readLine_content st raw hi hb, readLine_content st₂ raw₂ hi₂ hb₂, ht, h₂,
        eq_of_withoutLineCounter _ _ hnext]
      exact readContent_sameState st₂.1.nextLine _ hal _ _

theorem sameState_symm (r₁ r₂ : Except SlugsError (GR1Context × Int)) (h : SameState r₁ r₂) :
    SameState r₂ r₁ := by
  cases r₁ <;> cases r₂ <;> simp only [SameState] at h ⊢
  exact ⟨h.1.symm, h.2.symm⟩

theorem sameState_trans (r₁ r₂ r₃ : Except SlugsError (GR1Context × Int))
    (h : SameState r₁ r₂) (h' : SameState r₂ r₃) : SameState r₁ r₃ := by
  cases r₁ <;> cases r₂ <;> cases r₃ <;> simp only [SameState] at h h' ⊢
  exact ⟨h.1.trans h'.1, h.2.trans h'.2⟩

/-- Reading a file ends like reading its significant lines, trimmed. -/
theorem readLines_significant : ∀ (lines : List Str) (st st₂ : GR1Context × Int),
    st.1.withoutLineCounter = st₂.1.withoutLineCounter → st.2 = st₂.2 →
    st₂.1.TableAligned →
    SameState (readLines st lines) (readLines st₂ (significantLines lines)) := by
  intro lines
  induction lines with
  | nil => intro st st₂ h₁ h₂ _; exact ⟨h₁, h₂⟩
  | cons raw rest ih =>
    intro st st₂ h₁ h₂ hal
    by_cases hi : Ignorable raw
    · have hs : significantLines (raw :: rest) = significantLines rest := by
        simp [significantLines, List.filter_cons, hi]
      rw [hs, readLines, readLine_ignorable st raw hi]
      exact ih (st.1.nextLine, st.2) st₂ h₁ h₂ hal
    · have hs : significantLines (raw :: rest) = trim raw :: significantLines rest := by
        simp [significantLines, List.filter_cons, hi]
      rw [hs, readLines, readLines]
      have hstep := readLine_sameState st st₂ raw (trim raw) h₁ h₂ (trim_trim raw).symm hal
      cases hr : readLine st raw with
      | error e =>
        cases hr₂ : readLine st₂ (trim raw) with
        | error e₂ => trivial
        | ok s₂ => rw [hr, hr₂] at hstep; exact hstep.elim
      | ok s₁ =>
        cases hr₂ : readLine st₂ (trim raw) with
        | error e₂ => rw [hr, hr₂] at hstep; exact hstep.elim
        | ok s₂ =>
          rw [hr, hr₂] at hstep
          exact ih s₁ s₂ hstep.1 hstep.2 ((readLine_extends st₂ s₂ _ hr₂).2 hal)

theorem finish_sameGame (c c₂ : GR1Context)
    (h : c.withoutLineCounter = c₂.withoutLineCounter) :
    SameGame (finish c) (finish c₂) := by
  rw [eq_of_withoutLineCounter c c₂ h]
  have hcl := classifyVariables_congr c₂ (c₂.setLineCounter c.lineNumberCurrentlyRead) rfl
    c₂.variables 0 ⟨c₂.preVars, c₂.postVars, [], [], [], []⟩
  cases hc : c₂.classifyVariables 0 c₂.variables ⟨c₂.preVars, c₂.postVars, [], [], [], []⟩ with
  | error e =>
    rw [hc] at hcl
    have e₁ : finish (c₂.setLineCounter c.lineNumberCurrentlyRead) = .error e := by
      unfold finish; exact (by rw [show (c₂.setLineCounter c.lineNumberCurrentlyRead).variables
        = c₂.variables from rfl, show (c₂.setLineCounter c.lineNumberCurrentlyRead).preVars
        = c₂.preVars from rfl, show (c₂.setLineCounter c.lineNumberCurrentlyRead).postVars
        = c₂.postVars from rfl, hcl])
    have e₂ : finish c₂ = .error e := by unfold finish; rw [hc]
    rw [e₁, e₂]; trivial
  | ok ls =>
    rw [hc] at hcl
    rw [finish_of_classify _ ls hcl, finish_of_classify _ ls hc]
    rfl

theorem sameGame_of_significant (lines₁ lines₂ : List Str)
    (h : significantLines lines₁ = significantLines lines₂) :
    SameGame (ofLines lines₁) (ofLines lines₂) := by
  have a₁ := readLines_significant lines₁ (GR1Context.initial, -1) (GR1Context.initial, -1)
    rfl rfl tableAligned_initial
  have a₂ := readLines_significant lines₂ (GR1Context.initial, -1) (GR1Context.initial, -1)
    rfl rfl tableAligned_initial
  rw [h] at a₁
  have a := sameState_trans _ _ _ a₁ (sameState_symm _ _ a₂)
  unfold ofLines
  cases h₁ : readLines (GR1Context.initial, -1) lines₁ with
  | error e =>
    cases h₂ : readLines (GR1Context.initial, -1) lines₂ with
    | error e₂ => trivial
    | ok s₂ => rw [h₁, h₂] at a; exact a.elim
  | ok s₁ =>
    cases h₂ : readLines (GR1Context.initial, -1) lines₂ with
    | error e₂ => rw [h₁, h₂] at a; exact a.elim
    | ok s₂ =>
      rw [h₁, h₂] at a
      exact finish_sameGame s₁.1 s₂.1 a.1

/-- C8: two files whose significant lines (those that are neither empty after trimming
nor start with `#` after trimming) are the same after trimming are both rejected, or
both accepted with contexts that are equal field by field, the private line counter
apart; in particular this holds when a line that is empty, whitespace-only or a comment
is inserted or deleted at any position, and when whitespace is put around a line. -/
theorem ofLines_ignores_blank_and_comment (pre post : List Str) (raw : Str) :
    (∀ lines₁ lines₂ : List Str, significantLines lines₁ = significantLines lines₂ →
      SameGame (ofLines lines₁) (ofLines lines₂)) ∧
    (Ignorable raw → SameGame (ofLines (pre ++ raw :: post)) (ofLines (pre ++ post))) ∧
    (∀ ws₁ ws₂ : Str, (∀ c ∈ ws₁, isspace c = true) → (∀ c ∈ ws₂, isspace c = true) →
      SameGame (ofLines (pre ++ (ws₁ ++ raw ++ ws₂) :: post)) (ofLines (pre ++ raw :: post))) := by
  refine ⟨sameGame_of_significant, fun hi => ?_, fun ws₁ ws₂ h₁ h₂ => ?_⟩
  · apply sameGame_of_significant
    simp [significantLines, List.filter_cons, hi]
  · apply sameGame_of_significant
    have ht : trim (ws₁ ++ (raw ++ ws₂)) = trim raw := by
      rw [← List.append_assoc]; exact trim_pad ws₁ ws₂ raw h₁ h₂
    have hi := ignorable_congr _ _ ht
    by_cases hraw : Ignorable raw
    · simp [significantLines, List.filter_cons, hraw, hi.mpr hraw]
    · have hpad : ¬ Ignorable (ws₁ ++ (raw ++ ws₂)) := fun hc => hraw (hi.mp hc)
      simp [significantLines, List.filter_cons, hraw, hpad, ht]

/-- The instance of C8 for the comment line of `exampleFile` and for whitespace around
one of its lines. -/
theorem ofLines_ignores_blank_and_comment_witness :
    Ignorable "# a comment".toList ∧
      SameGame (ofLines (safetyOnlyLines ++ "# a comment".toList :: explicitSysLiveness))
        (ofLines (safetyOnlyLines ++ explicitSysLiveness)) ∧
      significantLines (getlines exampleFile) = significantLines exampleLinesVariant ∧
      SameGame (ofLines (getlines exampleFile)) (ofLines exampleLinesVariant) :=
  ⟨by decide,
    (ofLines_ignores_blank_and_comment safetyOnlyLines explicitSysLiveness
      "# a comment".toList).2.1 (by decide),
    by decide,
    (ofLines_ignores_blank_and_comment safetyOnlyLines explicitSysLiveness
      "# a comment".toList).1 _ _ (by decide)⟩

/-! ## The errors of the constructor are `throw`s of the program -/

theorem parseBooleanFormula_error_isThrow (c : GR1Context) (hal : c.TableAligned) (l : Str)
    (roles : RoleSet) (e : SlugsError) (h : c.parseBooleanFormula l roles = .error e) :
    e.IsThrow := by
  rcases parseBooleanFormula_error_spec c roles l hal e h with ⟨rfl, _⟩ | ⟨n, rfl, _⟩ |
      ⟨n, rfl, _⟩ | ⟨w, rfl, _⟩ <;> trivial

theorem readHeader_error_isThrow (c : GR1Context) (l : Str) (e : SlugsError)
    (h : readHeader c l = .error e) : e.IsThrow := by
  rcases readHeader_cases l with ⟨k, _, hr⟩ | ⟨_, hr⟩
  · rw [hr c] at h; cases h
  · rw [hr c] at h; cases h; trivial

theorem readContent_error_isThrow (c : GR1Context) (hal : c.TableAligned) (m : Int) (l : Str)
    (e : SlugsError) (h : readContent c m l = .error e) : e.IsThrow := by
  have key : ∀ (roles : RoleSet) (g : BF → GR1Context × Int),
      (match c.parseBooleanFormula l roles with
        | .error e => Except.error e
        | .ok f => .ok (g f)) = .error e → e.IsThrow := by
    intro roles g hg
    cases hp : c.parseBooleanFormula l roles with
    | error e' => rw [hp] at hg; cases hg; exact parseBooleanFormula_error_isThrow c hal l _ _ hp
    | ok f => rw [hp] at hg; cases hg
  rcases readContent_cases c m l with ⟨_, hr⟩ | ⟨_, hr⟩ | ⟨_, hr⟩ | ⟨_, hr⟩ | ⟨_, hr⟩ |
      ⟨_, hr⟩ | ⟨_, hr⟩ | ⟨_, hr⟩ | hr
  · rw [hr] at h; cases h
  · rw [hr] at h; cases h
  · rw [hr] at h; exact key _ _ h
  · rw [hr] at h; exact key _ _ h
  · rw [hr] at h; exact key _ _ h
  · rw [hr] at h; exact key _ _ h
  · rw [hr] at h; exact key _ _ h
  · rw [hr] at h; exact key _ _ h
  · rw [hr] at h; cases h; trivial

theorem readLine_error_isThrow (st : GR1Context × Int) (hal : st.1.TableAligned) (raw : Str)
    (e : SlugsError) (h : readLine st raw = .error e) : e.IsThrow := by
  by_cases hi : Ignorable raw
  · rw [readLine_ignorable st raw hi] at h; cases h
  · by_cases hb : StartsWithBracket raw
    · rw [readLine_header st raw hi hb] at h
      exact readHeader_error_isThrow _ _ _ h
    · rw [readLine_content st raw hi hb] at h
      exact readContent_error_isThrow st.1.nextLine hal _ _ _ h

theorem readLines_error_isThrow : ∀ (lines : List Str) (st : GR1Context × Int),
    st.1.TableAligned → ∀ e, readLines st lines = .error e → e.IsThrow := by
  intro lines
  induction lines with
  | nil => intro st _ e h; cases h
  | cons raw rest ih =>
    intro st hal e h
    rw [readLines] at h
    cases h₁ : readLine st raw with
    | error e₁ =>
      rw [h₁] at h
      cases h
      exact readLine_error_isThrow st hal raw _ h₁
    | ok st₁ =>
      rw [h₁] at h
      exact ih st₁ ((readLine_extends st st₁ raw h₁).2 hal) e h

theorem finish_of_aligned (c : GR1Context) (hal : c.TableAligned) : ∃ r, finish c = .ok r := by
  obtain ⟨ls, hcl, _⟩ := classifyVariables_eq c c.variables 0
    ⟨c.preVars, c.postVars, [], [], [], []⟩ (by rw [Nat.zero_add, hal.1, hal.2])
  exact ⟨_, finish_of_classify c ls hcl⟩

/-- The constructor fails only by one of the `throw`s of the program: the recursion
bound and the index checks of the embedding are never hit. -/
theorem construct_error_isThrow (inFile : Option Str) (e : SlugsError)
    (h : construct inFile = .error e) : e.IsThrow := by
  cases inFile with
  | none => cases h; trivial
  | some content =>
    have h' : ofLines (getlines content) = .error e := h
    unfold ofLines at h'
    cases hr : readLines (GR1Context.initial, -1) (getlines content) with
    | error e₁ =>
      rw [hr] at h'
      cases h'
      exact readLines_error_isThrow _ _ tableAligned_initial _ hr
    | ok st =>
      rw [hr] at h'
      obtain ⟨r, hfin⟩ := finish_of_aligned st.1
        ((readLines_extends _ _ st hr).2 tableAligned_initial)
      simp only [hfin] at h'
      cases h'

/-! ## Unknown headers and the exit code -/

theorem not_ignorable_of_bracket (raw : Str) (hb : StartsWithBracket raw) : ¬ Ignorable raw := by
  unfold StartsWithBracket at hb
  rintro (h | h)
  · rw [h] at hb; cases hb
  · rw [hb] at h; revert h; decide

theorem readLine_unknownHeader (st : GR1Context × Int) (raw : Str)
    (hb : StartsWithBracket raw) (hn : trim raw ∉ sectionHeaders) :
    readLine st raw = .error (.unknownCategory (trim raw)) := by
  rw [readLine_header st raw (not_ignorable_of_bracket raw hb) hb]
  exact readHeader_unknown _ _ hn

theorem readLines_unknownHeader : ∀ (lines : List Str) (st : GR1Context × Int),
    HasUnknownHeader lines → ∃ e, readLines st lines = .error e := by
  intro lines
  induction lines with
  | nil => rintro st ⟨raw, hmem, _⟩; cases hmem
  | cons l rest ih =>
    rintro st ⟨raw, hmem, hb, hn⟩
    rw [readLines]
    cases h₁ : readLine st l with
    | error e => exact ⟨e, rfl⟩
    | ok st₁ =>
      rcases List.mem_cons.mp hmem with rfl | hrest
      · rw [readLine_unknownHeader st raw hb hn] at h₁; cases h₁
      · exact ih st₁ ⟨raw, hrest, hb, hn⟩

theorem ofLines_unknownHeader (lines : List Str) (h : HasUnknownHeader lines) :
    ∃ e, ofLines lines = .error e := by
  obtain ⟨e, he⟩ := readLines_unknownHeader lines (GR1Context.initial, -1) h
  exact ⟨e, by unfold ofLines; rw [he]⟩

theorem main_of_construct_error (syn : Synthesis) (fileSystem : Str → Option Str)
    (args : List Str)
    (h : ∀ filename, ∃ e, construct (openInputFile fileSystem filename) = .error e) :
    main syn fileSystem args = .returned 1 := by
  unfold main
  cases hs : scanArguments args.tail ([], false) with
  | none => rfl
  | some p =>
    obtain ⟨filename, flag⟩ := p
    obtain ⟨e, he⟩ := h filename
    simp only [he]

theorem main_of_scan (syn : Synthesis) (fileSystem : Str → Option Str) (args : List Str)
    (filename : Str) (only : Bool) (e : SlugsError)
    (hs : scanArguments args.tail ([], false) = some (filename, only))
    (he : construct (openInputFile fileSystem filename) = .error e) :
    main syn fileSystem args = .returned 1 := by
  unfold main
  rw [hs]
  simp only [he]

/-- C9: a file with a line that, after trimming, starts with `[` and is not exactly one
of the eight section headers is never accepted: the construction fails with an error,
which is one of the `throw`s of the program.  Whenever `main` is run with arguments that
name such a file and the file opens, `main` returns `1`; more generally `main` returns
`1` for every argument list such that the file it opens, if it opens one, has such a
line. -/
theorem construct_unknown_header (content : Str) (h : HasUnknownHeader (getlines content)) :
    (∃ e, construct (some content) = .error e ∧ e.IsThrow) ∧
    (∀ ctx, construct (some content) ≠ .ok ctx) ∧
    (∀ (syn : Synthesis) (fileSystem : Str → Option Str) (args : List Str) (filename : Str)
      (only : Bool), scanArguments args.tail ([], false) = some (filename, only) →
      openInputFile fileSystem filename = some content →
      main syn fileSystem args = .returned 1) ∧
    (∀ (syn : Synthesis) (fileSystem : Str → Option Str) (args : List Str),
      (∀ (filename : Str) (only : Bool) (c : Str),
        scanArguments args.tail ([], false) = some (filename, only) →
        openInputFile fileSystem filename = some c → HasUnknownHeader (getlines c)) →
      main syn fileSystem args = .returned 1) := by
  obtain ⟨e, he⟩ := ofLines_unknownHeader _ h
  have herr : construct (some content) = .error e := he
  refine ⟨⟨e, herr, construct_error_isThrow _ e herr⟩,
    (fun ctx hc => by rw [herr] at hc; cases hc), ?_, ?_⟩
  · intro syn fs args filename only hs ho
    exact main_of_scan syn fs args filename only e hs (by rw [ho]; exact herr)
  · intro syn fs args hfs
    cases hs : scanArguments args.tail ([], false) with
    | none => unfold main; rw [hs]
    | some p =>
      obtain ⟨filename, only⟩ := p
      cases ho : openInputFile fs filename with
      | none => exact main_of_scan syn fs args filename only _ hs (by rw [ho]; rfl)
      | some c =>
        obtain ⟨e', he'⟩ := ofLines_unknownHeader _ (hfs filename only c hs ho)
        exact main_of_scan syn fs args filename only e' hs (by rw [ho]; exact he')

/-- The instance of C9 for a file with the header `[input]` in lower case, in a file
system that also has a well-formed file: `main` returns `1` when it is run on the
former. -/
theorem construct_unknown_header_witness :
    HasUnknownHeader (getlines bogusFile) ∧
      (∃ e, construct (some bogusFile) = .error e ∧ e.IsThrow) ∧
      main acceptingSynthesis mixedFileSystem ["slugs".toList, "bogus.slugs".toList] =
        .returned 1 ∧
      main acceptingSynthesis mixedFileSystem
        ["slugs".toList, "--onlyRealizability".toList, "bogus.slugs".toList] = .returned 1 ∧
      main acceptingSynthesis mixedFileSystem ["slugs".toList, "spec.slugs".toList] =
        .returned 0 :=
  ⟨by decide, (construct_unknown_header bogusFile (by decide)).1,
    (construct_unknown_header bogusFile (by decide)).2.2.1 acceptingSynthesis mixedFileSystem
      _ "bogus.slugs".toList false rfl rfl,
    (construct_unknown_header bogusFile (by decide)).2.2.1 acceptingSynthesis mixedFileSystem
      _ "bogus.slugs".toList true rfl rfl, by rfl⟩

/-- C10, the failing input: with the empty string as first argument and a file name as
second, two arguments do not start with `-`, and `main` returns `0`; with the same two
arguments in the other order `main` returns `1`. -/
theorem main_accepts_extra_positional :
    (positionalArguments ["slugs".toList, [], "spec.slugs".toList]).length = 2 ∧
      main acceptingSynthesis exampleFileSystem ["slugs".toList, [], "spec.slugs".toList] =
        .returned 0 ∧
      main acceptingSynthesis exampleFileSystem ["slugs".toList, "spec.slugs".toList, []] =
        .returned 1 :=
  ⟨by decide, by rfl, by rfl⟩

/-! ## The fixed-point helper -/

theorem BFFixedPoint.afterUpdates_concat {B : Type} [DecidableEq B] (init : B)
    (updates : List B) (x : B) :
    BFFixedPoint.afterUpdates init (updates ++ [x]) =
      (BFFixedPoint.afterUpdates init updates).update x := by
  simp [BFFixedPoint.afterUpdates, List.foldl_append]

theorem BFFixedPoint.getValue_update {B : Type} [DecidableEq B] (fp : BFFixedPoint B) (x : B) :
    (fp.update x).getValue = x := by
  unfold BFFixedPoint.update BFFixedPoint.getValue
  by_cases h : fp.currentValue = x
  · rw [if_pos h]; exact h
  · rw [if_neg h]

theorem BFFixedPoint.reached_update {B : Type} [DecidableEq B] (fp : BFFixedPoint B) (x : B) :
    (fp.update x).isFixedPointReached = true ↔
      fp.isFixedPointReached = true ∨ x = fp.getValue := by
  unfold BFFixedPoint.update BFFixedPoint.isFixedPointReached BFFixedPoint.getValue
  by_cases h : fp.currentValue = x
  · rw [if_pos h]; simp [h]
  · rw [if_neg h]
    constructor
    · intro hr; exact Or.inl hr
    · rintro (hr | hx)
      · exact hr
      · exact absurd hx.symm h

theorem BFFixedPoint.getValue_afterUpdates {B : Type} [DecidableEq B] (init : B)
    (updates : List B) :
    (BFFixedPoint.afterUpdates init updates).getValue = updates.getLast?.getD init := by
  induction updates using List.reverseRecOn with
  | nil => rfl
  | append_singleton us x _ =>
    rw [BFFixedPoint.afterUpdates_concat, BFFixedPoint.getValue_update]
    simp

theorem BFFixedPoint.reached_afterUpdates {B : Type} [DecidableEq B] (init : B)
    (updates : List B) :
    (BFFixedPoint.afterUpdates init updates).isFixedPointReached = true ↔
      ∃ pre x post, updates = pre ++ x :: post ∧
        x = (BFFixedPoint.afterUpdates init pre).getValue := by
  induction updates using List.reverseRecOn with
  | nil =>
    constructor
    · intro h; cases h
    · rintro ⟨pre, x, post, h, _⟩
      exact absurd h (by simp)
  | append_singleton us y ih =>
    rw [BFFixedPoint.afterUpdates_concat, BFFixedPoint.reached_update]
    constructor
    · rintro (h | h)
      · obtain ⟨pre, x, post, hu, hx⟩ := ih.mp h
        exact ⟨pre, x, post ++ [y], by rw [hu]; simp, hx⟩
      · exact ⟨us, y, [], rfl, h⟩
    · rintro ⟨pre, x, post, hu, hx⟩
      rcases List.eq_nil_or_concat post with hp | ⟨post', z, hp⟩
      · subst hp
        have h2 := List.append_inj' hu rfl
        obtain ⟨h3, h4⟩ := h2
        simp only [List.cons.injEq, and_true] at h4
        right
        rw [h3, h4]; exact hx
      · subst hp
        have hu' : us ++ [y] = (pre ++ x :: post') ++ [z] := by rw [hu]; simp
        have h2 := List.append_inj' hu' rfl
        left
        exact ih.mpr ⟨pre, x, post', h2.1, hx⟩

theorem BFFixedPoint.reached_mono {B : Type} [DecidableEq B] (init : B) (updates : List B) :
    ∀ more : List B, (BFFixedPoint.afterUpdates init updates).isFixedPointReached = true →
      (BFFixedPoint.afterUpdates init (updates ++ more)).isFixedPointReached = true := by
  intro more
  induction more using List.reverseRecOn with
  | nil => intro h; simpa using h
  | append_singleton ms x ih =>
    intro h
    rw [← List.append_assoc, BFFixedPoint.afterUpdates_concat, BFFixedPoint.reached_update]
    exact Or.inl (ih h)

/-- C16: after the constructor call and any finite sequence of calls of `update`,
`getValue` is the argument of the last call (the constructor argument if there was
none); `isFixedPointReached` is true exactly when some call so far had an argument equal
to the value held just before it, that is to the argument of the call before it (or the
constructor argument); and once it is true it stays true under further calls. -/
theorem BFFixedPoint.afterUpdates_spec {B : Type} [DecidableEq B] (init : B)
    (updates : List B) :
    (BFFixedPoint.afterUpdates init updates).getValue = updates.getLast?.getD init ∧
    ((BFFixedPoint.afterUpdates init updates).isFixedPointReached = true ↔
      ∃ pre x post, updates = pre ++ x :: post ∧
        x = (BFFixedPoint.afterUpdates init pre).getValue) ∧
    ((BFFixedPoint.afterUpdates init updates).isFixedPointReached = true ↔
      ∃ pre x post, updates = pre ++ x :: post ∧ x = pre.getLast?.getD init) ∧
    (∀ more : List B, (BFFixedPoint.afterUpdates init updates).isFixedPointReached = true →
      (BFFixedPoint.afterUpdates init (updates ++ more)).isFixedPointReached = true) := by
  refine ⟨BFFixedPoint.getValue_afterUpdates init updates,
    BFFixedPoint.reached_afterUpdates init updates, ?_,
    BFFixedPoint.reached_mono init updates⟩
  rw [BFFixedPoint.reached_afterUpdates]
  constructor
  · rintro ⟨pre, x, post, h1, h2⟩
    exact ⟨pre, x, post, h1, by rw [h2, BFFixedPoint.getValue_afterUpdates]⟩
  · rintro ⟨pre, x, post, h1, h2⟩
    exact ⟨pre, x, post, h1, by rw [h2, BFFixedPoint.getValue_afterUpdates]⟩

/-- The instance of C16 for the iterates 3, 5, 5, 7 from the initial value 0: the value
is 7, and the fixed point was reached (at the second 5) and stays reached after one more
call. -/
theorem BFFixedPoint.afterUpdates_spec_witness :
    (BFFixedPoint.afterUpdates (0 : Nat) [3, 5, 5, 7]).getValue = 7 ∧
      (BFFixedPoint.afterUpdates (0 : Nat) [3, 5, 5]).isFixedPointReached = true ∧
      (BFFixedPoint.afterUpdates (0 : Nat) ([3, 5, 5] ++ [7])).isFixedPointReached = true :=
  ⟨(BFFixedPoint.afterUpdates_spec (0 : Nat) [3, 5, 5, 7]).1, by decide,
    (BFFixedPoint.afterUpdates_spec (0 : Nat) [3, 5, 5]).2.2.2 [7] (by decide)⟩

/-! ## Line numbers -/

theorem contentEffect_lineCounter (c c' : GR1Context) (l : Str) (m : Int)
    (h : ContentEffect c l m c') : c'.lineNumberCurrentlyRead = c.lineNumberCurrentlyRead := by
  cases h <;> rfl

theorem readLine_lineCounter (st st' : GR1Context × Int) (raw : Str)
    (h : readLine st raw = .ok st') :
    st'.1.lineNumberCurrentlyRead = (st.1.lineNumberCurrentlyRead + 1) % 2 ^ 32 := by
  rcases readLine_ok_cases st st' raw h with ⟨_, rfl⟩ | ⟨_, _, k, _, rfl⟩ | ⟨_, _, _, he⟩
  · rfl
  · rfl
  · rw [contentEffect_lineCounter _ _ _ _ he]; rfl

theorem readLines_lineCounter : ∀ (lines : List Str) (st st' : GR1Context × Int),
    readLines st lines = .ok st' →
      st'.1.lineNumberCurrentlyRead % 2 ^ 32 =
        (st.1.lineNumberCurrentlyRead + lines.length) % 2 ^ 32 := by
  intro lines
  induction lines with
  | nil => intro st st' h; cases h; rfl
  | cons raw rest ih =>
    intro st st' h
    rw [readLines] at h
    cases h1 : readLine st raw with
    | error e => rw [h1] at h; cases h
    | ok st₁ =>
      rw [h1] at h
      rw [ih st₁ st' h, readLine_lineCounter st st₁ raw h1, List.length_cons]
      omega

theorem readContent_error_lineNumber (c : GR1Context) (hal : c.TableAligned) (m : Int)
    (l : Str) (e : SlugsError) (h : readContent c m l = .error e) :
    e.lineNumber = some c.lineNumberCurrentlyRead := by
  have key : ∀ (roles : RoleSet) (g : BF → GR1Context × Int),
      (match c.parseBooleanFormula l roles with
        | .error e => Except.error e
        | .ok f => .ok (g f)) = .error e → e.lineNumber = some c.lineNumberCurrentlyRead := by
    intro roles g hg
    cases hp : c.parseBooleanFormula l roles with
    | error e' =>
      rw [hp] at hg; cases hg
      rcases parseBooleanFormula_error_spec c roles l hal e hp with ⟨rfl, _⟩ | ⟨n, rfl, _⟩ |
        ⟨n, rfl, _⟩ | ⟨w, rfl, _⟩ <;> rfl
    | ok f => rw [hp] at hg; cases hg
  rcases readContent_cases c m l with ⟨_, hr⟩ | ⟨_, hr⟩ | ⟨_, hr⟩ | ⟨_, hr⟩ | ⟨_, hr⟩ |
      ⟨_, hr⟩ | ⟨_, hr⟩ | ⟨_, hr⟩ | hr
  · rw [hr] at h; cases h
  · rw [hr] at h; cases h
  · rw [hr] at h; exact key _ _ h
  · rw [hr] at h; exact key _ _ h
  · rw [hr] at h; exact key _ _ h
  · rw [hr] at h; exact key _ _ h
  · rw [hr] at h; exact key _ _ h
  · rw [hr] at h; exact key _ _ h
  · rw [hr] at h; cases h; rfl

/-- An error raised for a line is the unknown-header error, which cites the line but no
number, or cites the value of the line counter after its increment. -/
theorem readLine_error_lineNumber (st : GR1Context × Int) (hal : st.1.TableAligned)
    (raw : Str) (e : SlugsError) (h : readLine st raw = .error e) :
    (StartsWithBracket raw ∧ e = .unknownCategory (trim raw)) ∨
    (¬ StartsWithBracket raw ∧
      e.lineNumber = some ((st.1.lineNumberCurrentlyRead + 1) % 2 ^ 32)) := by
  by_cases hi : Ignorable raw
  · rw [readLine_ignorable st raw hi] at h; cases h
  · by_cases hb : StartsWithBracket raw
    · left
      rw [readLine_header st raw hi hb] at h
      rcases readHeader_cases (trim raw) with ⟨k, _, hr⟩ | ⟨_, hr⟩
      · rw [hr] at h; cases h
      · rw [hr] at h; cases h; exact ⟨hb, rfl⟩
    · right
      rw [readLine_content st raw hi hb] at h
      exact ⟨hb, readContent_error_lineNumber st.1.nextLine hal _ _ _ h⟩

theorem readLines_error_split : ∀ (lines : List Str) (st : GR1Context × Int) (e : SlugsError),
    readLines st lines = .error e →
      ∃ pre raw post st₁, lines = pre ++ raw :: post ∧ readLines st pre = .ok st₁ ∧
        readLine st₁ raw = .error e := by
  intro lines
  induction lines with
  | nil => intro st e h; cases h
  | cons l rest ih =>
    intro st e h
    rw [readLines] at h
    cases h1 : readLine st l with
    | error e' =>
      rw [h1] at h; cases h
      exact ⟨[], l, rest, st, rfl, rfl, h1⟩
    | ok st₁ =>
      rw [h1] at h
      obtain ⟨pre, raw, post, st₂, hl, hp, hr⟩ := ih st₁ e h
      refine ⟨l :: pre, raw, post, st₂, by rw [hl]; rfl, ?_, hr⟩
      rw [readLines, h1]; exact hp

/-- Every error of the constructor on a file that could be opened is raised for one
line of the file: for a line that starts with `[`, with the text of the line and no
number, and otherwise with the 1-based index of the line, reduced modulo `2 ^ 32`. -/
theorem construct_error_lineNumber (content : Str) (e : SlugsError)
    (h : construct (some content) = .error e) :
    ∃ pre raw post, getlines content = pre ++ raw :: post ∧
      ((StartsWithBracket raw ∧ e = .unknownCategory (trim raw)) ∨
       (¬ StartsWithBracket raw ∧ e.lineNumber = some ((pre.length + 1) % 2 ^ 32))) := by
  have h' : ofLines (getlines content) = .error e := h
  unfold ofLines at h'
  cases hr : readLines (GR1Context.initial, -1) (getlines content) with
  | error e₁ =>
    rw [hr] at h'
    cases h'
    obtain ⟨pre, raw, post, st₁, hl, hp, hline⟩ := readLines_error_split _ _ _ hr
    refine ⟨pre, raw, post, hl, ?_⟩
    have hal : st₁.1.TableAligned := (readLines_extends pre _ st₁ hp).2 tableAligned_initial
    have hc := readLines_lineCounter pre _ st₁ hp
    rcases readLine_error_lineNumber st₁ hal raw e hline with hx | ⟨hb, hx⟩
    · exact Or.inl hx
    · right
      refine ⟨hb, ?_⟩
      rw [hx]
      have h0 : (GR1Context.initial, (-1 : Int)).1.lineNumberCurrentlyRead = 0 := rfl
      rw [h0, Nat.zero_add] at hc
      congr 1
      omega
  | ok st =>
    rw [hr] at h'
    have hal : st.1.TableAligned :=
      (readLines_extends _ _ st hr).2 tableAligned_initial
    obtain ⟨r, hfin⟩ := finish_of_aligned st.1 hal
    simp only [hfin] at h'
    cases h'

/-! ## Lines before the first header -/

theorem readLines_ignorable : ∀ (lines : List Str) (st : GR1Context × Int),
    (∀ l ∈ lines, Ignorable l) → ∃ st', readLines st lines = .ok st' := by
  intro lines
  induction lines with
  | nil => intro st _; exact ⟨st, rfl⟩
  | cons l rest ih =>
    intro st hl
    rw [readLines, readLine_ignorable st l (hl l (List.mem_cons_self _ _))]
    exact ih _ (fun x hx => hl x (List.mem_cons_of_mem _ hx))

theorem readLines_headless : ∀ (lines : List Str) (st st' : GR1Context × Int),
    (∀ l ∈ lines, Ignorable l ∨ (StartsWithBracket l ∧ trim l ∉ sectionHeaders)) →
    readLines st lines = .ok st' →
      st'.1.withoutLineCounter = st.1.withoutLineCounter ∧ st'.2 = st.2 := by
  intro lines
  induction lines with
  | nil => intro st st' _ h; cases h; exact ⟨rfl, rfl⟩
  | cons l rest ih =>
    intro st st' hl h
    rw [readLines] at h
    rcases hl l (List.mem_cons_self _ _) with hi | ⟨hb, hn⟩
    · rw [readLine_ignorable st l hi] at h
      exact ih (st.1.nextLine, st.2) st' (fun x hx => hl x (List.mem_cons_of_mem _ hx)) h
    · rw [readLine_unknownHeader st l hb hn] at h; cases h

theorem readLine_headless (st : GR1Context × Int) (raw : Str) (hm : st.2 = -1)
    (hi : ¬ Ignorable raw) (hb : ¬ StartsWithBracket raw) :
    readLine st raw =
      .error (.noCategorialContext ((st.1.lineNumberCurrentlyRead + 1) % 2 ^ 32)) := by
  rw [readLine_content st raw hi hb, hm]
  rcases readContent_cases st.1.nextLine (-1) (trim raw) with ⟨hx, _⟩ | ⟨hx, _⟩ | ⟨hx, _⟩ |
      ⟨hx, _⟩ | ⟨hx, _⟩ | ⟨hx, _⟩ | ⟨hx, _⟩ | ⟨hx, _⟩ | hr
  all_goals first
    | exact absurd hx (by decide)
    | exact hr

/-- C19: when the first line of a file that is neither blank, nor a comment, nor
starting with `[` comes before any section header, the construction fails with one of
the `throw`s of the program.  If the line is reached at all (no earlier line starts
with `[`, such a line not being a section header), the context is still the initial
one, the line is answered with the error for a line without section, citing the index
of the line, and so nothing is declared or parsed from it. -/
theorem construct_line_before_header (content : Str) (pre post : List Str) (raw : Str)
    (hfile : getlines content = pre ++ raw :: post)
    (hpre : ∀ l ∈ pre, Ignorable l ∨ (StartsWithBracket l ∧ trim l ∉ sectionHeaders))
    (hi : ¬ Ignorable raw) (hb : ¬ StartsWithBracket raw) :
    (∃ e, construct (some content) = .error e ∧ e.IsThrow) ∧
    ((∀ l ∈ pre, Ignorable l) →
      construct (some content) =
        .error (.noCategorialContext ((pre.length + 1) % 2 ^ 32))) ∧
    (∀ st, readLines (GR1Context.initial, -1) pre = .ok st →
      st.1.withoutLineCounter = GR1Context.initial.withoutLineCounter ∧ st.2 = -1 ∧
      readLine st raw = .error (.noCategorialContext ((pre.length + 1) % 2 ^ 32))) := by
  have hstate : ∀ st, readLines (GR1Context.initial, -1) pre = .ok st →
      st.1.withoutLineCounter = GR1Context.initial.withoutLineCounter ∧ st.2 = -1 ∧
      readLine st raw = .error (.noCategorialContext ((pre.length + 1) % 2 ^ 32)) := by
    intro st hst
    obtain ⟨h1, h2⟩ := readLines_headless pre _ st hpre hst
    refine ⟨h1, h2, ?_⟩
    rw [readLine_headless st raw h2 hi hb]
    have hc := readLines_lineCounter pre _ st hst
    have h0 : (GR1Context.initial, (-1 : Int)).1.lineNumberCurrentlyRead = 0 := rfl
    rw [h0, Nat.zero_add] at hc
    congr 2
    omega
  have hall : ∀ st, readLines (GR1Context.initial, -1) pre = .ok st →
      construct (some content) =
        .error (.noCategorialContext ((pre.length + 1) % 2 ^ 32)) := by
    intro st hst
    show ofLines (getlines content) = _
    unfold ofLines
    rw [hfile, readLines_append, hst]
    simp only [readLines, (hstate st hst).2.2]
  refine ⟨?_, ?_, hstate⟩
  · cases hst : readLines (GR1Context.initial, -1) pre with
    | ok st => exact ⟨_, hall st hst, trivial⟩
    | error e =>
      have herr : construct (some content) = .error e := by
        show ofLines (getlines content) = _
        unfold ofLines
        rw [hfile, readLines_append, hst]
      exact ⟨e, herr, construct_error_isThrow _ e herr⟩
  · intro hign
    obtain ⟨st, hst⟩ := readLines_ignorable pre (GR1Context.initial, -1) hign
    exact hall st hst

/-- The instance of C19 for a file with a comment, a blank line and then the line ` x `
before the header `[INPUT]`: the error cites line 3. -/
theorem construct_line_before_header_witness :
    construct (some headlessFile) = .error (.noCategorialContext 3) :=
  (construct_line_before_header headlessFile ["# inputs".toList, []] ["[INPUT]".toList,
    "y".toList] " x ".toList (by decide) (by decide) (by decide) (by decide)).2.1 (by decide)

/-- C13, the failing input: for a file whose third line is the unknown header `[input]`
the constructor fails with the error that cites the text of the line and no line number,
whereas a declaration before any header in the third line of a file is answered with an
error that cites the number 3. -/
theorem unknownCategory_cites_no_line :
    construct (some bogusFile) = .error (.unknownCategory "[input]".toList) ∧
      (SlugsError.unknownCategory "[input]".toList).lineNumber = none ∧
      construct (some headlessFile) = .error (.noCategorialContext 3) ∧
      (SlugsError.noCategorialContext 3).lineNumber = some 3 :=
  ⟨by rfl, by rfl, by rfl, by rfl⟩

/-! ## Declaration lines -/

theorem readLines_mode_of_section (pre : List Str) (st : GR1Context × Int) (j : Nat)
    (hj : j < 8) (hst : readLines (GR1Context.initial, -1) pre = .ok st)
    (hsec : sectionAfter none pre = sectionHeaders[j]?) : st.2 = (j : Int) :=
  (modeOf_iff _ st.2 (readLines_modeOf pre (GR1Context.initial, -1) st none rfl hst) j hj).mp
    hsec

theorem finish_variableNames (c c' : GR1Context) (h : finish c = .ok c') :
    c'.variableNames = c.variableNames ∧ c'.variableTypes = c.variableTypes ∧
      c'.variables = c.variables ∧ c'.mgr = c.mgr := by
  obtain ⟨ls, _, rfl⟩ := finish_ok c c' h
  exact ⟨rfl, rfl, rfl, rfl⟩

/-- C14 as amended: a line under `[INPUT]` or `[OUTPUT]` that is neither blank, nor a
comment, nor starting with `[` is never rejected, whatever its text is (an operator
token, a text with inner whitespace): it is read without error and its trimmed text and
the text with a prime appended are added to the variable table with the roles of the
section; the name is in the table of every context constructed from a file that goes on
from there. -/
theorem readLine_declares_any_name (pre : List Str) (raw : Str) (st : GR1Context × Int)
    (hst : readLines (GR1Context.initial, -1) pre = .ok st)
    (hsec : sectionAfter none pre = some "[INPUT]".toList ∨
      sectionAfter none pre = some "[OUTPUT]".toList)
    (hi : ¬ Ignorable raw) (hb : ¬ StartsWithBracket raw) :
    (∃ st', readLines (GR1Context.initial, -1) (pre ++ [raw]) = .ok st' ∧
      st'.1.variableNames = st.1.variableNames ++ [trim raw, trim raw ++ [primeChar]] ∧
      st'.1.variableTypes = st.1.variableTypes ++
        (if sectionAfter none pre = some "[INPUT]".toList then [.PreInput, .PostInput]
         else [.PreOutput, .PostOutput])) ∧
    (∀ post ctx, ofLines (pre ++ raw :: post) = .ok ctx →
      trim raw ∈ ctx.variableNames ∧ trim raw ++ [primeChar] ∈ ctx.variableNames) := by
  have hline : ∃ st', readLine st raw = .ok st' ∧
      st'.1.variableNames = st.1.variableNames ++ [trim raw, trim raw ++ [primeChar]] ∧
      st'.1.variableTypes = st.1.variableTypes ++
        (if sectionAfter none pre = some "[INPUT]".toList then [.PreInput, .PostInput]
         else [.PreOutput, .PostOutput]) := by
    rw [readLine_content st raw hi hb]
    rcases hsec with hs | hs
    · have hm : st.2 = ((0 : Nat) : Int) := readLines_mode_of_section pre st 0 (by decide) hst hs
      rw [hm, if_pos hs]
      exact ⟨_, rfl, rfl, rfl⟩
    · have hm : st.2 = ((1 : Nat) : Int) := readLines_mode_of_section pre st 1 (by decide) hst hs
      have hne : ¬ sectionAfter none pre = some "[INPUT]".toList := by
        rw [hs]; decide
      rw [hm, if_neg hne]
      exact ⟨_, rfl, rfl, rfl⟩
  obtain ⟨st', hl, hn, ht⟩ := hline
  refine ⟨⟨st', ?_, hn, ht⟩, ?_⟩
  · rw [readLines_append, hst]
    simp only [readLines, hl]
  · intro post ctx hctx
    obtain ⟨stf, hr, hfin⟩ := ofLines_ok _ ctx hctx
    rw [readLines_append, hst] at hr
    simp only [readLines, hl] at hr
    obtain ⟨⟨more, hmore⟩, _, _⟩ := (readLines_extends post st' stf hr).1
    rw [(finish_variableNames _ _ hfin).1, hmore, hn]
    simp

/-- The instance of C14 as amended for the line `|` under `[INPUT]`. -/
theorem readLine_declares_any_name_witness :
    ∃ st', readLines (GR1Context.initial, -1) (["[INPUT]".toList] ++ ["|".toList]) = .ok st' ∧
      st'.1.variableNames = [] ++ ["|".toList, "|".toList ++ [primeChar]] ∧
      st'.1.variableTypes = [] ++ [.PreInput, .PostInput] :=
  (readLine_declares_any_name ["[INPUT]".toList] "|".toList
    (GR1Context.initial.nextLine, 0) rfl (Or.inl (by decide)) (by decide) (by decide)).1

/-- C14, the counterexample: a file that declares the inputs `|` and `1` and the output
`a b` is accepted, and the three names and their primed copies are in the variable
table. -/
theorem construct_accepts_operator_names :
    ∃ ctx, construct (some operatorNamesFile) = .ok ctx ∧
      ctx.variableNames = ["|".toList, "|".toList ++ [primeChar], "1".toList,
        "1".toList ++ [primeChar], "a b".toList, "a b".toList ++ [primeChar]] ∧
      ctx.variableTypes = [.PreInput, .PostInput, .PreInput, .PostInput, .PreOutput,
        .PostOutput] :=
  ⟨_, rfl, rfl, rfl⟩

/-! ## The command line -/

theorem scanArguments_no_positional : ∀ (rest : List Str) (filename : Str) (only : Bool)
    (p : Str × Bool), rest.filter (fun arg => arg.head? ≠ some '-') = [] →
      scanArguments rest (filename, only) = some p → p.1 = filename := by
  intro rest
  induction rest with
  | nil => intro filename only p _ h; cases h; rfl
  | cons arg rest ih =>
    intro filename only p hf h
    by_cases hd : arg.head? = some '-'
    · have hf' : rest.filter (fun arg => arg.head? ≠ some '-') = [] := by
        simpa [List.filter_cons, hd] using hf
      rw [scanArguments, if_pos hd] at h
      by_cases ho : arg = "--onlyRealizability".toList
      · rw [if_pos ho] at h; exact ih filename true p hf' h
      · rw [if_neg ho] at h; cases h
    · simp [List.filter_cons, hd] at hf

/-- With no argument that does not start with `-`, `main` returns `1`. -/
theorem main_no_positional (syn : Synthesis) (fileSystem : Str → Option Str) (args : List Str)
    (h : positionalArguments args = []) : main syn fileSystem args = .returned 1 := by
  unfold main
  cases hs : scanArguments args.tail ([], false) with
  | none => rfl
  | some p =>
    obtain ⟨filename, only⟩ := p
    have hf : filename = [] := scanArguments_no_positional args.tail [] false _ h hs
    subst hf
    rfl

theorem scanArguments_names : ∀ (rest : List Str) (filename : Str) (only : Bool)
    (p : Str × Bool), scanArguments rest (filename, only) = some p →
      (if filename = [] then [] else [filename]) ++
          (rest.filter (fun arg => arg.head? ≠ some '-')).filter (fun arg => arg ≠ []) =
        (if p.1 = [] then [] else [p.1]) := by
  intro rest
  induction rest with
  | nil => intro filename only p h; cases h; simp
  | cons arg rest ih =>
    intro filename only p h
    by_cases hd : arg.head? = some '-'
    · rw [scanArguments, if_pos hd] at h
      by_cases ho : arg = "--onlyRealizability".toList
      · rw [if_pos ho] at h
        have := ih filename true p h
        simpa [List.filter_cons, hd] using this
      · rw [if_neg ho] at h; cases h
    · rw [scanArguments, if_neg hd] at h
      by_cases hfn : filename = []
      · rw [if_pos hfn] at h
        have := ih arg only p h
        rw [← this, hfn]
        by_cases ha : arg = [] <;> simp [List.filter_cons, hd, ha]
      · rw [if_neg hfn] at h; cases h

/-- When `main` returns `0`, exactly one of the arguments that do not start with `-` is
not the empty string. -/
theorem main_zero_names (syn : Synthesis) (fileSystem : Str → Option Str) (args : List Str)
    (h : main syn fileSystem args = .returned 0) :
    ((positionalArguments args).filter (fun arg => arg ≠ [])).length = 1 := by
  unfold main at h
  cases hs : scanArguments args.tail ([], false) with
  | none => rw [hs] at h; cases h
  | some p =>
    obtain ⟨filename, only⟩ := p
    have hn := scanArguments_names args.tail [] false _ hs
    simp only [if_true, List.nil_append] at hn
    by_cases hf : filename = []
    · subst hf
      rw [hs] at h
      cases h
    · unfold positionalArguments
      rw [hn]
      simp [hf]

theorem scanArguments_replicate (k : Nat) (rest : List Str) (only : Bool) :
    scanArguments (List.replicate k [] ++ rest) ([], only) = scanArguments rest ([], only) := by
  induction k with
  | zero => rfl
  | succ k ih =>
    rw [List.replicate_succ, List.cons_append, scanArguments]
    rw [if_neg (by decide), if_pos rfl]
    exact ih

theorem positionalArguments_padded (k : Nat) :
    positionalArguments (paddedArguments k) = List.replicate k [] ++ ["spec.slugs".toList] := by
  unfold positionalArguments paddedArguments
  simp only [List.tail_cons]
  induction k with
  | zero => decide
  | succ k ih =>
    rw [List.replicate_succ, List.cons_append, List.filter_cons, if_pos (by decide), ih]

/-- C11, the failing inputs: with any number `k` of empty strings before the file name,
`k + 1` arguments do not start with `-`, and `main` reads the file and returns `0`. -/
theorem main_accepts_padded_arguments (k : Nat) :
    (positionalArguments (paddedArguments k)).length = k + 1 ∧
      main acceptingSynthesis exampleFileSystem (paddedArguments k) = .returned 0 := by
  constructor
  · rw [positionalArguments_padded]; simp
  · unfold main paddedArguments
    rw [List.tail_cons, scanArguments_replicate]
    rfl

/-! ## Resolution of declared names -/

theorem conjunction_perm (fs fs' : List BF) (h : fs.Perm fs') :
    conjunction fs = conjunction fs' := by
  unfold conjunction
  congr 1
  funext a
  rw [Bool.eq_iff_iff]
  simp only [List.all_eq_true]
  exact ⟨fun hx f hf => hx f (h.mem_iff.mpr hf), fun hx f hf => hx f (h.mem_iff.mp hf)⟩

theorem conjunction_concat (fs : List BF) (f : BF) :
    conjunction (fs ++ [f]) = (conjunction fs).and f := by
  unfold conjunction BF.and
  congr 1
  funext a
  simp [List.all_append]

theorem contentEffect_constraints (c c' : GR1Context) (l : Str) (m : Int)
    (h : ContentEffect c l m c') :
    (m ≠ 2 → c'.initEnv = c.initEnv) ∧ (m ≠ 3 → c'.initSys = c.initSys) ∧
    (m ≠ 4 → c'.safetyEnv = c.safetyEnv) ∧ (m ≠ 5 → c'.safetySys = c.safetySys) := by
  cases h <;> refine ⟨?_, ?_, ?_, ?_⟩ <;> intro hm <;> first | rfl | exact absurd rfl hm

/-- While the lines of a file are read, a constraint that is changed only by the formula
lines of one section, each time by a conjunction with the function of the line, is the
conjunction of the functions of the lines read so far in that section. -/
theorem readLines_constraint (j : Nat) (hj : j < 8) (header : Str)
    (hheader : sectionHeaders[j]? = some header) (roles : RoleSet) (get : GR1Context → BF)
    (hnext : ∀ c, get c.nextLine = get c)
    (hother : ∀ c c' l (m : Int), m ≠ (j : Int) → ContentEffect c l m c' → get c' = get c)
    (hsame : ∀ c c' l, ContentEffect c l (j : Int) c' →
      ∃ f, c.parseBooleanFormula l roles = .ok f ∧ get c' = (get c).and f)
    (hinit : get GR1Context.initial = conjunction [])
    (lines : List Str) (st' : GR1Context × Int)
    (h : readLines (GR1Context.initial, -1) lines = .ok st') :
    ∃ fs, List.Forall₂ (fun l f => st'.1.parseBooleanFormula l roles = .ok f)
        (linesUnder header lines) fs ∧ get st'.1 = conjunction fs := by
  have := readLines_under j hj header hheader
    (fun c L => c.TableAligned ∧
      ∃ fs, List.Forall₂ (fun l f => c.parseBooleanFormula l roles = .ok f) L fs ∧
        get c = conjunction fs)
    ?_ ?_ ?_ lines (GR1Context.initial, -1) st' none [] rfl
    tableAligned_initial ⟨tableAligned_initial, [], List.Forall₂.nil, hinit⟩ h
  · simpa [linesUnder] using this.2
  · intro c L ⟨hal, fs, hF, hg⟩
    exact ⟨hal, fs, forall₂_parse_extends c c.nextLine (extends_refl c) hal hal _ _ _ hF,
      by rw [hnext]; exact hg⟩
  · intro c c' l m L hm he hal ⟨_, fs, hF, hg⟩
    obtain ⟨hext, hal'⟩ := contentEffect_extends c c' l m he
    exact ⟨hal' hal, fs, forall₂_parse_extends c c' hext hal (hal' hal) _ _ _ hF,
      by rw [hother c c' l m hm he]; exact hg⟩
  · intro c c' l L he hal ⟨_, fs, hF, hg⟩
    obtain ⟨hext, hal'⟩ := contentEffect_extends c c' l _ he
    obtain ⟨f, hf, hget⟩ := hsame c c' l he
    refine ⟨hal' hal, fs ++ [f], ?_, ?_⟩
    · exact List.rel_append (forall₂_parse_extends c _ hext hal (hal' hal) _ _ _ hF)
        (List.Forall₂.cons (parseBooleanFormula_extends c _ hext hal (hal' hal) l _ f hf)
          List.Forall₂.nil)
    · rw [hget, hg, conjunction_concat]

theorem readLines_initEnv (lines : List Str) (st' : GR1Context × Int)
    (h : readLines (GR1Context.initial, -1) lines = .ok st') :
    ∃ fs, List.Forall₂ (fun l f => st'.1.parseBooleanFormula l allowedEnvInit = .ok f)
        (linesUnder "[ENV_INIT]".toList lines) fs ∧ st'.1.initEnv = conjunction fs := by
  refine readLines_constraint 2 (by decide) _ rfl allowedEnvInit (fun c => c.initEnv)
    (fun c => rfl) ?_ ?_ rfl lines st' h
  · intro c c' l m hm he
    exact (contentEffect_constraints c c' l m he).1 (by simpa using hm)
  · intro c c' l he
    rcases contentEffect_inv c c' l _ he with ⟨hm, _⟩ | ⟨hm, _⟩ | ⟨_, f, hf, rfl⟩ | ⟨hm, _⟩ |
        ⟨hm, _⟩ | ⟨hm, _⟩ | ⟨hm, _⟩ | ⟨hm, _⟩
    all_goals first | (exfalso; revert hm; decide) | skip
    exact ⟨f, hf, rfl⟩

theorem readLines_initSys (lines : List Str) (st' : GR1Context × Int)
    (h : readLines (GR1Context.initial, -1) lines = .ok st') :
    ∃ fs, List.Forall₂ (fun l f => st'.1.parseBooleanFormula l allowedSysInit = .ok f)
        (linesUnder "[SYS_INIT]".toList lines) fs ∧ st'.1.initSys = conjunction fs := by
  refine readLines_constraint 3 (by decide) _ rfl allowedSysInit (fun c => c.initSys)
    (fun c => rfl) ?_ ?_ rfl lines st' h
  · intro c c' l m hm he
    exact (contentEffect_constraints c c' l m he).2.1 (by simpa using hm)
  · intro c c' l he
    rcases contentEffect_inv c c' l _ he with ⟨hm, _⟩ | ⟨hm, _⟩ | ⟨hm, _⟩ | ⟨_, f, hf, rfl⟩ |
        ⟨hm, _⟩ | ⟨hm, _⟩ | ⟨hm, _⟩ | ⟨hm, _⟩
    all_goals first | (exfalso; revert hm; decide) | skip
    exact ⟨f, hf, rfl⟩

theorem readLines_safetyEnv (lines : List Str) (st' : GR1Context × Int)
    (h : readLines (GR1Context.initial, -1) lines = .ok st') :
    ∃ fs, List.Forall₂ (fun l f => st'.1.parseBooleanFormula l allowedEnv = .ok f)
        (linesUnder "[ENV_TRANS]".toList lines) fs ∧ st'.1.safetyEnv = conjunction fs := by
  refine readLines_constraint 4 (by decide) _ rfl allowedEnv (fun c => c.safetyEnv)
    (fun c => rfl) ?_ ?_ rfl lines st' h
  · intro c c' l m hm he
    exact (contentEffect_constraints c c' l m he).2.2.1 (by simpa using hm)
  · intro c c' l he
    rcases contentEffect_inv c c' l _ he with ⟨hm, _⟩ | ⟨hm, _⟩ | ⟨hm, _⟩ | ⟨hm, _⟩ |
        ⟨_, f, hf, rfl⟩ | ⟨hm, _⟩ | ⟨hm, _⟩ | ⟨hm, _⟩
    all_goals first | (exfalso; revert hm; decide) | skip
    exact ⟨f, hf, rfl⟩

theorem readLines_safetySys (lines : List Str) (st' : GR1Context × Int)
    (h : readLines (GR1Context.initial, -1) lines = .ok st') :
    ∃ fs, List.Forall₂ (fun l f => st'.1.parseBooleanFormula l allowedSys = .ok f)
        (linesUnder "[SYS_TRANS]".toList lines) fs ∧ st'.1.safetySys = conjunction fs := by
  refine readLines_constraint 5 (by decide) _ rfl allowedSys (fun c => c.safetySys)
    (fun c => rfl) ?_ ?_ rfl lines st' h
  · intro c c' l m hm he
    exact (contentEffect_constraints c c' l m he).2.2.2 (by simpa using hm)
  · intro c c' l he
    rcases contentEffect_inv c c' l _ he with ⟨hm, _⟩ | ⟨hm, _⟩ | ⟨hm, _⟩ | ⟨hm, _⟩ |
        ⟨hm, _⟩ | ⟨_, f, hf, rfl⟩ | ⟨hm, _⟩ | ⟨hm, _⟩
    all_goals first | (exfalso; revert hm; decide) | skip
    exact ⟨f, hf, rfl⟩

theorem isConjunctionOf_finish (st : GR1Context × Int) (ctx : GR1Context)
    (hal : st.1.TableAligned) (hfin : finish st.1 = .ok ctx) (roles : RoleSet)
    (ls : List Str) (g : BF)
    (h : ∃ fs, List.Forall₂ (fun l f => st.1.parseBooleanFormula l roles = .ok f) ls fs ∧
      g = conjunction fs) :
    ctx.IsConjunctionOf roles ls g := by
  obtain ⟨fs, hF, hg⟩ := h
  obtain ⟨hn, ht, hv, _⟩ := finish_variableNames _ _ hfin
  refine ⟨fs, forall₂_parse_extends st.1 ctx (extends_of_table _ _ hn ht hv) hal
    (tableAligned_of_table _ _ hn ht hv hal) _ _ _ hF, fun fs' hp => ?_⟩
  rw [hg]; exact conjunction_perm fs fs' hp

theorem finish_constraints (c c' : GR1Context) (h : finish c = .ok c') :
    c'.initEnv = c.initEnv ∧ c'.initSys = c.initSys ∧ c'.safetyEnv = c.safetyEnv ∧
      c'.safetySys = c.safetySys := by
  obtain ⟨ls, _, rfl⟩ := finish_ok c c' h
  exact ⟨rfl, rfl, rfl, rfl⟩

theorem forall₂_eq_map {α β : Type} (R : α → β → Prop) (g : α → β)
    (hR : ∀ a b, R a b → g a = b) : ∀ (l : List α) (m : List β), List.Forall₂ R l m →
      m = l.map g := by
  intro l m h
  induction h with
  | nil => rfl
  | cons hab _ ih => rw [List.map_cons, hR _ _ hab, ← ih]

/-- Two contexts with the same names and roles in their variable tables give the same
conjunction for two lists of lines that are permutations of each other. -/
theorem isConjunctionOf_perm (c₁ c₂ : GR1Context) (hal₁ : c₁.TableAligned)
    (hal₂ : c₂.TableAligned) (hfr₁ : c₁.FreshVariables) (hfr₂ : c₂.FreshVariables)
    (hn : c₂.variableNames = c₁.variableNames) (ht : c₂.variableTypes = c₁.variableTypes)
    (roles : RoleSet) (ls₁ ls₂ : List Str) (g₁ g₂ : BF) (hp : ls₁.Perm ls₂)
    (h₁ : c₁.IsConjunctionOf roles ls₁ g₁) (h₂ : c₂.IsConjunctionOf roles ls₂ g₂) :
    g₁ = g₂ := by
  have hv : c₂.variables = c₁.variables := by
    rw [hfr₂.2, hfr₁.2, hal₁.1, hal₂.1, hn]
  obtain ⟨fs₁, hF₁, hg₁⟩ := h₁
  obtain ⟨fs₂, hF₂, hg₂⟩ := h₂
  have hF₂' := forall₂_parse_extends c₂ c₁ (extends_of_table _ _ hn.symm ht.symm hv.symm) hal₂
    hal₁ _ _ _ hF₂
  let g : Str → BF := fun l =>
    match c₁.parseBooleanFormula l roles with
    | .ok f => f
    | .error _ => conjunction []
  have hg : ∀ l f, c₁.parseBooleanFormula l roles = .ok f → g l = f := by
    intro l f hl
    show (match c₁.parseBooleanFormula l roles with
      | .ok f => f
      | .error _ => conjunction []) = f
    rw [hl]
  have e₁ := forall₂_eq_map _ g hg _ _ hF₁
  have e₂ := forall₂_eq_map _ g hg _ _ hF₂'
  rw [hg₁ fs₁ (List.Perm.refl _), hg₂ fs₂ (List.Perm.refl _), e₁, e₂]
  exact conjunction_perm _ _ (hp.map g)

/-- C17: after a successful construction each of `initEnv`, `initSys`, `safetyEnv` and
`safetySys` is the conjunction of the functions that `parseBooleanFormula` returns for
the formula lines read while its section (`[ENV_INIT]`, `[SYS_INIT]`, `[ENV_TRANS]`,
`[SYS_TRANS]`) is the current one, however often the header occurs and in whatever order
the functions are taken; it is the constant true when there is no such line; and two
accepted files with the same variable table whose lines of the section are permutations
of each other give the same constraint. -/
theorem construct_constraints (content : Str) (ctx : GR1Context)
    (h : construct (some content) = .ok ctx) :
    (ctx.IsConjunctionOf allowedEnvInit (linesUnder "[ENV_INIT]".toList (getlines content))
        ctx.initEnv ∧
      ctx.IsConjunctionOf allowedSysInit (linesUnder "[SYS_INIT]".toList (getlines content))
        ctx.initSys ∧
      ctx.IsConjunctionOf allowedEnv (linesUnder "[ENV_TRANS]".toList (getlines content))
        ctx.safetyEnv ∧
      ctx.IsConjunctionOf allowedSys (linesUnder "[SYS_TRANS]".toList (getlines content))
        ctx.safetySys) ∧
    ((linesUnder "[ENV_INIT]".toList (getlines content) = [] → ctx.initEnv = ⟨fun _ => true⟩) ∧
      (linesUnder "[SYS_INIT]".toList (getlines content) = [] →
        ctx.initSys = ⟨fun _ => true⟩) ∧
      (linesUnder "[ENV_TRANS]".toList (getlines content) = [] →
        ctx.safetyEnv = ⟨fun _ => true⟩) ∧
      (linesUnder "[SYS_TRANS]".toList (getlines content) = [] →
        ctx.safetySys = ⟨fun _ => true⟩)) ∧
    (∀ (content₂ : Str) (ctx₂ : GR1Context), construct (some content₂) = .ok ctx₂ →
      ctx₂.variableNames = ctx.variableNames → ctx₂.variableTypes = ctx.variableTypes →
      (((linesUnder "[ENV_INIT]".toList (getlines content)).Perm
          (linesUnder "[ENV_INIT]".toList (getlines content₂)) →
        ctx.initEnv = ctx₂.initEnv) ∧
      ((linesUnder "[SYS_INIT]".toList (getlines content)).Perm
          (linesUnder "[SYS_INIT]".toList (getlines content₂)) →
        ctx.initSys = ctx₂.initSys) ∧
      ((linesUnder "[ENV_TRANS]".toList (getlines content)).Perm
          (linesUnder "[ENV_TRANS]".toList (getlines content₂)) →
        ctx.safetyEnv = ctx₂.safetyEnv) ∧
      ((linesUnder "[SYS_TRANS]".toList (getlines content)).Perm
          (linesUnder "[SYS_TRANS]".toList (getlines content₂)) →
        ctx.safetySys = ctx₂.safetySys))) := by
  have key : ∀ (content : Str) (ctx : GR1Context), construct (some content) = .ok ctx →
      ctx.IsConjunctionOf allowedEnvInit (linesUnder "[ENV_INIT]".toList (getlines content))
        ctx.initEnv ∧
      ctx.IsConjunctionOf allowedSysInit (linesUnder "[SYS_INIT]".toList (getlines content))
        ctx.initSys ∧
      ctx.IsConjunctionOf allowedEnv (linesUnder "[ENV_TRANS]".toList (getlines content))
        ctx.safetyEnv ∧
      ctx.IsConjunctionOf allowedSys (linesUnder "[SYS_TRANS]".toList (getlines content))
        ctx.safetySys := by
    intro content ctx h
    obtain ⟨st, hst, hfin⟩ := ofLines_ok _ ctx h
    obtain ⟨hal, _, _⟩ := readLines_contextInv _ st hst
    obtain ⟨e1, e2, e3, e4⟩ := finish_constraints _ _ hfin
    refine ⟨?_, ?_, ?_, ?_⟩
    · rw [e1]; exact isConjunctionOf_finish st ctx hal hfin _ _ _ (readLines_initEnv _ st hst)
    · rw [e2]; exact isConjunctionOf_finish st ctx hal hfin _ _ _ (readLines_initSys _ st hst)
    · rw [e3]; exact isConjunctionOf_finish st ctx hal hfin _ _ _ (readLines_safetyEnv _ st hst)
    · rw [e4]; exact isConjunctionOf_finish st ctx hal hfin _ _ _ (readLines_safetySys _ st hst)
  have hempty : ∀ (roles : RoleSet) (ls : List Str) (g : BF),
      ctx.IsConjunctionOf roles ls g → ls = [] → g = ⟨fun _ => true⟩ := by
    rintro roles ls g ⟨fs, hF, hg⟩ rfl
    cases hF
    exact hg [] (List.Perm.refl _)
  obtain ⟨k1, k2, k3, k4⟩ := key content ctx h
  refine ⟨⟨k1, k2, k3, k4⟩, ⟨hempty _ _ _ k1, hempty _ _ _ k2, hempty _ _ _ k3,
    hempty _ _ _ k4⟩, ?_⟩
  intro content₂ ctx₂ h₂ hn ht
  obtain ⟨q1, q2, q3, q4⟩ := key content₂ ctx₂ h₂
  obtain ⟨hal, _, hfr⟩ := ofLines_contextInv _ ctx h
  obtain ⟨hal₂, _, hfr₂⟩ := ofLines_contextInv _ ctx₂ h₂
  exact ⟨fun hp => isConjunctionOf_perm ctx ctx₂ hal hal₂ hfr hfr₂ hn ht _ _ _ _ _ hp k1 q1,
    fun hp => isConjunctionOf_perm ctx ctx₂ hal hal₂ hfr hfr₂ hn ht _ _ _ _ _ hp k2 q2,
    fun hp => isConjunctionOf_perm ctx ctx₂ hal hal₂ hfr hfr₂ hn ht _ _ _ _ _ hp k3 q3,
    fun hp => isConjunctionOf_perm ctx ctx₂ hal hal₂ hfr hfr₂ hn ht _ _ _ _ _ hp k4 q4⟩

/-- The instance of C17 for a file that opens `[ENV_INIT]` twice and has no line under
`[SYS_INIT]`: `initSys` is the constant true, and `initEnv` is the conjunction of the
functions of the two lines of the section, in either order. -/
theorem construct_constraints_witness :
    ∃ ctx, construct (some repeatedSectionFile) = .ok ctx ∧
      ctx.initSys = ⟨fun _ => true⟩ ∧
      ctx.IsConjunctionOf allowedEnvInit ["! r".toList, "| r ! r".toList] ctx.initEnv :=
  ⟨_, rfl, (construct_constraints repeatedSectionFile _ rfl).2.1.2.1 (by decide),
    (construct_constraints repeatedSectionFile _ rfl).1.1⟩

/-! ## Names that are used before they are declared -/

theorem firstEntry_eq_none (name : Str) : ∀ names : List Str,
    name ∉ names → firstEntry name names = none := by
  intro names
  induction names with
  | nil => intro _; rfl
  | cons n ns ih =>
    intro h
    have h1 : ¬ n = name := fun hc => h (by rw [hc]; exact List.mem_cons_self _ _)
    have h2 : name ∉ ns := fun hc => h (List.mem_cons_of_mem _ hc)
    simp [firstEntry, h1, ih h2]

theorem mem_linesUnderFrom_cons (header : Str) (current : Option Str) (raw : Str)
    (rest : List Str) (hi : ¬ Ignorable raw) (hb : ¬ StartsWithBracket raw) (d : Str)
    (h : d ∈ linesUnderFrom header current rest) :
    d ∈ linesUnderFrom header current (raw :: rest) := by
  rw [linesUnderFrom, if_neg hi, if_neg hb]
  by_cases hc : current = some header
  · rw [if_pos hc]; exact List.mem_cons_of_mem _ h
  · rw [if_neg hc]; exact h

/-- Every name of the variable table was there before the lines were read, or is the
text of one of the declaration lines among them, or such a text followed by a prime. -/
theorem readLines_names_declared : ∀ (lines : List Str) (st st' : GR1Context × Int)
    (current : Option Str), ModeOf current st.2 → readLines st lines = .ok st' →
    ∀ m ∈ st'.1.variableNames, m ∈ st.1.variableNames ∨
      ∃ d, (d ∈ linesUnderFrom "[INPUT]".toList current lines ∨
          d ∈ linesUnderFrom "[OUTPUT]".toList current lines) ∧
        (m = d ∨ m = d ++ [primeChar]) := by
  intro lines
  induction lines with
  | nil => intro st st' current _ h m hm; cases h; exact Or.inl hm
  | cons raw rest ih =>
    intro st st' current hmode h m hm
    rw [readLines] at h
    cases h1 : readLine st raw with
    | error e => rw [h1] at h; cases h
    | ok st₁ =>
      rw [h1] at h
      rcases readLine_ok_cases st st₁ raw h1 with ⟨hi, rfl⟩ | ⟨hi, hb, k, hk, rfl⟩ |
          ⟨hi, hb, hm₁, he⟩
      · have := ih (st.1.nextLine, st.2) st' current hmode h m hm
        simpa [linesUnderFrom, hi] using this
      · have := ih (st.1.nextLine, (k : Int)) st' (some (trim raw)) ⟨k, hk, rfl⟩ h m hm
        simpa [linesUnderFrom, hi, hb] using this
      · have hmode₁ : ModeOf current st₁.2 := by rw [hm₁]; exact hmode
        rcases ih st₁ st' current hmode₁ h m hm with hin | ⟨d, hd, hmd⟩
        · have hdecl : ∀ (j : Nat) (pre post : VariableType), j < 8 → st.2 = (j : Int) →
              st₁.1 = st.1.nextLine.declareVariable (trim raw) pre post →
              sectionHeaders[j]? = some "[INPUT]".toList ∨
                sectionHeaders[j]? = some "[OUTPUT]".toList →
              m ∈ st.1.variableNames ∨
                ∃ d, (d ∈ linesUnderFrom "[INPUT]".toList current (raw :: rest) ∨
                    d ∈ linesUnderFrom "[OUTPUT]".toList current (raw :: rest)) ∧
                  (m = d ∨ m = d ++ [primeChar]) := by
            intro j pre post hj hmj hst₁ hhead
            have hcur : current = sectionHeaders[j]? := (modeOf_iff current st.2 hmode j hj).mpr hmj
            rw [hst₁] at hin
            have hin' : m ∈ st.1.variableNames ++ [trim raw, trim raw ++ [primeChar]] := hin
            rcases List.mem_append.mp hin' with hold | hnew
            · exact Or.inl hold
            · right
              refine ⟨trim raw, ?_, by simpa using hnew⟩
              rcases hhead with hh | hh
              · left
                rw [linesUnderFrom, if_neg hi, if_neg hb, if_pos (by rw [hcur, hh])]
                exact List.mem_cons_self _ _
              · right
                rw [linesUnderFrom, if_neg hi, if_neg hb, if_pos (by rw [hcur, hh])]
                exact List.mem_cons_self _ _
          rcases contentEffect_inv _ _ _ _ he with ⟨hm0, hc⟩ | ⟨hm0, hc⟩ | ⟨_, f, _, hc⟩ |
              ⟨_, f, _, hc⟩ | ⟨_, f, _, hc⟩ | ⟨_, f, _, hc⟩ | ⟨_, f, _, hc⟩ | ⟨_, f, _, hc⟩
          · exact hdecl 0 _ _ (by decide) (by simpa using hm0) hc (Or.inl rfl)
          · exact hdecl 1 _ _ (by decide) (by simpa using hm0) hc (Or.inr rfl)
          all_goals
            left
            rw [hc] at hin
            exact hin
        · right
          refine ⟨d, ?_, hmd⟩
          rcases hd with hd | hd
          · exact Or.inl (mem_linesUnderFrom_cons _ _ _ _ hi hb d hd)
          · exact Or.inr (mem_linesUnderFrom_cons _ _ _ _ hi hb d hd)

theorem firstEntry_of_not_namedBefore (pre : List Str) (st : GR1Context × Int)
    (hst : readLines (GR1Context.initial, -1) pre = .ok st) (n : Str)
    (hn : ¬ NamedBefore pre n) : firstEntry n st.1.variableNames = none := by
  apply firstEntry_eq_none
  intro hmem
  rcases readLines_names_declared pre (GR1Context.initial, -1) st none rfl hst n hmem with h | h
  · cases h
  · obtain ⟨d, hd, hmd⟩ := h
    exact hn ⟨d, List.mem_append.mpr hd, hmd⟩

theorem parseBooleanFormula_notFound (ctx : GR1Context) (allowedTypes : RoleSet)
    (currentLine : Str) (hal : ctx.TableAligned) (k : Nat) (m : Str)
    (he : ctx.parseBooleanFormula currentLine allowedTypes = .error (.variableNotFound k m)) :
    m ∈ tokens currentLine ∧ m ∉ operatorTokens ∧ firstEntry m ctx.variableNames = none := by
  have hspec := recurse_spec ctx allowedTypes hal (currentLine.length + 1) currentLine
    (Nat.lt_succ_self _)
  rw [parseBooleanFormula] at he
  cases hR : ctx.parseBooleanFormulaRecurse allowedTypes (currentLine.length + 1)
      currentLine with
  | error e' =>
    rw [hR] at he
    cases he
    rcases hspec.2 _ hR with ⟨h1, _⟩ | ⟨n, h1, h2, h3, h4⟩ | ⟨n, h1, _⟩
    · cases h1
    · cases h1; exact ⟨h2, h3, h4⟩
    · cases h1
  | ok p =>
    obtain ⟨f, rest⟩ := p
    rw [hR] at he
    simp only at he
    by_cases hw : (extractWord rest).1 = []
    · rw [if_pos hw] at he; cases he
    · rw [if_neg hw] at he; cases he

/-- A line with a name that the table does not carry is not parsed. -/
theorem parseBooleanFormula_unknown (ctx : GR1Context) (allowedTypes : RoleSet)
    (currentLine : Str) (hal : ctx.TableAligned) (n : Str) (hn : n ∈ tokens currentLine)
    (hop : n ∉ operatorTokens) (hfirst : firstEntry n ctx.variableNames = none) :
    ∃ e, ctx.parseBooleanFormula currentLine allowedTypes = .error e := by
  cases hp : ctx.parseBooleanFormula currentLine allowedTypes with
  | error e => exact ⟨e, rfl⟩
  | ok f =>
    exfalso
    obtain ⟨φ, h1, h2, _⟩ := parseBooleanFormula_ok_spec ctx allowedTypes currentLine hal f hp
    exact complete_excludes ctx allowedTypes φ _ h1 h2 (Or.inr (Or.inl ⟨n, hn, hop, hfirst⟩))

/-- The error of a line that is one complete formula in which every name that the table
carries has an allowed role: it is the error for a name that has not been found. -/
theorem parseBooleanFormula_error_of_polish (ctx : GR1Context) (allowedTypes : RoleSet)
    (currentLine : Str) (hal : ctx.TableAligned) (φ : Formula)
    (hline : tokens currentLine = φ.polish) (hwn : φ.WellNamed)
    (hallowed : ∀ m ∈ φ.names, ∀ t, ctx.roleOf m = some t → t ∈ allowedTypes)
    (e : SlugsError) (he : ctx.parseBooleanFormula currentLine allowedTypes = .error e) :
    ∃ m ∈ φ.names, firstEntry m ctx.variableNames = none ∧
      e = .variableNotFound ctx.lineNumberCurrentlyRead m := by
  rcases parseBooleanFormula_error_spec ctx allowedTypes currentLine hal e he with
    ⟨_, ψ, extra, hψ, hex, h⟩ | ⟨m, rfl, _⟩ | ⟨_, _, m, hm, hop, t, ht, hnot⟩ |
    ⟨_, _, ψ, rest, hψ, hrest, h⟩
  · rw [hline] at h
    exact absurd (polish_unique φ ψ extra [] hwn hψ (by simpa using h)).2 hex
  · obtain ⟨h1, h2, h3⟩ := parseBooleanFormula_notFound ctx allowedTypes currentLine hal _ m he
    rw [hline] at h1
    rcases mem_polish φ m h1 with h | h
    · exact absurd h h2
    · exact ⟨m, h, h3, rfl⟩
  · rw [hline] at hm
    rcases mem_polish φ m hm with h | h
    · exact absurd h hop
    · exact absurd (hallowed m h t ht) hnot
  · rw [hline] at h
    exact absurd (polish_unique φ ψ [] rest hwn hψ (by simpa using h)).2.symm hrest

theorem readContent_formula (c : GR1Context) (j : Nat) (h2 : 2 ≤ j) (h8 : j < 8) (l : Str)
    (e : SlugsError) (he : c.parseBooleanFormula l (sectionRoles j) = .error e) :
    readContent c (j : Int) l = .error e := by
  interval_cases j <;> simp only [sectionRoles] at he <;> unfold readContent <;> simp [he]

theorem mem_of_firstEntry_none (name : Str) : ∀ names : List Str,
    firstEntry name names = none → name ∉ names := by
  intro names
  induction names with
  | nil => intro _ h; cases h
  | cons n ns ih =>
    intro h hmem
    by_cases hn : n = name
    · simp [firstEntry, hn] at h
    · simp only [firstEntry, hn, if_false, Option.map_eq_none'] at h
      rcases List.mem_cons.mp hmem with hc | hc
      · exact hn hc.symm
      · exact ih h hc

theorem mem_of_entryCount_pos (c : GR1Context) (name : Str) (role : VariableType)
    (h : 0 < c.entryCount name role) : name ∈ c.variableNames := by
  unfold entryCount at h
  exact (List.of_mem_zip (List.count_pos_iff.mp h)).1

/-- The text of every declaration line read so far, and that text followed by a prime,
are names of the variable table. -/
theorem mem_of_namedBefore (pre : List Str) (st : GR1Context × Int)
    (hst : readLines (GR1Context.initial, -1) pre = .ok st) (n : Str)
    (hn : NamedBefore pre n) : n ∈ st.1.variableNames := by
  obtain ⟨d, hd, hnd⟩ := hn
  rcases List.mem_append.mp hd with hd | hd
  · obtain ⟨h1, h2⟩ := readLines_entryCount_input pre st hst d
    rcases hnd with rfl | rfl
    · exact mem_of_entryCount_pos _ _ .PreInput (by rw [h1]; exact List.count_pos_iff.mpr hd)
    · exact mem_of_entryCount_pos _ _ .PostInput (by rw [h2]; exact List.count_pos_iff.mpr hd)
  · obtain ⟨h1, h2⟩ := readLines_entryCount_output pre st hst d
    rcases hnd with rfl | rfl
    · exact mem_of_entryCount_pos _ _ .PreOutput (by rw [h1]; exact List.count_pos_iff.mpr hd)
    · exact mem_of_entryCount_pos _ _ .PostOutput (by rw [h2]; exact List.count_pos_iff.mpr hd)

/-- C18 as amended: when a formula line contains a name that is no operator token and
that the variable table built from the preceding lines does not carry (it is not the
text of an earlier declaration line, nor such a text followed by a prime), the
construction fails with one of the `throw`s of the program.  If the preceding lines are
accepted, the error is raised for that line and cites its index; and if, moreover, the
line is one complete formula in which every name that the table carries has a role that
the section allows, the error is the one for a variable that has not been found, for a
name of the line that the table does not carry. -/
theorem construct_use_before_declaration (content : Str) (pre post : List Str)
    (raw n : Str) (j : Nat) (hfile : getlines content = pre ++ raw :: post)
    (hi : ¬ Ignorable raw) (hb : ¬ StartsWithBracket raw) (h2 : 2 ≤ j) (h8 : j < 8)
    (hsec : sectionAfter none pre = sectionHeaders[j]?)
    (hn : n ∈ tokens (trim raw)) (hop : n ∉ operatorTokens) (hnew : ¬ NamedBefore pre n) :
    (∃ e, construct (some content) = .error e ∧ e.IsThrow) ∧
    (∀ st, readLines (GR1Context.initial, -1) pre = .ok st →
      ∃ e, readLine st raw = .error e ∧ construct (some content) = .error e ∧
        e.lineNumber = some ((pre.length + 1) % 2 ^ 32) ∧
        ∀ φ : Formula, tokens (trim raw) = φ.polish → φ.WellNamed →
          (∀ m ∈ φ.names, ∀ t, st.1.roleOf m = some t → t ∈ sectionRoles j) →
          ∃ m ∈ φ.names, ¬ NamedBefore pre m ∧
            e = .variableNotFound ((pre.length + 1) % 2 ^ 32) m) := by
  have hmain : ∀ st, readLines (GR1Context.initial, -1) pre = .ok st →
      ∃ e, readLine st raw = .error e ∧ construct (some content) = .error e ∧
        e.lineNumber = some ((pre.length + 1) % 2 ^ 32) ∧
        ∀ φ : Formula, tokens (trim raw) = φ.polish → φ.WellNamed →
          (∀ m ∈ φ.names, ∀ t, st.1.roleOf m = some t → t ∈ sectionRoles j) →
          ∃ m ∈ φ.names, ¬ NamedBefore pre m ∧
            e = .variableNotFound ((pre.length + 1) % 2 ^ 32) m := by
    intro st hst
    have hal : st.1.nextLine.TableAligned :=
      (readLines_extends pre _ st hst).2 tableAligned_initial
    have hmode : st.2 = (j : Int) := readLines_mode_of_section pre st j h8 hst hsec
    have hfirst : firstEntry n st.1.nextLine.variableNames = none :=
      firstEntry_of_not_namedBefore pre st hst n hnew
    obtain ⟨e, he⟩ := parseBooleanFormula_unknown st.1.nextLine (sectionRoles j) (trim raw) hal
      n hn hop hfirst
    have hline : readLine st raw = .error e := by
      rw [readLine_content st raw hi hb, hmode]
      exact readContent_formula _ j h2 h8 _ e he
    have hcount : st.1.nextLine.lineNumberCurrentlyRead = (pre.length + 1) % 2 ^ 32 := by
      have hc := readLines_lineCounter pre _ st hst
      have h0 : (GR1Context.initial, (-1 : Int)).1.lineNumberCurrentlyRead = 0 := rfl
      rw [h0, Nat.zero_add] at hc
      show (st.1.lineNumberCurrentlyRead + 1) % 2 ^ 32 = _
      omega
    refine ⟨e, hline, ?_, ?_, ?_⟩
    · show ofLines (getlines content) = _
      unfold ofLines
      rw [hfile, readLines_append, hst]
      simp only [readLines, hline]
    · rcases readLine_error_lineNumber st hal raw e hline with ⟨hbr, _⟩ | ⟨_, hx⟩
      · exact absurd hbr hb
      · rw [hx]; exact congrArg some hcount
    · intro φ hφ hwn hallowed
      obtain ⟨m, hm, hfm, hem⟩ := parseBooleanFormula_error_of_polish st.1.nextLine
        (sectionRoles j) (trim raw) hal φ hφ hwn hallowed e he
      refine ⟨m, hm, ?_, by rw [hem, hcount]⟩
      exact fun hnb => mem_of_firstEntry_none m _ hfm (mem_of_namedBefore pre st hst m hnb)
  refine ⟨?_, hmain⟩
  cases hst : readLines (GR1Context.initial, -1) pre with
  | ok st =>
    obtain ⟨e, _, hc, _⟩ := hmain st hst
    exact ⟨e, hc, construct_error_isThrow _ e hc⟩
  | error e =>
    have herr : construct (some content) = .error e := by
      show ofLines (getlines content) = _
      unfold ofLines
      rw [hfile, readLines_append, hst]
    exact ⟨e, herr, construct_error_isThrow _ e herr⟩

/-- The instance of C18 as amended for a file whose fourth line, under `[ENV_INIT]`, is
the formula `& x y` with `y` declared only in the sixth line: the construction fails,
with the error for a variable that has not been found, for `y`, citing line 4. -/
theorem construct_use_before_declaration_witness :
    (∃ e, construct (some forwardUseFile) = .error e ∧ e.IsThrow) ∧
      construct (some forwardUseFile) = .error (.variableNotFound 4 "y".toList) :=
  ⟨(construct_use_before_declaration forwardUseFile
    ["[INPUT]".toList, "x".toList, "[ENV_INIT]".toList] ["[INPUT]".toList, "y".toList]
    "& x y".toList "y".toList 2 (by decide) (by decide) (by decide) (by decide) (by decide)
    (by decide) (by decide) (by decide) (by decide)).1, by rfl⟩

/-- C18, the counterexamples.  In the first file the formula `& x y` under `[SYS_INIT]`
uses the output `y`, declared only after it, but the error is the one for the input `x`,
which is not allowed there.  In the second file the formula under `[ENV_TRANS]` uses the
name `x` followed by a prime, declared as an input of its own only after it, and the file
is accepted: the name is that of the primed copy of the input `x`. -/
theorem forward_use_other_outcome :
    construct (some forwardUseDisallowedFile) = .error (.variableNotAllowed 4 "x".toList) ∧
      (∃ ctx, construct (some forwardUsePrimedFile) = .ok ctx ∧
        ctx.safetyEnv = ctx.mgr.constantTrue.and (BF.var 1)) :=
  ⟨by rfl, _, rfl, rfl⟩

/-! ## The realizability check -/

theorem existAbstract_eval (vars : List Nat) (f : BF) : ∀ a : Assignment,
    (BF.existAbstract vars f).eval a = true ↔
      ∃ b : Assignment, (∀ j, j ∉ vars → b j = a j) ∧ f.eval b = true := by
  induction vars with
  | nil =>
    intro a
    constructor
    · intro h; exact ⟨a, fun _ _ => rfl, h⟩
    · rintro ⟨b, hb, hf⟩
      have : b = a := funext (fun j => hb j (List.not_mem_nil j))
      rw [← this]; exact hf
  | cons i rest ih =>
    intro a
    show ((BF.existAbstract rest f).eval (Function.update a i true) ||
      (BF.existAbstract rest f).eval (Function.update a i false)) = true ↔ _
    rw [Bool.or_eq_true, ih, ih]
    constructor
    · rintro (⟨b, hb, hf⟩ | ⟨b, hb, hf⟩)
      · refine ⟨b, fun j hj => ?_, hf⟩
        rw [hb j (fun hc => hj (List.mem_cons_of_mem _ hc))]
        exact Function.update_noteq (fun hc => hj (by rw [hc]; exact List.mem_cons_self _ _)) _ _
      · refine ⟨b, fun j hj => ?_, hf⟩
        rw [hb j (fun hc => hj (List.mem_cons_of_mem _ hc))]
        exact Function.update_noteq (fun hc => hj (by rw [hc]; exact List.mem_cons_self _ _)) _ _
    · rintro ⟨b, hb, hf⟩
      have key : ∀ j, j ∉ rest → b j = Function.update a i (b i) j := by
        intro j hj
        by_cases hji : j = i
        · rw [hji, Function.update_same]
        · rw [Function.update_noteq hji]
          exact hb j (fun hc => by
            rcases List.mem_cons.mp hc with h | h
            · exact hji h
            · exact hj h)
      cases hbi : b i with
      | true => left; exact ⟨b, by rw [hbi] at key; exact key, hf⟩
      | false => right; exact ⟨b, by rw [hbi] at key; exact key, hf⟩

theorem owns_and (mgr : BFManager) (f g : BF) (hf : mgr.Owns f) (hg : mgr.Owns g) :
    mgr.Owns (f.and g) := by
  intro a b hab
  show (f.eval a && g.eval a) = (f.eval b && g.eval b)
  rw [hf a b hab, hg a b hab]

theorem owns_not (mgr : BFManager) (f : BF) (hf : mgr.Owns f) : mgr.Owns f.not := by
  intro a b hab
  show (!f.eval a) = (!f.eval b)
  rw [hf a b hab]

theorem owns_existAbstract (mgr : BFManager) (vars : List Nat) (f : BF) (hf : mgr.Owns f) :
    mgr.Owns (BF.existAbstract vars f) := by
  induction vars with
  | nil => exact hf
  | cons i rest ih =>
    intro a b hab
    have hupd : ∀ v, ∀ j, j < mgr.numVars → Function.update a i v j = Function.update b i v j := by
      intro v j hj
      by_cases hji : j = i
      · rw [hji, Function.update_same, Function.update_same]
      · rw [Function.update_noteq hji, Function.update_noteq hji]; exact hab j hj
    show ((BF.existAbstract rest f).eval (Function.update a i true) ||
      (BF.existAbstract rest f).eval (Function.update a i false)) =
      ((BF.existAbstract rest f).eval (Function.update b i true) ||
      (BF.existAbstract rest f).eval (Function.update b i false))
    rw [ih _ _ (hupd true), ih _ _ (hupd false)]

theorem isFalse_iff (mgr : BFManager) (f : BF) (hf : mgr.Owns f) :
    mgr.isFalse f = true ↔ ∀ a : Assignment, f.eval a = false := by
  unfold BFManager.isFalse
  rw [Bool.not_eq_true', ← Bool.not_eq_true, existAbstract_eval]
  constructor
  · intro h a
    rw [← Bool.not_eq_true]
    intro hfa
    apply h
    refine ⟨fun j => if j < mgr.numVars then a j else false, fun j hj => ?_, ?_⟩
    · have : ¬ j < mgr.numVars := fun hc => hj (List.mem_range.mpr hc)
      simp [this]
    · rw [← hfa]
      exact hf _ _ (fun i hi => by simp [hi])
  · rintro h ⟨b, _, hb⟩
    rw [h b] at hb
    cases hb

theorem classifyVariables_preOutput (c : GR1Context) :
    ∀ (vars : List BF) (i : Nat) (acc : VarLists), i + vars.length = c.variableTypes.length →
    vars = (List.range' i vars.length).map BF.var →
    ∃ ls, c.classifyVariables i vars acc = .ok ls ∧
      ls.preOutputVars = acc.preOutputVars ++
        (indicesOf .PreOutput i (c.variableTypes.drop i)).map BF.var := by
  intro vars
  induction vars with
  | nil =>
    intro i acc hlen _
    simp only [List.length_nil, Nat.add_zero] at hlen
    refine ⟨acc, rfl, ?_⟩
    rw [hlen, List.drop_length]
    simp [indicesOf]
  | cons v vars ih =>
    intro i acc hlen hvars
    simp only [List.length_cons] at hlen
    have hi : i < c.variableTypes.length := by omega
    have hdrop : c.variableTypes.drop i = c.variableTypes[i] :: c.variableTypes.drop (i + 1) :=
      List.drop_eq_getElem_cons hi
    have hget : c.variableTypes[i]? = some c.variableTypes[i] := List.getElem?_eq_getElem hi
    simp only [List.length_cons, List.range'_succ, List.map_cons, List.cons.injEq] at hvars
    obtain ⟨hv, hrest⟩ := hvars
    rw [classifyVariables, hget, hdrop]
    cases ht : c.variableTypes[i] with
    | PreInput =>
      obtain ⟨ls, h1, h2⟩ := ih (i + 1) _ (by omega) hrest
      exact ⟨ls, h1, by rw [h2]; simp [indicesOf]⟩
    | PreOutput =>
      obtain ⟨ls, h1, h2⟩ := ih (i + 1) _ (by omega) hrest
      exact ⟨ls, h1, by rw [h2, hv]; simp [indicesOf]⟩
    | PostInput =>
      obtain ⟨ls, h1, h2⟩ := ih (i + 1) _ (by omega) hrest
      exact ⟨ls, h1, by rw [h2]; simp [indicesOf]⟩
    | PostOutput =>
      obtain ⟨ls, h1, h2⟩ := ih (i + 1) _ (by omega) hrest
      exact ⟨ls, h1, by rw [h2]; simp [indicesOf]⟩

/-- The cube of the `PreOutput` variables of a constructed context holds the BDD
variables with the indices `preOutputIndices`. -/
theorem construct_varCubePreOutput (inFile : Option Str) (ctx : GR1Context)
    (h : construct inFile = .ok ctx) :
    ctx.varCubePreOutput = ctx.preOutputIndices.map BF.var := by
  obtain ⟨content, _, hl⟩ := construct_ok inFile ctx h
  obtain ⟨st, hst, hfin⟩ := ofLines_ok _ ctx hl
  obtain ⟨hal, _, hfr⟩ := readLines_contextInv _ st hst
  obtain ⟨ls, hcl, rfl⟩ := finish_ok _ _ hfin
  obtain ⟨ls', hcl', hpo⟩ := classifyVariables_preOutput st.1 st.1.variables 0
    ⟨st.1.preVars, st.1.postVars, [], [], [], []⟩ (by rw [Nat.zero_add, hal.1, hal.2])
    (by rw [← List.range_eq_range']; exact hfr.2)
  rw [hcl] at hcl'
  cases hcl'
  show ls.preOutputVars = _
  rw [hpo]
  rfl

theorem construct_owns (inFile : Option Str) (ctx : GR1Context)
    (h : construct inFile = .ok ctx) : ctx.mgr.Owns ctx.initEnv ∧ ctx.mgr.Owns ctx.initSys := by
  obtain ⟨content, _, hl⟩ := construct_ok inFile ctx h
  obtain ⟨hal, ⟨s1, s2, _⟩, hfr⟩ := ofLines_contextInv _ ctx hl
  have key : ∀ (roles : RoleSet) (a b : Assignment), (∀ i, i < ctx.mgr.numVars → a i = b i) →
      ctx.AgreeOn roles a b := by
    intro roles a b hab
    apply agreeOn_of_indices ctx hfr
    intro i t ht _
    apply hab
    rw [hfr.1, hal.1, ← hal.2]
    by_contra hc
    rw [List.getElem?_eq_none (by omega)] at ht
    cases ht
  exact ⟨fun a b hab => s1 a b (key _ a b hab), fun a b hab => s2 a b (key _ a b hab)⟩

/-- C15: for a constructed game context and a fixed point `Z` that is a Boolean
function of the variables of the manager, `checkRealizability` reports realizable exactly
when for every valuation that satisfies `initEnv` there is a valuation that differs from
it at most at the `PreOutput` variables and satisfies `initSys` and `Z`; and exactly when
`initEnv ∧ ¬(∃ pre-output. initSys ∧ Z)` is false under every valuation.  The variables
that are quantified are those of the cube `varCubePreOutput`. -/
theorem checkRealizability_iff (computeWinningPositions : GR1Context → BF)
    (inFile : Option Str) (ctx : GR1Context) (h : construct inFile = .ok ctx)
    (hZ : ctx.mgr.Owns (computeWinningPositions ctx)) :
    (ctx.checkRealizability computeWinningPositions = true ↔
      ∀ a : Assignment, ctx.initEnv.eval a = true →
        ∃ b : Assignment, (∀ j, j ∉ ctx.preOutputIndices → b j = a j) ∧
          ctx.initSys.eval b = true ∧ (computeWinningPositions ctx).eval b = true) ∧
    (ctx.checkRealizability computeWinningPositions = true ↔
      ∀ a : Assignment,
        (ctx.initEnv.and (BF.not (BF.existAbstract ctx.preOutputIndices
          (ctx.initSys.and (computeWinningPositions ctx))))).eval a = false) ∧
    ctx.varCubePreOutput = ctx.preOutputIndices.map BF.var := by
  obtain ⟨hE, hS⟩ := construct_owns inFile ctx h
  have hown := owns_and _ _ _ hE
    (owns_not _ _ (owns_existAbstract _ ctx.preOutputIndices _ (owns_and _ _ _ hS hZ)))
  have h2 := isFalse_iff ctx.mgr _ hown
  refine ⟨?_, h2, construct_varCubePreOutput inFile ctx h⟩
  unfold checkRealizability
  rw [h2]
  constructor
  · intro hall a ha
    have := hall a
    have hq : (BF.existAbstract ctx.preOutputIndices
        (ctx.initSys.and (computeWinningPositions ctx))).eval a = true := by
      have h3 : (ctx.initEnv.eval a && !(BF.existAbstract ctx.preOutputIndices
        (ctx.initSys.and (computeWinningPositions ctx))).eval a) = false := this
      rw [ha] at h3
      simpa using h3
    obtain ⟨b, hb, hf⟩ := (existAbstract_eval _ _ a).mp hq
    have hf' : (ctx.initSys.eval b && (computeWinningPositions ctx).eval b) = true := hf
    rw [Bool.and_eq_true] at hf'
    exact ⟨b, hb, hf'.1, hf'.2⟩
  · intro hall a
    show (ctx.initEnv.eval a && !(BF.existAbstract ctx.preOutputIndices
        (ctx.initSys.and (computeWinningPositions ctx))).eval a) = false
    cases ha : ctx.initEnv.eval a with
    | false => rfl
    | true =>
      obtain ⟨b, hb, h1, h2⟩ := hall a ha
      have hq : (BF.existAbstract ctx.preOutputIndices
          (ctx.initSys.and (computeWinningPositions ctx))).eval a = true :=
        (existAbstract_eval _ _ a).mpr ⟨b, hb, by
          show (ctx.initSys.eval b && (computeWinningPositions ctx).eval b) = true
          rw [h1, h2]; rfl⟩
      rw [hq]; rfl

/-- The instance of C15 for the context constructed from `exampleFile` and the fixed
point that holds everywhere: the initial constraints `! r` and `g` are realizable. -/
theorem checkRealizability_iff_witness :
    ∃ ctx, construct (some exampleFile) = .ok ctx ∧
      ctx.checkRealizability (fun _ => ⟨fun _ => true⟩) = true ∧
      (ctx.checkRealizability (fun _ => ⟨fun _ => true⟩) = true ↔
        ∀ a : Assignment, ctx.initEnv.eval a = true →
          ∃ b : Assignment, (∀ j, j ∉ ctx.preOutputIndices → b j = a j) ∧
            ctx.initSys.eval b = true ∧ (⟨fun _ => true⟩ : BF).eval b = true) :=
  ⟨_, rfl, by decide,
    (checkRealizability_iff (fun _ => ⟨fun _ => true⟩) (some exampleFile) _ rfl
      (fun _ _ _ => rfl)).1⟩

end Slugs
